import Mathlib

/-!
# AVL ordered set (`avl_tree.h`)

A shallow embedding of the class template `Set<T>` and of its iterator.

* A value of `Node α` is a `Node*` together with the subtree it owns: `nil` is
  `nullptr`, `node addr key height left right prev` is a pointer to the node
  stored at address `addr`.  The child pointers are the owned subtrees; the
  non-owning back pointer `prev` is an address (`none` is `nullptr`).
* `unsigned char height` is a natural number reduced modulo `256` on every
  store; `size_t cnt` is a natural number reduced modulo `2 ^ 64`.
* A function that dereferences a pointer returns `none` where the source
  would dereference `nullptr`.
* `new Node(elem)` returns an address chosen by the allocator; it is the
  argument `a` of `insert`.
-/

namespace AVLTree

set_option linter.unusedSectionVars false
set_option linter.unusedVariables false

/-- The number of values of `size_t` and of a pointer: `2 ^ 64`. -/
def SIZE_MOD : Nat := 18446744073709551616

/-- The number of values of `unsigned char`. -/
def UCHAR_MOD : Nat := 256

/-- Source constant `const size_t ROTATE_FACTOR = 2`. -/
def ROTATE_FACTOR : Nat := 2

/-- Conversion of an `int` to `size_t` (the usual arithmetic conversion applied
when an `int` is compared with a `size_t`). -/
def toSizeT (i : Int) : Nat := (i % (SIZE_MOD : Int)).toNat

/-- Unary minus on `size_t`. -/
def negSizeT (n : Nat) : Nat := (SIZE_MOD - n % SIZE_MOD) % SIZE_MOD

/-- Conversion of an `int` to `unsigned char` (the store into `height`). -/
def toUChar (i : Int) : Nat := (i % (UCHAR_MOD : Int)).toNat

/-- A `Node*` with the subtree it owns (`struct Set<T>::Node`). -/
inductive Node (α : Type) where
  | nil : Node α
  | node (addr : Nat) (key : α) (height : Nat) (left right : Node α)
      (prev : Option Nat) : Node α
  deriving DecidableEq, Repr

open Node

variable {α : Type}

/-- The pointer value itself: `none` for `nullptr`. -/
def addrOf : Node α → Option Nat
  | nil => none
  | node a _ _ _ _ _ => some a

/-- Read of `cur->key`. -/
def keyOf : Node α → Option α
  | nil => none
  | node _ k _ _ _ _ => some k

/-- Read of `cur->left`. -/
def leftOf : Node α → Option (Node α)
  | nil => none
  | node _ _ _ l _ _ => some l

/-- Read of `cur->right`. -/
def rightOf : Node α → Option (Node α)
  | nil => none
  | node _ _ _ _ r _ => some r

/-- Read of `cur->prev`. -/
def prevOf : Node α → Option (Option Nat)
  | nil => none
  | node _ _ _ _ _ p => some p

/-- The guarded store `if (other) other->prev = p`. -/
def setPrev : Node α → Option Nat → Node α
  | nil, _ => nil
  | node a k h l r _, p => node a k h l r p

/-- Source `int height(Node* cur)`. -/
def height : Node α → Int
  | nil => 0
  | node _ _ h _ _ _ => (h : Int)

/-- Source `int factor(Node* cur)`. -/
def factor : Node α → Option Int
  | nil => none
  | node _ _ _ l r _ => some (height r - height l)

/-- Source `void fix(Node* cur)`; the result is the node after the store. -/
def fix : Node α → Option (Node α)
  | nil => none
  | node a k _ l r p => some (node a k (toUChar (max (height l) (height r) + 1)) l r p)

/-- Source `void hang_left(Node* cur, Node* other)`; the result is `cur` after
the call. -/
def hang_left : Node α → Node α → Option (Node α)
  | nil, _ => none
  | node a k h _ r p, other => some (node a k h (setPrev other (some a)) r p)

/-- Source `void hang_right(Node* cur, Node* other)`; the result is `cur` after
the call. -/
def hang_right : Node α → Node α → Option (Node α)
  | nil, _ => none
  | node a k h l _ p, other => some (node a k h l (setPrev other (some a)) p)

/-- Write-back of an updated right child (the child was changed in place). -/
def putRight : Node α → Node α → Option (Node α)
  | nil, _ => none
  | node a k h l _ p, r => some (node a k h l r p)

/-- Write-back of an updated left child (the child was changed in place). -/
def putLeft : Node α → Node α → Option (Node α)
  | nil, _ => none
  | node a k h _ r p, l => some (node a k h l r p)

/-- Source `Node* rotate_right(Node* cur)`.  After `hang_right(left_child, cur)`
the node `cur` is the right child of `left_child`, so `fix(cur)` acts there. -/
def rotate_right (cur : Node α) : Option (Node α) := do
  let left_child ← leftOf cur
  let cur ← hang_left cur (← rightOf left_child)
  let left_child ← hang_right left_child cur
  let cur ← fix (← rightOf left_child)
  let left_child ← putRight left_child cur
  fix left_child

/-- Source `Node* rotate_left(Node* cur)`. -/
def rotate_left (cur : Node α) : Option (Node α) := do
  let right_child ← rightOf cur
  let cur ← hang_right cur (← leftOf right_child)
  let right_child ← hang_left right_child cur
  let cur ← fix (← leftOf right_child)
  let right_child ← putLeft right_child cur
  fix right_child

/-- Source `Node* balance(Node* cur)`. -/
def balance (cur : Node α) : Option (Node α) := do
  let cur ← fix cur
  if toSizeT (← factor cur) = ROTATE_FACTOR then
    if (← factor (← rightOf cur)) < 0 then
      let cur ← hang_right cur (← rotate_right (← rightOf cur))
      rotate_left cur
    else
      rotate_left cur
  else if toSizeT (← factor cur) = negSizeT ROTATE_FACTOR then
    if (← factor (← leftOf cur)) > 0 then
      let cur ← hang_left cur (← rotate_left (← leftOf cur))
      rotate_right cur
    else
      rotate_right cur
  else
    some cur

variable [LinearOrder α]

/-- Source `Node* insert(Node* cur, const T& elem)`.  The member `cnt` is passed
in and returned; `a` is the address returned by `new Node(elem)`. -/
def insert (a : Nat) : Node α → α → Nat → Option (Node α × Nat)
  | nil, elem, cnt => some (node a elem 1 nil nil none, (cnt + 1) % SIZE_MOD)
  | node ca k h l r p, elem, cnt =>
    if elem < k then do
      let res ← insert a l elem cnt
      let cur ← hang_left (node ca k h l r p) res.1
      let cur ← balance cur
      some (cur, res.2)
    else if k < elem then do
      let res ← insert a r elem cnt
      let cur ← hang_right (node ca k h l r p) res.1
      let cur ← balance cur
      some (cur, res.2)
    else do
      let cur ← balance (node ca k h l r p)
      some (cur, cnt)

/-- Source `Node* find_min(Node* cur) const`. -/
def find_min : Node α → Option (Node α)
  | nil => none
  | node a k h nil r p => some (node a k h nil r p)
  | node _ _ _ (node la lk lh ll lr lp) _ _ => find_min (node la lk lh ll lr lp)

/-- Source `Node* find_max(Node* cur) const`. -/
def find_max : Node α → Node α
  | nil => nil
  | node a k h l nil p => node a k h l nil p
  | node _ _ _ _ (node ra rk rh rl rr rp) _ => find_max (node ra rk rh rl rr rp)

/-- Source `Node* erase_min(Node* cur)`. -/
def erase_min : Node α → Option (Node α)
  | nil => none
  | node _ _ _ nil r _ => some r
  | node a k h (node la lk lh ll lr lp) r p => do
    let l ← erase_min (node la lk lh ll lr lp)
    let cur ← hang_left (node a k h (node la lk lh ll lr lp) r p) l
    balance cur

/-- Source `Node* erase(Node* cur, const T& elem)`.  The member `cnt` is passed in
and returned.  `min_elem` keeps its own fields while `erase_min` detaches it. -/
def erase : Node α → α → Nat → Option (Node α × Nat)
  | nil, _, cnt => some (nil, cnt)
  | node ca k h l r p, elem, cnt =>
    if elem < k then do
      let res ← erase l elem cnt
      let cur ← hang_left (node ca k h l r p) res.1
      let cur ← balance cur
      some (cur, res.2)
    else if k < elem then do
      let res ← erase r elem cnt
      let cur ← hang_right (node ca k h l r p) res.1
      let cur ← balance cur
      some (cur, res.2)
    else
      let cnt := (cnt + (SIZE_MOD - 1)) % SIZE_MOD
      let left_child := l
      let right_child := r
      match right_child with
      | nil => some (left_child, cnt)
      | node ra rk rh rl rr rp => do
        let min_elem ← find_min (node ra rk rh rl rr rp)
        let min_elem ← hang_right min_elem (← erase_min (node ra rk rh rl rr rp))
        let min_elem ← hang_left min_elem left_child
        let cur ← balance min_elem
        some (cur, cnt)

/-- Source `Node* find(Node* cur, const T& elem) const`. -/
def find : Node α → α → Node α
  | nil, _ => nil
  | node a k h l r p, elem =>
    if elem < k then find l elem
    else if k < elem then find r elem
    else node a k h l r p

/-- Source `Node* lower_bound(Node* cur, const T& elem) const`. -/
def lower_bound : Node α → α → Node α
  | nil, _ => nil
  | node a k h l r p, elem =>
    if k < elem then lower_bound r elem
    else
      match lower_bound l elem with
      | nil => node a k h l r p
      | node ba bk bh bl br bp => node ba bk bh bl br bp

/-- Source `class Set`: the members `root` and `cnt`. -/
structure Set (α : Type) where
  root : Node α
  cnt : Nat
  deriving DecidableEq, Repr

/-- Source `class Set<T>::iterator`: the members `last` and `cur` are node
addresses (`none` is `nullptr`). -/
structure iterator where
  last : Option Nat
  cur : Option Nat
  deriving DecidableEq, Repr

/-- Source constructor `Set() : root(nullptr), cnt(0)`. -/
def Set.ctor : Set α := ⟨nil, 0⟩

/-- Source `void clear()`. -/
def Set.clear (_s : Set α) : Set α := ⟨nil, 0⟩

/-- Source `size_t size() const`. -/
def Set.size (s : Set α) : Nat := s.cnt

/-- Source `bool empty() const`. -/
def Set.empty (s : Set α) : Bool := s.cnt == 0

/-- Source `void insert(const T& elem)`: `root->prev = nullptr` dereferences
`root`. -/
def Set.insert (a : Nat) (s : Set α) (elem : α) : Option (Set α) := do
  let res ← AVLTree.insert a s.root elem s.cnt
  let _ ← addrOf res.1
  some ⟨setPrev res.1 none, res.2⟩

/-- Source `void erase(const T& elem)`. -/
def Set.erase (s : Set α) (elem : α) : Option (Set α) := do
  let res ← AVLTree.erase s.root elem s.cnt
  some ⟨setPrev res.1 none, res.2⟩

/-- Source `iterator find(const T& elem) const`. -/
def Set.find (s : Set α) (elem : α) : iterator :=
  ⟨addrOf (find_max s.root), addrOf (AVLTree.find s.root elem)⟩

/-- Source `iterator lower_bound(const T& elem) const`. -/
def Set.lower_bound (s : Set α) (elem : α) : iterator :=
  ⟨addrOf (find_max s.root), addrOf (AVLTree.lower_bound s.root elem)⟩

/-- Source `iterator begin() const`. -/
def Set.begin (s : Set α) : Option iterator :=
  match s.root with
  | nil => some ⟨addrOf (find_max (nil : Node α)), none⟩
  | node a k h l r p => do
    let m ← find_min (node a k h l r p)
    some ⟨addrOf (find_max (node a k h l r p)), addrOf m⟩

/-- Source `iterator end() const`. -/
def Set.end (s : Set α) : iterator := ⟨addrOf (find_max s.root), none⟩

/-- The node stored at address `p` among the nodes owned by `rt`: a pointer
that is not the address of a live node cannot be dereferenced. -/
def nodeAt : Node α → Nat → Option (Node α)
  | nil, _ => none
  | node a k h l r pv, p =>
    if a = p then some (node a k h l r pv)
    else
      match nodeAt l p with
      | some n => some n
      | none => nodeAt r p

/-- The loop `while (cur->left) cur = cur->left` of `operator++`. -/
def descend_left : Node α → Option (Node α)
  | nil => none
  | node a k h nil r p => some (node a k h nil r p)
  | node _ _ _ (node la lk lh ll lr lp) _ _ => descend_left (node la lk lh ll lr lp)

/-- The loop `while (cur->right) cur = cur->right` of `operator--`. -/
def descend_right : Node α → Option (Node α)
  | nil => none
  | node a k h l nil p => some (node a k h l nil p)
  | node _ _ _ _ (node ra rk rh rl rr rp) _ => descend_right (node ra rk rh rl rr rp)

/-- The loop `while (cur) ...` of `operator++`, which climbs the `prev` links
until it leaves a left child; `fuel` bounds the number of iterations. -/
def ascend_inc (rt : Node α) : Nat → Option Nat → Option (Option Nat)
  | 0, _ => none
  | _ + 1, none => some none
  | fuel + 1, some c => do
    let n ← nodeAt rt c
    match (← prevOf n) with
    | none => ascend_inc rt fuel none
    | some p => do
      let pn ← nodeAt rt p
      if addrOf (← leftOf pn) = some c then some (some p)
      else ascend_inc rt fuel (some p)

/-- The loop `while (cur) ...` of `operator--`, which climbs the `prev` links
until it leaves a right child; `fuel` bounds the number of iterations. -/
def ascend_dec (rt : Node α) : Nat → Option Nat → Option (Option Nat)
  | 0, _ => none
  | _ + 1, none => some none
  | fuel + 1, some c => do
    let n ← nodeAt rt c
    match (← prevOf n) with
    | none => ascend_dec rt fuel none
    | some p => do
      let pn ← nodeAt rt p
      if addrOf (← rightOf pn) = some c then some (some p)
      else ascend_dec rt fuel (some p)

/-- Source `iterator operator++()` on the nodes owned by `rt`. -/
def operator_inc (rt : Node α) (fuel : Nat) (it : iterator) : Option iterator := do
  let c ← it.cur
  let n ← nodeAt rt c
  match (← rightOf n) with
  | node ra rk rh rl rr rp => do
    let m ← descend_left (node ra rk rh rl rr rp)
    some ⟨it.last, addrOf m⟩
  | nil => do
    let c ← ascend_inc rt fuel (some c)
    some ⟨it.last, c⟩

/-- Source `iterator operator--()` on the nodes owned by `rt`. -/
def operator_dec (rt : Node α) (fuel : Nat) (it : iterator) : Option iterator :=
  match it.cur with
  | none => some ⟨it.last, it.last⟩
  | some c => do
    let n ← nodeAt rt c
    match (← leftOf n) with
    | node la lk lh ll lr lp => do
      let m ← descend_right (node la lk lh ll lr lp)
      some ⟨it.last, addrOf m⟩
    | nil => do
      let c ← ascend_dec rt fuel (some c)
      some ⟨it.last, c⟩

/-- Source `T operator*() const` on the nodes owned by `rt`. -/
def operator_deref (rt : Node α) (it : iterator) : Option α := do
  let c ← it.cur
  let n ← nodeAt rt c
  keyOf n

/-- Source `bool operator==(const iterator& other)`. -/
def operator_eq (it other : iterator) : Bool := it.cur == other.cur

/-- The client loop `for (it = first; it != end(); ++it) out.push_back(*it)`;
`n` bounds the number of iterations of this loop and `fuel` those of each
`operator++`. -/
def collect (s : Set α) (fuel : Nat) : Nat → iterator → Option (List α)
  | 0, _ => none
  | n + 1, it =>
    if operator_eq it (Set.end s) then some []
    else do
      let v ← operator_deref s.root it
      let it ← operator_inc s.root fuel it
      let rest ← collect s fuel n it
      some (v :: rest)

/-- The traversal from `begin()` to `end()`. -/
def traverse (s : Set α) (fuel : Nat) : Option (List α) := do
  let it ← Set.begin s
  collect s fuel fuel it

/-! ## Observations and invariants -/

/-- The in-order sequence of the nodes of a subtree: address and key. -/
def inorder : Node α → List (Nat × α)
  | nil => []
  | node a k _ l r _ => inorder l ++ (a, k) :: inorder r

/-- The in-order sequence of the keys of a subtree. -/
def keys (t : Node α) : List α := (inorder t).map Prod.snd

/-- The in-order sequence of the node addresses of a subtree. -/
def addrs (t : Node α) : List Nat := (inorder t).map Prod.fst

/-- The number of nodes reachable from a pointer. -/
def count : Node α → Nat
  | nil => 0
  | node _ _ _ l r _ => count l + count r + 1

/-- BST order: at every node, the keys of the left subtree are smaller and the
keys of the right subtree are greater than the key of the node. -/
def BST : Node α → Prop
  | nil => True
  | node _ k _ l r _ => (∀ x ∈ keys l, x < k) ∧ (∀ x ∈ keys r, k < x) ∧ BST l ∧ BST r

/-- AVL balance: at every node, the stored heights of the two children differ by
at most one. -/
def Balanced : Node α → Prop
  | nil => True
  | node _ _ _ l r _ =>
    (height l ≤ height r + 1 ∧ height r ≤ height l + 1) ∧ Balanced l ∧ Balanced r

/-- Height consistency: at every node, the stored height is one more than the
larger of the children's heights (`nullptr` has height `0`). -/
def HeightOK : Node α → Prop
  | nil => True
  | node _ _ h l r _ => (h : Int) = max (height l) (height r) + 1 ∧ HeightOK l ∧ HeightOK r

/-- The `prev` field of a non-null pointer holds `q`. -/
def prevIs : Node α → Option Nat → Prop
  | nil, _ => True
  | node _ _ _ _ _ p, q => p = q

/-- Parent consistency below a pointer: every non-null child of every node has
the address of that node in `prev`. -/
def ParentOK : Node α → Prop
  | nil => True
  | node a _ _ l r _ => prevIs l (some a) ∧ prevIs r (some a) ∧ ParentOK l ∧ ParentOK r

/-- The three invariants of the tree: BST order, AVL balance and height
consistency, at every node. -/
structure Inv (t : Node α) : Prop where
  bst : BST t
  bal : Balanced t
  hts : HeightOK t

/-- Well-formed addresses: the nodes have pairwise distinct addresses, none of
them `0` (the address of `nullptr`), all of them pointer values. -/
def AddrOK (t : Node α) : Prop :=
  (addrs t).Nodup ∧ ∀ a ∈ addrs t, 0 < a ∧ a < SIZE_MOD

/-- A well-formed set: the tree invariants, parent consistency with a root
without parent, well-formed addresses and size consistency. -/
structure Set.WF (s : Set α) : Prop where
  inv : Inv s.root
  parent : ParentOK s.root
  rootPrev : prevIs s.root none
  addr : AddrOK s.root
  size : s.cnt = count s.root

/-- The least number of nodes of an AVL tree of height `h`. -/
def minNodes : Nat → Nat
  | 0 => 0
  | 1 => 1
  | h + 2 => minNodes (h + 1) + minNodes h + 1

/-- The sets reached from the empty set by `insert`, `erase` and `clear`, with
the mathematical set of the elements inserted and not erased since.  The
allocator gives `insert` an address that is not `nullptr` and not that of a
live node. -/
inductive Reach : Set α → Finset α → Prop
  | ctor : Reach Set.ctor ∅
  | insert {s s1 : Set α} {m : Finset α} (a : Nat) (e : α) :
      Reach s m → 0 < a → a < SIZE_MOD → a ∉ addrs s.root →
      Set.insert a s e = some s1 → Reach s1 (Insert.insert e m)
  | erase {s s1 : Set α} {m : Finset α} (e : α) :
      Reach s m → Set.erase s e = some s1 → Reach s1 (m.erase e)
  | clear {s : Set α} {m : Finset α} : Reach s m → Reach (Set.clear s) ∅

instance decBST : (t : Node α) → Decidable (BST t)
  | nil => isTrue trivial
  | node _ k _ l r _ =>
    haveI := decBST l
    haveI := decBST r
    inferInstanceAs (Decidable ((∀ x ∈ keys l, x < k) ∧ (∀ x ∈ keys r, k < x) ∧ BST l ∧ BST r))

instance decBalanced : (t : Node α) → Decidable (Balanced t)
  | nil => isTrue trivial
  | node _ _ _ l r _ =>
    haveI := decBalanced l
    haveI := decBalanced r
    inferInstanceAs (Decidable
      ((height l ≤ height r + 1 ∧ height r ≤ height l + 1) ∧ Balanced l ∧ Balanced r))

instance decHeightOK : (t : Node α) → Decidable (HeightOK t)
  | nil => isTrue trivial
  | node _ _ h l r _ =>
    haveI := decHeightOK l
    haveI := decHeightOK r
    inferInstanceAs (Decidable
      ((h : Int) = max (height l) (height r) + 1 ∧ HeightOK l ∧ HeightOK r))

instance decPrevIs : (t : Node α) → (q : Option Nat) → Decidable (prevIs t q)
  | nil, _ => isTrue trivial
  | node _ _ _ _ _ p, q => inferInstanceAs (Decidable (p = q))

instance decParentOK : (t : Node α) → Decidable (ParentOK t)
  | nil => isTrue trivial
  | node a _ _ l r _ =>
    haveI := decParentOK l
    haveI := decParentOK r
    inferInstanceAs (Decidable
      (prevIs l (some a) ∧ prevIs r (some a) ∧ ParentOK l ∧ ParentOK r))

instance decInv (t : Node α) : Decidable (Inv t) :=
  decidable_of_iff (BST t ∧ Balanced t ∧ HeightOK t)
    ⟨fun h => ⟨h.1, h.2.1, h.2.2⟩, fun h => ⟨h.bst, h.bal, h.hts⟩⟩

instance decAddrOK (t : Node α) : Decidable (AddrOK t) :=
  inferInstanceAs (Decidable ((addrs t).Nodup ∧ ∀ a ∈ addrs t, 0 < a ∧ a < SIZE_MOD))

instance decWF (s : Set α) : Decidable s.WF :=
  decidable_of_iff
    (Inv s.root ∧ ParentOK s.root ∧ prevIs s.root none ∧ AddrOK s.root ∧ s.cnt = count s.root)
    ⟨fun h => ⟨h.1, h.2.1, h.2.2.1, h.2.2.2.1, h.2.2.2.2⟩,
      fun h => ⟨h.inv, h.parent, h.rootPrev, h.addr, h.size⟩⟩

/-- What `balance` guarantees about its result `t` for the node `a`, `k` with
children `l` and `r`. -/
def BalancePost (a : Nat) (k : α) (l r : Node α) (p : Option Nat) (t : Node α) : Prop :=
  Balanced t ∧ HeightOK t ∧
    inorder t = inorder l ++ (a, k) :: inorder r ∧
    (height t = max (height l) (height r) + 1 ∨
      (height t = max (height l) (height r) ∧
        (height r = height l + 2 ∨ height l = height r + 2))) ∧
    (ParentOK l → ParentOK r → prevIs l (some a) → prevIs r (some a) → ParentOK t) ∧
    (height r ≤ height l + 1 → height l ≤ height r + 1 →
      t = node a k (toUChar (max (height l) (height r) + 1)) l r p) ∧
    t ≠ nil

/-- What `insert` guarantees about its result `t1` and the new counter `c1`. -/
def InsertPost (a : Nat) (t : Node α) (e : α) (c : Nat) (t1 : Node α) (c1 : Nat) : Prop :=
  Inv t1 ∧ t1 ≠ nil ∧
    (height t1 = height t ∨ height t1 = height t + 1) ∧
    (e ∈ keys t → inorder t1 = inorder t ∧ c1 = c ∧ (ParentOK t → t1 = t)) ∧
    (e ∉ keys t → (inorder t1).Perm ((a, e) :: inorder t) ∧ c1 = (c + 1) % SIZE_MOD) ∧
    (ParentOK t → ParentOK t1)

/-- What `find_min` and `erase_min` guarantee about the minimum `m` and the
remaining subtree `t1`. -/
def EraseMinPost (t m t1 : Node α) : Prop :=
  (∃ ma mk mh mr mp, m = node ma mk mh nil mr mp ∧ inorder t = (ma, mk) :: inorder t1) ∧
    Balanced t1 ∧ HeightOK t1 ∧
    (height t1 = height t ∨ height t1 + 1 = height t) ∧
    (ParentOK t → ParentOK t1)

/-- What `erase` guarantees about its result `t1` and the new counter `c1`. -/
def ErasePost (t : Node α) (e : α) (c : Nat) (t1 : Node α) (c1 : Nat) : Prop :=
  Inv t1 ∧
    (height t1 = height t ∨ height t1 + 1 = height t) ∧
    inorder t1 = (inorder t).filter (fun x => decide (x.2 ≠ e)) ∧
    (e ∈ keys t → c1 = (c + (SIZE_MOD - 1)) % SIZE_MOD) ∧
    (e ∉ keys t → c1 = c ∧ (ParentOK t → t1 = t)) ∧
    (ParentOK t → ParentOK t1)

/-- The pointer `n` is non-null and points to a node owned by `t`. -/
def IsSub (n : Node α) : Node α → Prop
  | nil => False
  | node a k h l r p => n = node a k h l r p ∨ IsSub n l ∨ IsSub n r

/-- A sample tree: the keys `3`, `5`, `8` with `5` at the root. -/
def sampleTree : Node Nat :=
  node 1 5 2 (node 2 3 1 nil nil (some 1)) (node 3 8 1 nil nil (some 1)) none

/-- A sample set: `sampleTree` with its size. -/
def sampleSet : Set Nat := ⟨sampleTree, 3⟩

/-- The model of `sampleSet`: the elements `5`, `3`, `8` in insertion order. -/
def sampleModel : Finset Nat := Insert.insert 8 (Insert.insert 3 (Insert.insert 5 ∅))

/-- The element that follows the first occurrence of `x` in a list. -/
def nextOf : List Nat → Nat → Option Nat
  | [], _ => none
  | y :: ys, x => if y = x then ys.head? else nextOf ys x

/-- The set `{1, 3, 5, 7}`, as built by inserting `1`, `3`, `5`, `7` in this
order into the empty set (the nodes at the addresses `1`, `2`, `3`, `4`). -/
def set1357 : Set Nat :=
  ⟨node 2 3 3 (node 1 1 1 nil nil (some 2))
    (node 3 5 2 nil (node 4 7 1 nil nil (some 3)) (some 2)) none, 4⟩

/-- The tree without its back pointers: the shape, the addresses, the keys and
the stored heights. -/
def dropPrev : Node α → Node α
  | nil => nil
  | node a k h l r _ => node a k h (dropPrev l) (dropPrev r) none

/-- The number of nodes on the longest path from a pointer down to a leaf. -/
def depth : Node α → Nat
  | nil => 0
  | node _ _ _ l r _ => max (depth l) (depth r) + 1

/-- The loops `while (first != last) insert(*first++)` and
`for (const T& elem : elems) insert(elem)`: the elements are inserted in
sequence order; `as` are the addresses that the allocator hands to the
successive `insert` calls (allocation fails when there is none left). -/
def insert_all : Set α → List Nat → List α → Option (Set α)
  | s, _, [] => some s
  | _, [], _ :: _ => none
  | s, a :: as, e :: es => do
    let s ← Set.insert a s e
    insert_all s as es

/-- Source `Set(Iterator first, Iterator last) : Set()`; the range is the list
`elems`. -/
def Set.ctor_range (as : List Nat) (elems : List α) : Option (Set α) :=
  insert_all Set.ctor as elems

/-- Source `Set(std::initializer_list<T> elems) : Set()`. -/
def Set.ctor_list (as : List Nat) (elems : List α) : Option (Set α) :=
  insert_all Set.ctor as elems

/-- Source `Set(const Set& other) : Set()`: the range-for loop reads `other`
from `begin()` to `end()`; `other` is a different object and is not changed by
the inserts. -/
def Set.ctor_copy (other : Set α) (fuel : Nat) (as : List Nat) : Option (Set α) := do
  let elems ← traverse other fuel
  insert_all Set.ctor as elems

/-- Source `Set& operator=(const Set& other)`; `same` is the outcome of the
test `this == &other`. -/
def Set.operator_assign (this other : Set α) (same : Bool) (fuel : Nat) (as : List Nat) :
    Option (Set α) :=
  if same then some this
  else do
    let this := Set.clear this
    let elems ← traverse other fuel
    insert_all this as elems

/-- The set built by inserting `3`, `2`, `4`, `1` in this order (the nodes at the
addresses `1`, `2`, `3`, `4`): the root holds `3`. -/
def set3241 : Set Nat :=
  ⟨node 1 3 3 (node 2 2 2 (node 4 1 1 nil nil (some 2)) nil (some 1))
    (node 3 4 1 nil nil (some 1)) none, 4⟩

/-- The structural reading of parent consistency on the nodes owned by `rt`:
every node other than the root has in `prev` the address of a node of `rt`
whose `left` or `right` is that node. -/
def ParentLinks (rt : Node α) : Prop :=
  ∀ n, IsSub n rt → n ≠ rt →
    ∃ pa pn, prevOf n = some (some pa) ∧ nodeAt rt pa = some pn ∧
      (leftOf pn = some n ∨ rightOf pn = some n)

/-- The perfect tree `4(2(1,3),6(5,7))` with the node of key `i` at address `i`
and consistent stored heights and back pointers. -/
def perfect7 : Node Nat :=
  node 4 4 3
    (node 2 2 2 (node 1 1 1 nil nil (some 2)) (node 3 3 1 nil nil (some 2)) (some 4))
    (node 6 6 2 (node 5 5 1 nil nil (some 6)) (node 7 7 1 nil nil (some 6)) (some 4))
    none

/-- A subtree of height `2` that leans to the left: the key `3` over the key `1`. -/
def leftHeavy : Node Nat := node 2 3 2 (node 4 1 1 nil nil (some 2)) nil none

/-- The specification's splice of a node with at most one child: the node is
replaced by that child, or by nil when it has no child (`l` and `r` are the
children of the node, at most one of them non-null). -/
def spec_splice (l r : Node α) : Node α :=
  match r with
  | nil => l
  | node ra rk rh rl rr rp => node ra rk rh rl rr rp

/-- A node `X` (address `1`, key `5`) whose parent is the node at address `9`,
with left child `L` (address `2`, key `3`); the right child of `L` is the node
at address `5`. -/
def rotSample : Node Nat :=
  node 1 5 3
    (node 2 3 2 (node 4 1 1 nil nil (some 2)) (node 5 4 1 nil nil (some 2)) (some 1))
    (node 3 8 1 nil nil (some 1)) (some 9)

/-- The result of `rotate_right(rotSample)`. -/
def rotSampleResult : Node Nat :=
  node 2 3 3 (node 4 1 1 nil nil (some 2))
    (node 1 5 2 (node 5 4 1 nil nil (some 1)) (node 3 8 1 nil nil (some 1)) (some 2))
    (some 1)

/-- The set `{1, 2}` as built by inserting `1`, `2` (the nodes at the addresses
`1`, `2`): inserting `3` rotates the root to the left. -/
def set12 : Set Nat := ⟨node 1 1 2 nil (node 2 2 1 nil nil (some 1)) none, 2⟩

/-! ## Lemmas -/

theorem rotate_right_node (a : Nat) (k : α) (h la : Nat) (lk : α) (lh : Nat) (ll lr : Node α)
    (lp : Option Nat) (r : Node α) (p : Option Nat) :
    rotate_right (node a k h (node la lk lh ll lr lp) r p) =
      some (node la lk
        (toUChar (max (height ll)
          (toUChar (max (height lr) (height r) + 1) : Int) + 1)) ll
        (node a k (toUChar (max (height lr) (height r) + 1)) (setPrev lr (some a)) r (some la))
        lp) := by
  cases lr <;> rfl

theorem rotate_left_node (a : Nat) (k : α) (h ra : Nat) (rk : α) (rh : Nat) (rl rr : Node α)
    (rp : Option Nat) (l : Node α) (p : Option Nat) :
    rotate_left (node a k h l (node ra rk rh rl rr rp) p) =
      some (node ra rk
        (toUChar (max (toUChar (max (height l) (height rl) + 1) : Int) (height rr) + 1))
        (node a k (toUChar (max (height l) (height rl) + 1)) l (setPrev rl (some a)) (some ra))
        rr rp) := by
  cases rl <;> rfl

@[simp] theorem height_setPrev (t : Node α) (q : Option Nat) :
    height (setPrev t q) = height t := by
  cases t <;> rfl


theorem toSizeT_eq_two (f : Int) (h1 : -255 ≤ f) (h2 : f ≤ 255) :
    toSizeT f = ROTATE_FACTOR ↔ f = 2 := by
  unfold toSizeT ROTATE_FACTOR SIZE_MOD
  omega

theorem toSizeT_eq_neg_two (f : Int) (h1 : -255 ≤ f) (h2 : f ≤ 255) :
    toSizeT f = negSizeT ROTATE_FACTOR ↔ f = -2 := by
  unfold toSizeT ROTATE_FACTOR negSizeT SIZE_MOD
  omega

theorem toUChar_of_lt (x : Int) (h0 : 0 ≤ x) (h1 : x < 256) : (toUChar x : Int) = x := by
  unfold toUChar UCHAR_MOD
  omega

@[simp] theorem height_nil : height (nil : Node α) = 0 := rfl

@[simp] theorem height_node (a : Nat) (k : α) (h : Nat) (l r : Node α) (p : Option Nat) :
    height (node a k h l r p) = (h : Int) := rfl

theorem height_nonneg (t : Node α) : 0 ≤ height t := by
  cases t <;> simp [height]

theorem balance_mid (a : Nat) (k : α) (h : Nat) (l r : Node α) (p : Option Nat)
    (h1 : height r ≤ height l + 1) (h2 : height l ≤ height r + 1) :
    balance (node a k h l r p) =
      some (node a k (toUChar (max (height l) (height r) + 1)) l r p) := by
  have hl0 := height_nonneg l
  have hr0 := height_nonneg r
  have e1 : ¬ toSizeT (height r - height l) = ROTATE_FACTOR := by
    rw [toSizeT_eq_two _ (by omega) (by omega)]; omega
  have e2 : ¬ toSizeT (height r - height l) = negSizeT ROTATE_FACTOR := by
    rw [toSizeT_eq_neg_two _ (by omega) (by omega)]; omega
  simp [balance, fix, factor, e1, e2]



theorem balance_right_single (a : Nat) (k : α) (h : Nat) (l : Node α) (p : Option Nat)
    (ra : Nat) (rk : α) (rh : Nat) (rl rr : Node α) (rp : Option Nat)
    (h1 : (rh : Int) = height l + 2) (h2 : height rl ≤ height rr) :
    balance (node a k h l (node ra rk rh rl rr rp) p) =
      some (node ra rk
        (toUChar (max (toUChar (max (height l) (height rl) + 1) : Int) (height rr) + 1))
        (node a k (toUChar (max (height l) (height rl) + 1)) l (setPrev rl (some a)) (some ra))
        rr rp) := by
  have hl0 := height_nonneg l
  have e1 : toSizeT ((rh : Int) - height l) = ROTATE_FACTOR := by
    rw [toSizeT_eq_two _ (by omega) (by omega)]; omega
  have e3 : ¬ (height rr - height rl < 0) := by omega
  simp [balance, fix, factor, rightOf, e1, e3, rotate_left_node]

theorem balance_right_double (a : Nat) (k : α) (h : Nat) (l : Node α) (p : Option Nat)
    (ra : Nat) (rk : α) (rh : Nat) (rr : Node α) (rp : Option Nat)
    (rla : Nat) (rlk : α) (rlh : Nat) (rll rlr : Node α) (rlp : Option Nat)
    (h1 : (rh : Int) = height l + 2) (h2 : height rr < (rlh : Int)) :
    balance (node a k h l (node ra rk rh (node rla rlk rlh rll rlr rlp) rr rp) p) =
      some (node rla rlk
        (toUChar (max (toUChar (max (height l) (height rll) + 1) : Int)
          (toUChar (max (height rlr) (height rr) + 1) : Int) + 1))
        (node a k (toUChar (max (height l) (height rll) + 1)) l (setPrev rll (some a)) (some rla))
        (node ra rk (toUChar (max (height rlr) (height rr) + 1)) (setPrev rlr (some ra)) rr
          (some rla))
        (some a)) := by
  have hl0 := height_nonneg l
  have e1 : toSizeT ((rh : Int) - height l) = ROTATE_FACTOR := by
    rw [toSizeT_eq_two _ (by omega) (by omega)]; omega
  have e3 : (height rr - (rlh : Int) < 0) := by omega
  simp [balance, fix, factor, rightOf, e1, e3, rotate_left_node, rotate_right_node,
    hang_right, setPrev]

theorem balance_left_single (a : Nat) (k : α) (h : Nat) (r : Node α) (p : Option Nat)
    (la : Nat) (lk : α) (lh : Nat) (ll lr : Node α) (lp : Option Nat)
    (h1 : (lh : Int) = height r + 2) (h2 : height lr ≤ height ll) :
    balance (node a k h (node la lk lh ll lr lp) r p) =
      some (node la lk
        (toUChar (max (height ll) (toUChar (max (height lr) (height r) + 1) : Int) + 1)) ll
        (node a k (toUChar (max (height lr) (height r) + 1)) (setPrev lr (some a)) r (some la))
        lp) := by
  have hr0 := height_nonneg r
  have e1 : ¬ toSizeT (height r - (lh : Int)) = ROTATE_FACTOR := by
    rw [toSizeT_eq_two _ (by omega) (by omega)]; omega
  have e2 : toSizeT (height r - (lh : Int)) = negSizeT ROTATE_FACTOR := by
    rw [toSizeT_eq_neg_two _ (by omega) (by omega)]; omega
  have e3 : ¬ (0 < height lr - height ll) := by omega
  have e0 : ¬ negSizeT ROTATE_FACTOR = ROTATE_FACTOR := by decide
  simp [e0, balance, fix, factor, leftOf, e1, e2, e3, rotate_right_node]

theorem balance_left_double (a : Nat) (k : α) (h : Nat) (r : Node α) (p : Option Nat)
    (la : Nat) (lk : α) (lh : Nat) (ll : Node α) (lp : Option Nat)
    (lra : Nat) (lrk : α) (lrh : Nat) (lrl lrr : Node α) (lrp : Option Nat)
    (h1 : (lh : Int) = height r + 2) (h2 : height ll < (lrh : Int)) :
    balance (node a k h (node la lk lh ll (node lra lrk lrh lrl lrr lrp) lp) r p) =
      some (node lra lrk
        (toUChar (max (toUChar (max (height ll) (height lrl) + 1) : Int)
          (toUChar (max (height lrr) (height r) + 1) : Int) + 1))
        (node la lk (toUChar (max (height ll) (height lrl) + 1)) ll (setPrev lrl (some la))
          (some lra))
        (node a k (toUChar (max (height lrr) (height r) + 1)) (setPrev lrr (some a)) r
          (some lra))
        (some a)) := by
  have hr0 := height_nonneg r
  have e1 : ¬ toSizeT (height r - (lh : Int)) = ROTATE_FACTOR := by
    rw [toSizeT_eq_two _ (by omega) (by omega)]; omega
  have e2 : toSizeT (height r - (lh : Int)) = negSizeT ROTATE_FACTOR := by
    rw [toSizeT_eq_neg_two _ (by omega) (by omega)]; omega
  have e3 : (0 < (lrh : Int) - height ll) := by omega
  have e0 : ¬ negSizeT ROTATE_FACTOR = ROTATE_FACTOR := by decide
  simp [e0, balance, fix, factor, leftOf, e1, e2, e3, rotate_left_node, rotate_right_node,
    hang_left, setPrev]



@[simp] theorem inorder_setPrev (t : Node α) (q : Option Nat) :
    inorder (setPrev t q) = inorder t := by
  cases t <;> rfl

@[simp] theorem balanced_setPrev (t : Node α) (q : Option Nat) :
    Balanced (setPrev t q) ↔ Balanced t := by
  cases t <;> rfl

@[simp] theorem heightOK_setPrev (t : Node α) (q : Option Nat) :
    HeightOK (setPrev t q) ↔ HeightOK t := by
  cases t <;> rfl

@[simp] theorem parentOK_setPrev (t : Node α) (q : Option Nat) :
    ParentOK (setPrev t q) ↔ ParentOK t := by
  cases t <;> rfl

@[simp] theorem prevIs_setPrev (t : Node α) (q : Option Nat) : prevIs (setPrev t q) q := by
  cases t <;> simp [setPrev, prevIs]

@[simp] theorem count_setPrev (t : Node α) (q : Option Nat) : count (setPrev t q) = count t := by
  cases t <;> rfl

theorem setPrev_eq_self (t : Node α) (q : Option Nat) (h : prevIs t q) : setPrev t q = t := by
  cases t with
  | nil => rfl
  | node a k ht l r p => simp only [prevIs] at h; subst h; rfl


theorem balance_spec_mid (a : Nat) (k : α) (h : Nat) (l r : Node α) (p : Option Nat)
    (hbl : Balanced l) (hbr : Balanced r) (hhl : HeightOK l) (hhr : HeightOK r)
    (c1 : height r ≤ height l + 1) (c2 : height l ≤ height r + 1)
    (hl : height l ≤ 254) (hr : height r ≤ 254) :
    ∃ t, balance (node a k h l r p) = some t ∧ BalancePost a k l r p t := by
  have hl0 := height_nonneg l
  have hr0 := height_nonneg r
  unfold BalancePost
  refine ⟨_, balance_mid a k h l r p c1 c2, ?_, ?_, rfl, ?_, ?_, fun _ _ => rfl, by simp⟩
  · exact ⟨⟨c2, c1⟩, hbl, hbr⟩
  · refine ⟨?_, hhl, hhr⟩
    unfold toUChar UCHAR_MOD; omega
  · left; simp only [height_node]; unfold toUChar UCHAR_MOD; omega
  · intro h1 h2 h3 h4; exact ⟨h3, h4, h1, h2⟩

theorem balance_spec_left (a : Nat) (k : α) (h : Nat) (l r : Node α) (p : Option Nat)
    (hbl : Balanced l) (hbr : Balanced r) (hhl : HeightOK l) (hhr : HeightOK r)
    (hl2 : height l = height r + 2) (hl : height l ≤ 254) :
    ∃ t, balance (node a k h l r p) = some t ∧ BalancePost a k l r p t := by
  have hr0 := height_nonneg r
  unfold BalancePost
  cases l with
  | nil => simp at hl2; omega
  | node la lk lh ll lr lp =>
    simp only [height_node] at hl2 hl
    obtain ⟨hlh, hhll, hhlr⟩ := hhl
    obtain ⟨⟨hb1, hb2⟩, hbll, hblr⟩ := hbl
    have hll0 := height_nonneg ll
    have hlr0 := height_nonneg lr
    by_cases c3 : height lr ≤ height ll
    · refine ⟨_, balance_left_single a k h r p la lk lh ll lr lp hl2 c3, ?_, ?_, ?_, ?_, ?_,
        ?_, by simp⟩
      · simp only [Balanced, height_node, height_setPrev, balanced_setPrev, toUChar,
          UCHAR_MOD]
        refine ⟨?_, hbll, ⟨?_, hblr, hbr⟩⟩ <;> omega
      · simp only [HeightOK, height_node, height_setPrev, heightOK_setPrev, toUChar,
          UCHAR_MOD]
        refine ⟨?_, hhll, ⟨?_, hhlr, hhr⟩⟩ <;> omega
      · simp [inorder]
      · simp only [height_node, toUChar, UCHAR_MOD]; omega
      · intro h1 h2 h3 h4
        obtain ⟨h5, h6, h7, h8⟩ := h1
        exact ⟨h5, rfl, h7, ⟨prevIs_setPrev _ _, h4, (parentOK_setPrev _ _).2 h8, h2⟩⟩
      · intro _ h1; simp only [height_node] at h1; omega
    · cases lr with
      | nil => exfalso; simp only [height_nil] at c3; omega
      | node lra lrk lrh lrl lrr lrp =>
        simp only [height_node] at c3 hlh hb1 hb2
        obtain ⟨hlrh, hhlrl, hhlrr⟩ := hhlr
        obtain ⟨⟨hb3, hb4⟩, hblrl, hblrr⟩ := hblr
        have hlrl0 := height_nonneg lrl
        have hlrr0 := height_nonneg lrr
        refine ⟨_, balance_left_double a k h r p la lk lh ll lp lra lrk lrh lrl lrr lrp hl2
          (by omega), ?_, ?_, ?_, ?_, ?_, ?_, by simp⟩
        · simp only [Balanced, height_node, height_setPrev, balanced_setPrev, toUChar,
            UCHAR_MOD]
          refine ⟨?_, ⟨?_, hbll, hblrl⟩, ⟨?_, hblrr, hbr⟩⟩ <;> omega
        · simp only [HeightOK, height_node, height_setPrev, heightOK_setPrev, toUChar,
            UCHAR_MOD]
          refine ⟨?_, ⟨?_, hhll, hhlrl⟩, ⟨?_, hhlrr, hhr⟩⟩ <;> omega
        · simp [inorder]
        · simp only [height_node, toUChar, UCHAR_MOD]; omega
        · intro h1 h2 h3 h4
          obtain ⟨h5, h6, h7, h8⟩ := h1
          obtain ⟨h9, h10, h11, h12⟩ := h8
          exact ⟨rfl, rfl, ⟨h5, prevIs_setPrev _ _, h7, (parentOK_setPrev _ _).2 h11⟩,
            ⟨prevIs_setPrev _ _, h4, (parentOK_setPrev _ _).2 h12, h2⟩⟩
        · intro _ h1; simp only [height_node] at h1; omega

theorem balance_spec_right (a : Nat) (k : α) (h : Nat) (l r : Node α) (p : Option Nat)
    (hbl : Balanced l) (hbr : Balanced r) (hhl : HeightOK l) (hhr : HeightOK r)
    (hr2 : height r = height l + 2) (hr : height r ≤ 254) :
    ∃ t, balance (node a k h l r p) = some t ∧ BalancePost a k l r p t := by
  have hl0 := height_nonneg l
  unfold BalancePost
  cases r with
  | nil => simp at hr2; omega
  | node ra rk rh rl rr rp =>
    simp only [height_node] at hr2 hr
    obtain ⟨hrh, hhrl, hhrr⟩ := hhr
    obtain ⟨⟨hb1, hb2⟩, hbrl, hbrr⟩ := hbr
    have hrl0 := height_nonneg rl
    have hrr0 := height_nonneg rr
    by_cases c3 : height rl ≤ height rr
    · refine ⟨_, balance_right_single a k h l p ra rk rh rl rr rp hr2 c3, ?_, ?_, ?_, ?_, ?_, ?_,
        by simp⟩
      · simp only [Balanced, height_node, height_setPrev, balanced_setPrev, toUChar, UCHAR_MOD]
        refine ⟨?_, ⟨?_, hbl, hbrl⟩, hbrr⟩ <;> omega
      · simp only [HeightOK, height_node, height_setPrev, heightOK_setPrev, toUChar, UCHAR_MOD]
        refine ⟨?_, ⟨?_, hhl, hhrl⟩, hhrr⟩ <;> omega
      · simp [inorder]
      · simp only [height_node, toUChar, UCHAR_MOD]; omega
      · intro h1 h2 h3 h4
        obtain ⟨h5, h6, h7, h8⟩ := h2
        exact ⟨rfl, h6, ⟨h3, prevIs_setPrev _ _, h1, (parentOK_setPrev _ _).2 h7⟩, h8⟩
      · intro h1; simp only [height_node] at h1; omega
    · cases rl with
      | nil => exfalso; simp only [height_nil] at c3; omega
      | node rla rlk rlh rll rlr rlp =>
        simp only [height_node] at c3 hrh hb1 hb2
        obtain ⟨hrlh, hhrll, hhrlr⟩ := hhrl
        obtain ⟨⟨hb3, hb4⟩, hbrll, hbrlr⟩ := hbrl
        have hrll0 := height_nonneg rll
        have hrlr0 := height_nonneg rlr
        refine ⟨_, balance_right_double a k h l p ra rk rh rr rp rla rlk rlh rll rlr rlp hr2
          (by omega), ?_, ?_, ?_, ?_, ?_, ?_, by simp⟩
        · simp only [Balanced, height_node, height_setPrev, balanced_setPrev, toUChar,
            UCHAR_MOD]
          refine ⟨?_, ⟨?_, hbl, hbrll⟩, ⟨?_, hbrlr, hbrr⟩⟩ <;> omega
        · simp only [HeightOK, height_node, height_setPrev, heightOK_setPrev, toUChar,
            UCHAR_MOD]
          refine ⟨?_, ⟨?_, hhl, hhrll⟩, ⟨?_, hhrlr, hhrr⟩⟩ <;> omega
        · simp [inorder]
        · simp only [height_node, toUChar, UCHAR_MOD]; omega
        · intro h1 h2 h3 h4
          obtain ⟨h5, h6, h7, h8⟩ := h2
          obtain ⟨h9, h10, h11, h12⟩ := h7
          exact ⟨rfl, rfl, ⟨h3, prevIs_setPrev _ _, h1, (parentOK_setPrev _ _).2 h11⟩,
            ⟨prevIs_setPrev _ _, h6, (parentOK_setPrev _ _).2 h12, h8⟩⟩
        · intro h1; simp only [height_node] at h1; omega

theorem balance_spec (a : Nat) (k : α) (h : Nat) (l r : Node α) (p : Option Nat)
    (hbl : Balanced l) (hbr : Balanced r) (hhl : HeightOK l) (hhr : HeightOK r)
    (hd1 : height r ≤ height l + 2) (hd2 : height l ≤ height r + 2)
    (hl : height l ≤ 254) (hr : height r ≤ 254) :
    ∃ t, balance (node a k h l r p) = some t ∧ BalancePost a k l r p t := by
  by_cases c1 : height r ≤ height l + 1
  · by_cases c2 : height l ≤ height r + 1
    · exact balance_spec_mid a k h l r p hbl hbr hhl hhr c1 c2 hl hr
    · exact balance_spec_left a k h l r p hbl hbr hhl hhr (by omega) hl
  · exact balance_spec_right a k h l r p hbl hbr hhl hhr (by omega) hr

@[simp] theorem keys_nil : keys (nil : Node α) = [] := rfl

@[simp] theorem keys_node (a : Nat) (k : α) (h : Nat) (l r : Node α) (p : Option Nat) :
    keys (node a k h l r p) = keys l ++ k :: keys r := by
  simp [keys, inorder]

@[simp] theorem addrs_nil : addrs (nil : Node α) = [] := rfl

@[simp] theorem addrs_node (a : Nat) (k : α) (h : Nat) (l r : Node α) (p : Option Nat) :
    addrs (node a k h l r p) = addrs l ++ a :: addrs r := by
  simp [addrs, inorder]

@[simp] theorem keys_setPrev (t : Node α) (q : Option Nat) : keys (setPrev t q) = keys t := by
  simp [keys]

@[simp] theorem addrs_setPrev (t : Node α) (q : Option Nat) : addrs (setPrev t q) = addrs t := by
  simp [addrs]

@[simp] theorem bst_setPrev (t : Node α) (q : Option Nat) : BST (setPrev t q) ↔ BST t := by
  cases t <;> rfl

theorem count_eq_length (t : Node α) : count t = (inorder t).length := by
  induction t with
  | nil => rfl
  | node a k h l r p ihl ihr => simp [count, inorder, ihl, ihr]; omega

theorem bst_iff_pairwise (t : Node α) : BST t ↔ (keys t).Pairwise (· < ·) := by
  induction t with
  | nil => simp [BST]
  | node a k h l r p ihl ihr =>
    simp only [BST, keys_node, List.pairwise_append, List.pairwise_cons, ihl, ihr,
      List.mem_cons]
    constructor
    · rintro ⟨h1, h2, h3, h4⟩
      refine ⟨h3, ⟨h2, h4⟩, ?_⟩
      rintro x hx y (rfl | hy)
      · exact h1 x hx
      · exact lt_trans (h1 x hx) (h2 y hy)
    · rintro ⟨h1, ⟨h2, h3⟩, h4⟩
      exact ⟨fun x hx => h4 x hx k (Or.inl rfl), h2, h1, h3⟩

theorem bst_of_inorder_eq {t u : Node α} (h : inorder t = inorder u) (hu : BST u) : BST t := by
  rw [bst_iff_pairwise] at hu ⊢
  simpa [keys, h] using hu

theorem toUChar_eq (x : Int) (h : Nat) (h1 : (h : Int) = x) (h2 : x ≤ 255) : toUChar x = h := by
  unfold toUChar UCHAR_MOD
  omega

theorem inv_node_iff (a : Nat) (k : α) (h : Nat) (l r : Node α) (p : Option Nat) :
    Inv (node a k h l r p) ↔
      ((∀ x ∈ keys l, x < k) ∧ (∀ x ∈ keys r, k < x)) ∧
      (height l ≤ height r + 1 ∧ height r ≤ height l + 1) ∧
      ((h : Int) = max (height l) (height r) + 1) ∧ Inv l ∧ Inv r := by
  constructor
  · rintro ⟨⟨h1, h2, h3, h4⟩, ⟨h5, h6, h7⟩, ⟨h8, h9, h10⟩⟩
    exact ⟨⟨h1, h2⟩, h5, h8, ⟨h3, h6, h9⟩, ⟨h4, h7, h10⟩⟩
  · rintro ⟨⟨h1, h2⟩, h5, h8, ⟨h3, h6, h9⟩, ⟨h4, h7, h10⟩⟩
    exact ⟨⟨h1, h2, h3, h4⟩, ⟨h5, h6, h7⟩, ⟨h8, h9, h10⟩⟩

theorem inv_setPrev (t : Node α) (q : Option Nat) : Inv (setPrev t q) ↔ Inv t := by
  cases t with
  | nil => rfl
  | node a k h l r p => simp only [setPrev, inv_node_iff]

theorem mem_keys_of_perm {l1 l2 : List (Nat × α)} (h : l1.Perm l2) (x : α) :
    x ∈ l1.map Prod.snd ↔ x ∈ l2.map Prod.snd :=
  (h.map Prod.snd).mem_iff

theorem insert_spec (a : Nat) (e : α) (c : Nat) (t : Node α) (hinv : Inv t)
    (hh : height t ≤ 254) :
    ∃ t1 c1, insert a t e c = some (t1, c1) ∧ InsertPost a t e c t1 c1 := by
  induction t with
  | nil =>
    refine ⟨_, _, rfl, ?_, by simp, Or.inr rfl, by simp, ?_, fun _ => ?_⟩
    · exact ⟨by simp [BST], by simp [Balanced], by simp [HeightOK]⟩
    · intro _; exact ⟨by simp [inorder], rfl⟩
    · simp [ParentOK, prevIs]
  | node ca k h l r p ihl ihr =>
    rw [inv_node_iff] at hinv
    obtain ⟨⟨hkl, hkr⟩, ⟨hb1, hb2⟩, hh0, hil, hir⟩ := hinv
    simp only [height_node] at hh
    have hl0 := height_nonneg l
    have hr0 := height_nonneg r
    rcases lt_trichotomy e k with hlt | heq | hgt
    · -- descend to the left
      obtain ⟨l1, c1, hins, hil1, hne, hht, hmem, hnew, hpar⟩ := ihl hil (by omega)
      obtain ⟨t1, hbal, hb, hho, hio, hth, hpo, hid, hne1⟩ :=
        balance_spec ca k h (setPrev l1 (some ca)) r p
          ((balanced_setPrev _ _).2 hil1.bal) hir.bal ((heightOK_setPrev _ _).2 hil1.hts) hir.hts
          (by rw [height_setPrev]; omega) (by rw [height_setPrev]; omega)
          (by rw [height_setPrev]; omega) (by omega)
      rw [height_setPrev] at hth hid
      rw [inorder_setPrev] at hio
      have hkl1 : ∀ x ∈ keys l1, x < k := by
        intro x hx
        by_cases hm : e ∈ keys l
        · have := (hmem hm).1
          rw [keys, this] at hx
          exact hkl x hx
        · have := (mem_keys_of_perm (hnew hm).1 x).1 hx
          simp only [List.map_cons, List.mem_cons] at this
          rcases this with rfl | h2
          · exact hlt
          · exact hkl x h2
      have hek : e ∈ keys (node ca k h l r p) ↔ e ∈ keys l := by
        simp only [keys_node, List.mem_append, List.mem_cons]
        constructor
        · rintro (h1 | rfl | h1)
          · exact h1
          · exact absurd hlt (lt_irrefl _)
          · exact absurd (lt_trans hlt (hkr e h1)) (lt_irrefl _)
        · exact Or.inl
      refine ⟨t1, c1, ?_, ?_, hne1, ?_, ?_, ?_, ?_⟩
      · simp [insert, hlt, hins, hang_left, hbal]
      · refine ⟨?_, hb, hho⟩
        apply bst_of_inorder_eq (u := node ca k h l1 r p) (by simp [inorder, hio])
        exact ⟨hkl1, hkr, hil1.bst, hir.bst⟩
      · simp only [height_node]; omega
      · intro hm
        rw [hek] at hm
        obtain ⟨h1, h2, h3⟩ := hmem hm
        refine ⟨by simp [inorder, hio, h1], h2, ?_⟩
        rintro ⟨q1, q2, q3, q4⟩
        have := h3 q3
        subst this
        rw [setPrev_eq_self _ _ q1] at hid
        rw [hid (by omega) (by omega)]
        congr 1
        exact toUChar_eq _ _ hh0 (by omega)
      · intro hm
        rw [hek] at hm
        obtain ⟨h1, h2⟩ := hnew hm
        refine ⟨?_, h2⟩
        rw [hio]
        simp only [inorder]
        exact (List.Perm.append_right _ h1).trans (by simp)
      · rintro ⟨q1, q2, q3, q4⟩
        exact hpo ((parentOK_setPrev _ _).2 (hpar q3)) q4 (prevIs_setPrev _ _) q2
    · -- the key is already stored
      subst heq
      have hbal := balance_mid ca e h l r p hb2 hb1
      rw [toUChar_eq _ _ hh0 (by omega)] at hbal
      have hinv : Inv (node ca e h l r p) :=
        (inv_node_iff ..).2 ⟨⟨hkl, hkr⟩, ⟨hb1, hb2⟩, hh0, hil, hir⟩
      refine ⟨node ca e h l r p, c, ?_, hinv, by simp, Or.inl rfl, fun _ => ⟨rfl, rfl, fun _ => rfl⟩,
        fun hm => absurd (by simp) hm, fun hp => hp⟩
      simp [insert, hbal]
    · -- descend to the right
      obtain ⟨r1, c1, hins, hir1, hne, hht, hmem, hnew, hpar⟩ := ihr hir (by omega)
      obtain ⟨t1, hbal, hb, hho, hio, hth, hpo, hid, hne1⟩ :=
        balance_spec ca k h l (setPrev r1 (some ca)) p
          hil.bal ((balanced_setPrev _ _).2 hir1.bal) hil.hts ((heightOK_setPrev _ _).2 hir1.hts)
          (by rw [height_setPrev]; omega) (by rw [height_setPrev]; omega)
          (by omega) (by rw [height_setPrev]; omega)
      rw [height_setPrev] at hth hid
      rw [inorder_setPrev] at hio
      have hkr1 : ∀ x ∈ keys r1, k < x := by
        intro x hx
        by_cases hm : e ∈ keys r
        · have := (hmem hm).1
          rw [keys, this] at hx
          exact hkr x hx
        · have := (mem_keys_of_perm (hnew hm).1 x).1 hx
          simp only [List.map_cons, List.mem_cons] at this
          rcases this with rfl | h2
          · exact hgt
          · exact hkr x h2
      have hek : e ∈ keys (node ca k h l r p) ↔ e ∈ keys r := by
        simp only [keys_node, List.mem_append, List.mem_cons]
        constructor
        · rintro (h1 | rfl | h1)
          · exact absurd (lt_trans hgt (hkl e h1)) (lt_irrefl _)
          · exact absurd hgt (lt_irrefl _)
          · exact h1
        · exact fun h1 => Or.inr (Or.inr h1)
      refine ⟨t1, c1, ?_, ?_, hne1, ?_, ?_, ?_, ?_⟩
      · simp [insert, not_lt_of_gt hgt, hgt, hins, hang_right, hbal]
      · refine ⟨?_, hb, hho⟩
        apply bst_of_inorder_eq (u := node ca k h l r1 p) (by simp [inorder, hio])
        exact ⟨hkl, hkr1, hil.bst, hir1.bst⟩
      · simp only [height_node]; omega
      · intro hm
        rw [hek] at hm
        obtain ⟨h1, h2, h3⟩ := hmem hm
        refine ⟨by simp [inorder, hio, h1], h2, ?_⟩
        rintro ⟨q1, q2, q3, q4⟩
        have := h3 q4
        subst this
        rw [setPrev_eq_self _ _ q2] at hid
        rw [hid (by omega) (by omega)]
        congr 1
        exact toUChar_eq _ _ hh0 (by omega)
      · intro hm
        rw [hek] at hm
        obtain ⟨h1, h2⟩ := hnew hm
        refine ⟨?_, h2⟩
        rw [hio]
        simp only [inorder]
        refine (List.Perm.append_left _ (List.Perm.cons _ h1)).trans ?_
        have hmid : ((inorder l ++ [(ca, k)]) ++ (a, e) :: inorder r).Perm
            ((a, e) :: ((inorder l ++ [(ca, k)]) ++ inorder r)) := List.perm_middle
        simpa using hmid
      · rintro ⟨q1, q2, q3, q4⟩
        exact hpo q3 ((parentOK_setPrev _ _).2 (hpar q4)) q1 (prevIs_setPrev _ _)

theorem erase_min_spec (t : Node α) (hne : t ≠ nil) (hb : Balanced t) (hho : HeightOK t)
    (hh : height t ≤ 255) :
    ∃ m t1, find_min t = some m ∧ erase_min t = some t1 ∧ EraseMinPost t m t1 := by
  induction t with
  | nil => exact absurd rfl hne
  | node a k h l r p ihl ihr =>
    obtain ⟨⟨hb1, hb2⟩, hbl, hbr⟩ := hb
    obtain ⟨hh0, hhl, hhr⟩ := hho
    simp only [height_node] at hh
    have hl0 := height_nonneg l
    have hr0 := height_nonneg r
    cases l with
    | nil =>
      refine ⟨node a k h nil r p, r, rfl, rfl, ⟨a, k, h, r, p, rfl, by simp [inorder]⟩, hbr, hhr,
        ?_, fun hp => hp.2.2.2⟩
      simp only [height_node, height_nil] at *
      omega
    | node la lk lh ll lr lp =>
      obtain ⟨m, l1, hfm, hem, ⟨ma, mk, mh, mr, mp, hm, hio⟩, hbl1, hhl1, hht, hpar⟩ :=
        ihl (by simp) hbl hhl (by simp only [height_node] at *; omega)
      obtain ⟨t1, hbal, hbt, hhot, hiot, hth, hpo, hid, hne1⟩ :=
        balance_spec a k h (setPrev l1 (some a)) r p
          ((balanced_setPrev _ _).2 hbl1) hbr ((heightOK_setPrev _ _).2 hhl1) hhr
          (by rw [height_setPrev]; omega) (by rw [height_setPrev]; omega)
          (by rw [height_setPrev]; omega) (by omega)
      rw [height_setPrev] at hth hid
      rw [inorder_setPrev] at hiot
      refine ⟨m, t1, ?_, ?_, ⟨ma, mk, mh, mr, mp, hm, ?_⟩, hbt, hhot, ?_, ?_⟩
      · simpa [find_min] using hfm
      · simp [erase_min, hem, hang_left, hbal]
      · rw [hiot]; simp only [inorder] at hio ⊢; rw [hio]; simp
      · simp only [height_node]; omega
      · rintro ⟨q1, q2, q3, q4⟩
        exact hpo ((parentOK_setPrev _ _).2 (hpar q3)) q4 (prevIs_setPrev _ _) q2

theorem filter_ne_eq_self (xs : List (Nat × α)) (e : α) (h : ∀ x ∈ xs.map Prod.snd, x ≠ e) :
    xs.filter (fun x => decide (x.2 ≠ e)) = xs := by
  rw [List.filter_eq_self]
  intro x hx
  simpa using h x.2 (List.mem_map_of_mem _ hx)

theorem bst_of_filter {t u : Node α} (e : α)
    (h : inorder t = (inorder u).filter (fun x => decide (x.2 ≠ e))) (hu : BST u) : BST t := by
  rw [bst_iff_pairwise] at hu ⊢
  have hs : (keys t).Sublist (keys u) := by
    rw [keys, keys, h]
    exact List.Sublist.map _ (List.filter_sublist _)
  exact hu.sublist hs

theorem erase_spec (e : α) (c : Nat) (t : Node α) (hinv : Inv t) (hh : height t ≤ 255) :
    ∃ t1 c1, erase t e c = some (t1, c1) ∧ ErasePost t e c t1 c1 := by
  induction t with
  | nil =>
    refine ⟨nil, c, rfl, hinv, Or.inl rfl, rfl, fun hm => absurd hm (by simp), fun _ => ⟨rfl, fun _ => rfl⟩,
      fun hp => hp⟩
  | node ca k h l r p ihl ihr =>
    have hbst := hinv.bst
    rw [inv_node_iff] at hinv
    obtain ⟨⟨hkl, hkr⟩, ⟨hb1, hb2⟩, hh0, hil, hir⟩ := hinv
    simp only [height_node] at hh
    have hl0 := height_nonneg l
    have hr0 := height_nonneg r
    rcases lt_trichotomy e k with hlt | heq | hgt
    · obtain ⟨l1, c1, hers, hil1, hht, hfl, hmem, hnew, hpar⟩ := ihl hil (by omega)
      obtain ⟨t1, hbal, hb, hho, hio, hth, hpo, hid, hne1⟩ :=
        balance_spec ca k h (setPrev l1 (some ca)) r p
          ((balanced_setPrev _ _).2 hil1.bal) hir.bal ((heightOK_setPrev _ _).2 hil1.hts) hir.hts
          (by rw [height_setPrev]; omega) (by rw [height_setPrev]; omega)
          (by rw [height_setPrev]; omega) (by omega)
      rw [height_setPrev] at hth hid
      rw [inorder_setPrev] at hio
      have hek : e ∈ keys (node ca k h l r p) ↔ e ∈ keys l := by
        simp only [keys_node, List.mem_append, List.mem_cons]
        constructor
        · rintro (h1 | rfl | h1)
          · exact h1
          · exact absurd hlt (lt_irrefl _)
          · exact absurd (lt_trans hlt (hkr e h1)) (lt_irrefl _)
        · exact Or.inl
      have hfilt : inorder t1 =
          (inorder (node ca k h l r p)).filter (fun x => decide (x.2 ≠ e)) := by
        rw [hio, hfl]
        simp only [inorder, List.filter_append, List.filter_cons]
        have h1 : decide ((ca, k).2 ≠ e) = true := by simpa using (ne_of_gt hlt)
        rw [if_pos h1, filter_ne_eq_self (inorder r) e (fun x hx => ne_of_gt (lt_trans hlt (hkr x hx)))]
      refine ⟨t1, c1, ?_, ⟨bst_of_filter e hfilt hbst, hb, hho⟩, ?_, hfilt, ?_, ?_, ?_⟩
      · simp [erase, hlt, hers, hang_left, hbal]
      · simp only [height_node]; omega
      · intro hm; exact hmem (hek.1 hm)
      · intro hm
        obtain ⟨h2, h3⟩ := hnew (fun h => hm (hek.2 h))
        refine ⟨h2, ?_⟩
        rintro ⟨q1, q2, q3, q4⟩
        have := h3 q3
        subst this
        rw [setPrev_eq_self _ _ q1] at hid
        rw [hid (by omega) (by omega)]
        congr 1
        exact toUChar_eq _ _ hh0 (by omega)
      · rintro ⟨q1, q2, q3, q4⟩
        exact hpo ((parentOK_setPrev _ _).2 (hpar q3)) q4 (prevIs_setPrev _ _) q2
    · subst heq
      have hmemk : e ∈ keys (node ca e h l r p) := by simp
      have hfl : (inorder l).filter (fun x => decide (x.2 ≠ e)) = inorder l :=
        filter_ne_eq_self (inorder l) e (fun x hx => ne_of_lt (hkl x hx))
      have hfr : (inorder r).filter (fun x => decide (x.2 ≠ e)) = inorder r :=
        filter_ne_eq_self (inorder r) e (fun x hx => ne_of_gt (hkr x hx))
      have hfilt : (inorder (node ca e h l r p)).filter (fun x => decide (x.2 ≠ e)) =
          inorder l ++ inorder r := by
        simp only [inorder, List.filter_append, List.filter_cons, hfl, hfr]
        simp
      cases r with
      | nil =>
        refine ⟨l, _, ?_, hil, ?_, ?_, fun _ => rfl, fun hm => absurd hmemk hm,
          fun hp => hp.2.2.1⟩
        · simp [erase]
        · simp only [height_node, height_nil] at *; omega
        · rw [hfilt]; simp [inorder]
      | node ra rk rh rl rr rp =>
        obtain ⟨m, r1, hfm, hem, ⟨ma, mk, mh, mr, mp, hm, hior⟩, hbr1, hhr1, hht, hpar⟩ :=
          erase_min_spec (node ra rk rh rl rr rp) (by simp) hir.bal hir.hts (by omega)
        subst hm
        obtain ⟨t1, hbal, hb, hho, hio, hth, hpo, hid, hne1⟩ :=
          balance_spec ma mk mh (setPrev l (some ma)) (setPrev r1 (some ma)) mp
            ((balanced_setPrev _ _).2 hil.bal) ((balanced_setPrev _ _).2 hbr1)
            ((heightOK_setPrev _ _).2 hil.hts) ((heightOK_setPrev _ _).2 hhr1)
            (by rw [height_setPrev, height_setPrev]; omega)
            (by rw [height_setPrev, height_setPrev]; omega)
            (by rw [height_setPrev]; omega) (by rw [height_setPrev]; omega)
        rw [height_setPrev, height_setPrev] at hth
        rw [inorder_setPrev, inorder_setPrev] at hio
        have hfilt1 : inorder t1 =
            (inorder (node ca e h l (node ra rk rh rl rr rp) p)).filter
              (fun x => decide (x.2 ≠ e)) := by
          rw [hfilt, hio, hior]
        refine ⟨t1, _, ?_, ⟨bst_of_filter e hfilt1 hbst, hb, hho⟩, ?_, hfilt1, fun _ => rfl,
          fun hm => absurd hmemk hm, ?_⟩
        · simp [erase, hfm, hem, hang_right, hang_left, hbal]
        · simp only [height_node] at *; omega
        · rintro ⟨q1, q2, q3, q4⟩
          exact hpo ((parentOK_setPrev _ _).2 q3) ((parentOK_setPrev _ _).2 (hpar q4))
            (prevIs_setPrev _ _) (prevIs_setPrev _ _)
    · obtain ⟨r1, c1, hers, hir1, hht, hfl, hmem, hnew, hpar⟩ := ihr hir (by omega)
      obtain ⟨t1, hbal, hb, hho, hio, hth, hpo, hid, hne1⟩ :=
        balance_spec ca k h l (setPrev r1 (some ca)) p
          hil.bal ((balanced_setPrev _ _).2 hir1.bal) hil.hts ((heightOK_setPrev _ _).2 hir1.hts)
          (by rw [height_setPrev]; omega) (by rw [height_setPrev]; omega)
          (by omega) (by rw [height_setPrev]; omega)
      rw [height_setPrev] at hth hid
      rw [inorder_setPrev] at hio
      have hek : e ∈ keys (node ca k h l r p) ↔ e ∈ keys r := by
        simp only [keys_node, List.mem_append, List.mem_cons]
        constructor
        · rintro (h1 | rfl | h1)
          · exact absurd (lt_trans hgt (hkl e h1)) (lt_irrefl _)
          · exact absurd hgt (lt_irrefl _)
          · exact h1
        · exact fun h1 => Or.inr (Or.inr h1)
      have hfilt : inorder t1 =
          (inorder (node ca k h l r p)).filter (fun x => decide (x.2 ≠ e)) := by
        rw [hio, hfl]
        simp only [inorder, List.filter_append, List.filter_cons]
        have h1 : decide ((ca, k).2 ≠ e) = true := by simpa using (ne_of_lt hgt)
        rw [if_pos h1, filter_ne_eq_self (inorder l) e (fun x hx => ne_of_lt (lt_trans (hkl x hx) hgt))]
      refine ⟨t1, c1, ?_, ⟨bst_of_filter e hfilt hbst, hb, hho⟩, ?_, hfilt, ?_, ?_, ?_⟩
      · simp [erase, not_lt_of_gt hgt, hgt, hers, hang_right, hbal]
      · simp only [height_node]; omega
      · intro hm; exact hmem (hek.1 hm)
      · intro hm
        obtain ⟨h2, h3⟩ := hnew (fun h => hm (hek.2 h))
        refine ⟨h2, ?_⟩
        rintro ⟨q1, q2, q3, q4⟩
        have := h3 q4
        subst this
        rw [setPrev_eq_self _ _ q2] at hid
        rw [hid (by omega) (by omega)]
        congr 1
        exact toUChar_eq _ _ hh0 (by omega)
      · rintro ⟨q1, q2, q3, q4⟩
        exact hpo q3 ((parentOK_setPrev _ _).2 (hpar q4)) q1 (prevIs_setPrev _ _)

theorem minNodes_succ_succ (h : Nat) : minNodes (h + 2) = minNodes (h + 1) + minNodes h + 1 := rfl

theorem minNodes_le_succ (h : Nat) : minNodes h ≤ minNodes (h + 1) := by
  cases h with
  | zero => decide
  | succ n => rw [minNodes_succ_succ]; omega

theorem minNodes_mono {a b : Nat} (h : a ≤ b) : minNodes a ≤ minNodes b := by
  induction h with
  | refl => exact le_refl _
  | step _ ih => exact le_trans ih (minNodes_le_succ _)

theorem minNodes_add_one_eq_fib (h : Nat) : minNodes h + 1 = Nat.fib (h + 2) := by
  induction h using Nat.strong_induction_on with
  | _ h ih =>
    match h with
    | 0 => rfl
    | 1 => rfl
    | n + 2 =>
      rw [minNodes_succ_succ, Nat.fib_add_two (n := n + 2)]
      have h1 := ih n (by omega)
      have h2 := ih (n + 1) (by omega)
      have e : n + 1 + 2 = n + 2 + 1 := by omega
      rw [e] at h2
      omega

theorem two_pow_le_minNodes (k : Nat) : 2 ^ k ≤ minNodes (2 * k) + 1 := by
  induction k with
  | zero => decide
  | succ n ih =>
    have h1 : 2 * (n + 1) = 2 * n + 2 := by ring
    rw [h1, minNodes_succ_succ, pow_succ]
    have := minNodes_le_succ (2 * n)
    omega

theorem minNodes_le_count (t : Node α) (hb : Balanced t) (hho : HeightOK t) :
    minNodes (height t).toNat ≤ count t := by
  induction t with
  | nil => simp [minNodes, count]
  | node a k h l r p ihl ihr =>
    obtain ⟨⟨hb1, hb2⟩, hbl, hbr⟩ := hb
    obtain ⟨hh0, hhl, hhr⟩ := hho
    have h1 := ihl hbl hhl
    have h2 := ihr hbr hhr
    have hl0 := height_nonneg l
    have hr0 := height_nonneg r
    simp only [height_node, Int.toNat_ofNat, count]
    obtain ⟨x, hx⟩ := Int.eq_ofNat_of_zero_le hl0
    obtain ⟨y, hy⟩ := Int.eq_ofNat_of_zero_le hr0
    rw [hx] at h1 hb1 hb2 hh0
    rw [hy] at h2 hb1 hb2 hh0
    simp only [Int.toNat_ofNat] at h1 h2
    rcases Nat.lt_or_ge x y with hxy | hxy
    · have hy1 : y = x + 1 := by omega
      have hh : h = x + 2 := by omega
      rw [hh, minNodes_succ_succ]
      rw [hy1] at h2
      omega
    · rcases Nat.eq_or_lt_of_le hxy with hxy | hxy
      · have hh : h = x + 1 := by omega
        subst hxy
        cases y with
        | zero => rw [hh]; simp [minNodes]
        | succ n =>
          rw [hh, minNodes_succ_succ]
          have := minNodes_le_succ n
          omega
      · have hx1 : x = y + 1 := by omega
        have hh : h = y + 2 := by omega
        rw [hh, minNodes_succ_succ]
        rw [hx1] at h1
        omega

theorem height_le_of_count_lt (t : Node α) (hb : Balanced t) (hho : HeightOK t)
    (hc : count t < SIZE_MOD) : height t ≤ 129 := by
  by_contra hcon
  have h0 : 130 ≤ (height t).toNat := by omega
  have h1 := minNodes_le_count t hb hho
  have h2 := minNodes_mono h0
  have h3 := two_pow_le_minNodes 65
  have h4 : (2 : Nat) ^ 65 = 2 * SIZE_MOD := by unfold SIZE_MOD; norm_num
  simp only [Nat.reduceMul] at h3
  omega

theorem keys_nodup_of_bst (t : Node α) (h : BST t) : (keys t).Nodup := by
  rw [bst_iff_pairwise] at h
  exact h.imp (fun hab => ne_of_lt hab)

theorem length_filter_ne (xs : List (Nat × α)) (e : α) (hnd : (xs.map Prod.snd).Nodup)
    (hm : e ∈ xs.map Prod.snd) :
    (xs.filter (fun x => decide (x.2 ≠ e))).length + 1 = xs.length := by
  induction xs with
  | nil => simp at hm
  | cons x xs ih =>
    simp only [List.map_cons, List.nodup_cons] at hnd
    by_cases hx : x.2 = e
    · have h1 : ∀ y ∈ xs.map Prod.snd, y ≠ e := by
        intro y hy hye
        exact hnd.1 (by rw [hx, ← hye]; exact hy)
      have hd : ¬ (decide (x.2 ≠ e) = true) := by simp [hx]
      rw [List.filter_cons, if_neg hd, filter_ne_eq_self xs e h1]
      rfl
    · have h2 : e ∈ xs.map Prod.snd := by
        simp only [List.map_cons, List.mem_cons] at hm
        rcases hm with h3 | h3
        · exact absurd h3.symm hx
        · exact h3
      have hd : decide (x.2 ≠ e) = true := by simp [hx]
      rw [List.filter_cons, if_pos hd, List.length_cons, ih hnd.2 h2]
      rfl

theorem length_le_of_addrs (l : List Nat) (hnd : l.Nodup) (hr : ∀ a ∈ l, 0 < a ∧ a < SIZE_MOD) :
    l.length < SIZE_MOD := by
  have h1 : l.toFinset ⊆ Finset.Ioo 0 SIZE_MOD := by
    intro a ha
    rw [List.mem_toFinset] at ha
    exact Finset.mem_Ioo.2 (hr a ha)
  have h2 := Finset.card_le_card h1
  rw [List.toFinset_card_of_nodup hnd, Nat.card_Ioo] at h2
  have h3 : 0 < SIZE_MOD := by decide
  omega

theorem count_lt_of_addrOK (t : Node α) (h : AddrOK t) : count t < SIZE_MOD := by
  have := length_le_of_addrs (addrs t) h.1 h.2
  rw [count_eq_length]
  simpa [addrs] using this

theorem height_le_of_wf (s : Set α) (h : s.WF) : height s.root ≤ 129 :=
  height_le_of_count_lt s.root h.inv.bal h.inv.hts (count_lt_of_addrOK s.root h.addr)

theorem set_insert_spec (a : Nat) (s : Set α) (e : α) (hwf : s.WF) (ha0 : 0 < a)
    (ha1 : a < SIZE_MOD) (hfresh : a ∉ addrs s.root) :
    ∃ s1, Set.insert a s e = some s1 ∧ s1.WF ∧
      (e ∈ keys s.root → s1 = s) ∧
      (e ∉ keys s.root → (inorder s1.root).Perm ((a, e) :: inorder s.root) ∧
        s1.cnt = s.cnt + 1) := by
  have hh := height_le_of_wf s hwf
  obtain ⟨t1, c1, hins, hinv, hne, hht, hmem, hnew, hpar⟩ :=
    insert_spec a e s.cnt s.root hwf.inv (by omega)
  have hsome : ∃ x, addrOf t1 = some x := by
    cases t1 with
    | nil => exact absurd rfl hne
    | node _ _ _ _ _ _ => exact ⟨_, rfl⟩
  obtain ⟨x, hx⟩ := hsome
  have heq : Set.insert a s e = some ⟨setPrev t1 none, c1⟩ := by
    simp [Set.insert, hins, hx]
  by_cases hm : e ∈ keys s.root
  · obtain ⟨h1, h2, h3⟩ := hmem hm
    rw [h3 hwf.parent, h2, setPrev_eq_self _ _ hwf.rootPrev] at heq
    exact ⟨s, heq, hwf, fun _ => rfl, fun h => absurd hm h⟩
  · obtain ⟨h1, h2⟩ := hnew hm
    have haddr : AddrOK (setPrev t1 none) := by
      have hp : (addrs t1).Perm (a :: addrs s.root) := by
        simpa [addrs] using h1.map Prod.fst
      constructor
      · rw [addrs_setPrev, hp.nodup_iff]
        exact List.nodup_cons.2 ⟨hfresh, hwf.addr.1⟩
      · intro b hb
        rw [addrs_setPrev] at hb
        have := hp.mem_iff.1 hb
        rcases List.mem_cons.1 this with rfl | hb2
        · exact ⟨ha0, ha1⟩
        · exact hwf.addr.2 b hb2
    have hcnt := count_lt_of_addrOK _ haddr
    have hlen : count (setPrev t1 none) = count s.root + 1 := by
      rw [count_setPrev, count_eq_length, count_eq_length, h1.length_eq]; simp
    have hc1 : c1 = s.cnt + 1 := by
      rw [h2, hwf.size]
      exact Nat.mod_eq_of_lt (by omega)
    refine ⟨_, heq, ⟨(inv_setPrev _ _).2 hinv, (parentOK_setPrev _ _).2 (hpar hwf.parent),
      prevIs_setPrev _ _, haddr, ?_⟩, fun h => absurd h hm, fun _ => ⟨by simpa using h1, hc1⟩⟩
    show c1 = count (setPrev t1 none)
    rw [hlen, hc1, hwf.size]

theorem set_erase_spec (s : Set α) (e : α) (hwf : s.WF) :
    ∃ s1, Set.erase s e = some s1 ∧ s1.WF ∧
      inorder s1.root = (inorder s.root).filter (fun x => decide (x.2 ≠ e)) ∧
      (e ∉ keys s.root → s1 = s) ∧
      (e ∈ keys s.root → s1.cnt + 1 = s.cnt) := by
  have hh := height_le_of_wf s hwf
  obtain ⟨t1, c1, hers, hinv, hht, hfl, hmem, hnew, hpar⟩ :=
    erase_spec e s.cnt s.root hwf.inv (by omega)
  have heq : Set.erase s e = some ⟨setPrev t1 none, c1⟩ := by
    simp [Set.erase, hers]
  have hsub : (addrs (setPrev t1 none)).Sublist (addrs s.root) := by
    rw [addrs_setPrev, addrs, addrs, hfl]
    exact List.Sublist.map _ (List.filter_sublist _)
  have haddr : AddrOK (setPrev t1 none) :=
    ⟨hwf.addr.1.sublist hsub, fun b hb => hwf.addr.2 b (hsub.subset hb)⟩
  have hcs := count_lt_of_addrOK _ hwf.addr
  by_cases hm : e ∈ keys s.root
  · have hlen := length_filter_ne (inorder s.root) e (keys_nodup_of_bst _ hwf.inv.bst) hm
    rw [← hfl, ← count_eq_length, ← count_eq_length] at hlen
    have hc1 : c1 + 1 = s.cnt := by
      rw [hmem hm, hwf.size]
      unfold SIZE_MOD at hcs ⊢
      omega
    refine ⟨_, heq, ⟨(inv_setPrev _ _).2 hinv, (parentOK_setPrev _ _).2 (hpar hwf.parent),
      prevIs_setPrev _ _, haddr, ?_⟩, by simpa using hfl, fun h => absurd hm h, fun _ => hc1⟩
    show c1 = count (setPrev t1 none)
    rw [count_setPrev]
    have := hwf.size
    omega
  · obtain ⟨h2, h3⟩ := hnew hm
    rw [h3 hwf.parent] at hfl
    rw [h3 hwf.parent, h2, setPrev_eq_self _ _ hwf.rootPrev] at heq
    exact ⟨s, heq, hwf, hfl, fun _ => rfl, fun h => absurd h hm⟩

theorem isSub_ne_nil {n t : Node α} (h : IsSub n t) : n ≠ nil := by
  induction t with
  | nil => exact absurd h (by simp [IsSub])
  | node a k ht l r p ihl ihr =>
    rcases h with h | h | h
    · rw [h]; simp
    · exact ihl h
    · exact ihr h

theorem isSub_refl (a : Nat) (k : α) (h : Nat) (l r : Node α) (p : Option Nat) :
    IsSub (node a k h l r p) (node a k h l r p) := Or.inl rfl

theorem isSub_trans {n m t : Node α} (h1 : IsSub n m) (h2 : IsSub m t) : IsSub n t := by
  induction t with
  | nil => exact absurd h2 (by simp [IsSub])
  | node a k ht l r p ihl ihr =>
    rcases h2 with h | h | h
    · rw [← h]; exact h1
    · exact Or.inr (Or.inl (ihl h))
    · exact Or.inr (Or.inr (ihr h))

theorem isSub_inorder {a : Nat} {k : α} {h : Nat} {l r : Node α} {p : Option Nat} {t : Node α}
    (hs : IsSub (node a k h l r p) t) : (a, k) ∈ inorder t := by
  induction t with
  | nil => exact absurd hs (by simp [IsSub])
  | node ta tk th tl tr tp ihl ihr =>
    simp only [inorder, List.mem_append, List.mem_cons]
    rcases hs with h1 | h1 | h1
    · injection h1 with e1 e2
      exact Or.inr (Or.inl (by rw [e1, e2]))
    · exact Or.inl (ihl h1)
    · exact Or.inr (Or.inr (ihr h1))

theorem isSub_addr {a : Nat} {k : α} {h : Nat} {l r : Node α} {p : Option Nat} {t : Node α}
    (hs : IsSub (node a k h l r p) t) : a ∈ addrs t :=
  List.mem_map_of_mem Prod.fst (isSub_inorder hs)

theorem isSub_key {a : Nat} {k : α} {h : Nat} {l r : Node α} {p : Option Nat} {t : Node α}
    (hs : IsSub (node a k h l r p) t) : k ∈ keys t :=
  List.mem_map_of_mem Prod.snd (isSub_inorder hs)

theorem nodeAt_none {t : Node α} {x : Nat} (h : x ∉ addrs t) : nodeAt t x = none := by
  induction t with
  | nil => rfl
  | node a k ht l r p ihl ihr =>
    simp only [addrs_node, List.mem_append, List.mem_cons, not_or] at h
    simp [nodeAt, ihl h.1, ihr h.2.2, Ne.symm h.2.1]

theorem nodeAt_isSub {a : Nat} {k : α} {h : Nat} {l r : Node α} {p : Option Nat} {t : Node α}
    (hnd : (addrs t).Nodup) (hs : IsSub (node a k h l r p) t) :
    nodeAt t a = some (node a k h l r p) := by
  induction t with
  | nil => exact absurd hs (by simp [IsSub])
  | node ta tk th tl tr tp ihl ihr =>
    simp only [addrs_node] at hnd
    have hnl := (List.nodup_append.1 hnd).1
    have hnr := (List.nodup_cons.1 (List.nodup_append.1 hnd).2.1).2
    have hta := (List.nodup_cons.1 (List.nodup_append.1 hnd).2.1).1
    have hdis := (List.nodup_append.1 hnd).2.2
    rcases hs with h1 | h1 | h1
    · rw [← h1]; simp [nodeAt]
    · have ha := isSub_addr h1
      have hne : ta ≠ a := by
        rintro rfl
        exact hdis ha (List.mem_cons_self _ _)
      simp [nodeAt, hne, ihl hnl h1]
    · have ha := isSub_addr h1
      have hne : ta ≠ a := by
        rintro rfl
        exact hta ha
      have hnl2 : a ∉ addrs tl := fun h2 => hdis h2 (List.mem_cons_of_mem _ ha)
      simp [nodeAt, hne, nodeAt_none hnl2, ihr hnr h1]

theorem find_spec (t : Node α) (hb : BST t) (x : α) :
    (x ∈ keys t → ∃ a h l r p, find t x = node a x h l r p ∧ IsSub (node a x h l r p) t) ∧
      (x ∉ keys t → find t x = nil) := by
  induction t with
  | nil => simp [find]
  | node a k h l r p ihl ihr =>
    obtain ⟨hkl, hkr, hbl, hbr⟩ := hb
    rcases lt_trichotomy x k with hlt | heq | hgt
    · have hek : x ∈ keys (node a k h l r p) ↔ x ∈ keys l := by
        simp only [keys_node, List.mem_append, List.mem_cons]
        constructor
        · rintro (h1 | rfl | h1)
          · exact h1
          · exact absurd hlt (lt_irrefl _)
          · exact absurd (lt_trans hlt (hkr x h1)) (lt_irrefl _)
        · exact Or.inl
      rw [hek]
      simp only [find, hlt, if_true]
      refine ⟨fun hm => ?_, (ihl hbl).2⟩
      obtain ⟨a1, h1, l1, r1, p1, e1, e2⟩ := (ihl hbl).1 hm
      exact ⟨a1, h1, l1, r1, p1, e1, Or.inr (Or.inl e2)⟩
    · subst heq
      simp only [find, lt_irrefl, if_false]
      exact ⟨fun _ => ⟨a, h, l, r, p, rfl, Or.inl rfl⟩, fun hm => absurd (by simp) hm⟩
    · have hek : x ∈ keys (node a k h l r p) ↔ x ∈ keys r := by
        simp only [keys_node, List.mem_append, List.mem_cons]
        constructor
        · rintro (h1 | rfl | h1)
          · exact absurd (lt_trans hgt (hkl x h1)) (lt_irrefl _)
          · exact absurd hgt (lt_irrefl _)
          · exact h1
        · exact fun h1 => Or.inr (Or.inr h1)
      rw [hek]
      simp only [find, not_lt_of_gt hgt, hgt, if_true, if_false]
      refine ⟨fun hm => ?_, (ihr hbr).2⟩
      obtain ⟨a1, h1, l1, r1, p1, e1, e2⟩ := (ihr hbr).1 hm
      exact ⟨a1, h1, l1, r1, p1, e1, Or.inr (Or.inr e2)⟩

theorem find_ne_nil_iff (t : Node α) (hb : BST t) (x : α) : find t x ≠ nil ↔ x ∈ keys t := by
  constructor
  · intro h
    by_contra hm
    exact h ((find_spec t hb x).2 hm)
  · intro hm
    obtain ⟨a, h, l, r, p, e1, _⟩ := (find_spec t hb x).1 hm
    rw [e1]; simp

theorem reach_wf {s : Set α} {m : Finset α} (h : Reach s m) :
    s.WF ∧ ∀ x, x ∈ keys s.root ↔ x ∈ m := by
  induction h with
  | ctor =>
    refine ⟨⟨⟨trivial, trivial, trivial⟩, trivial, trivial, ⟨List.nodup_nil, ?_⟩, rfl⟩, ?_⟩
    · intro a ha; simp [Set.ctor] at ha
    · intro x; simp [Set.ctor]
  | @insert s s1 m a e _ ha0 ha1 hfresh heq ih =>
    obtain ⟨s2, h1, hwf, hsame, hnew⟩ := set_insert_spec a s e ih.1 ha0 ha1 hfresh
    rw [heq] at h1
    injection h1 with h1
    subst h1
    refine ⟨hwf, fun x => ?_⟩
    rw [Finset.mem_insert, ← ih.2 x]
    by_cases hm : e ∈ keys s.root
    · rw [hsame hm]
      constructor
      · exact Or.inr
      · rintro (rfl | h2)
        · exact hm
        · exact h2
    · rw [keys, mem_keys_of_perm (hnew hm).1 x]
      simp [keys]
  | @erase s s1 m e _ heq ih =>
    obtain ⟨s2, h1, hwf, hfl, _, _⟩ := set_erase_spec s e ih.1
    rw [heq] at h1
    injection h1 with h1
    subst h1
    refine ⟨hwf, fun x => ?_⟩
    rw [Finset.mem_erase, ← ih.2 x, keys, hfl, keys]
    simp only [List.mem_map, List.mem_filter, decide_eq_true_eq]
    constructor
    · rintro ⟨y, ⟨hy1, hy2⟩, rfl⟩
      exact ⟨hy2, y, hy1, rfl⟩
    · rintro ⟨hne, y, hy1, rfl⟩
      exact ⟨y, ⟨hy1, hne⟩, rfl⟩
  | clear _ _ =>
    refine ⟨⟨⟨trivial, trivial, trivial⟩, trivial, trivial, ⟨List.nodup_nil, ?_⟩, rfl⟩, ?_⟩
    · intro a ha; simp [Set.clear] at ha
    · intro x; simp [Set.clear]

theorem sampleSet_reach : Reach sampleSet sampleModel :=
  Reach.insert 3 8
    (Reach.insert 2 3
      (Reach.insert 1 5 Reach.ctor (by decide) (by decide) (by decide) rfl)
      (by decide) (by decide) (by decide) rfl)
    (by decide) (by decide) (by decide) rfl

/-- C1: membership correctness of `find`.  For a tree `t` that satisfies BST
order, AVL balance and height consistency (with fewer than `2 ^ 64` nodes) and
all `e`, `x`: `find` on the empty set equals `end()`; `find x` on the result of
`insert t e` is live iff `x = e` or `find x` on `t` is live; `find x` on the
result of `erase t e` is live iff `x ≠ e` and `find x` on `t` is live; a live
`find x` points to a node with key `x`.  Hence on a set `s` reached from the
empty set, `find x` is live and dereferences to `x` exactly for the elements
`m` inserted and not erased since, and equals `end()` for every other `x`. -/
theorem find_membership (t : Node α) (hinv : Inv t) (hc : count t < SIZE_MOD)
    (a : Nat) (e x : α) (c : Nat) (s : Set α) (m : Finset α) (hr : Reach s m) :
    operator_eq (Set.find (Set.ctor : Set α) x) (Set.end (Set.ctor : Set α)) = true ∧
    (∃ t1 c1, insert a t e c = some (t1, c1) ∧ (find t1 x ≠ nil ↔ x = e ∨ find t x ≠ nil)) ∧
    (∃ t1 c1, erase t e c = some (t1, c1) ∧ (find t1 x ≠ nil ↔ x ≠ e ∧ find t x ≠ nil)) ∧
    (find t x ≠ nil → keyOf (find t x) = some x) ∧
    (x ∈ m → (Set.find s x).cur ≠ none ∧ operator_deref s.root (Set.find s x) = some x) ∧
    (x ∉ m → operator_eq (Set.find s x) (Set.end s) = true) := by
  have hh := height_le_of_count_lt t hinv.bal hinv.hts hc
  refine ⟨rfl, ?_, ?_, ?_, ?_, ?_⟩
  · obtain ⟨t1, c1, hins, hinv1, hne, hht, hmem, hnew, hpar⟩ :=
      insert_spec a e c t hinv (by omega)
    refine ⟨t1, c1, hins, ?_⟩
    rw [find_ne_nil_iff t1 hinv1.bst, find_ne_nil_iff t hinv.bst]
    by_cases hm : e ∈ keys t
    · rw [keys, (hmem hm).1]
      constructor
      · exact Or.inr
      · rintro (rfl | h2)
        · exact hm
        · exact h2
    · rw [keys, mem_keys_of_perm (hnew hm).1 x]
      simp [keys]
  · obtain ⟨t1, c1, hers, hinv1, hht, hfl, hmem, hnew, hpar⟩ :=
      erase_spec e c t hinv (by omega)
    refine ⟨t1, c1, hers, ?_⟩
    rw [find_ne_nil_iff t1 hinv1.bst, find_ne_nil_iff t hinv.bst, keys, hfl, keys]
    simp only [List.mem_map, List.mem_filter, decide_eq_true_eq]
    constructor
    · rintro ⟨y, ⟨hy1, hy2⟩, rfl⟩
      exact ⟨hy2, y, hy1, rfl⟩
    · rintro ⟨hne, y, hy1, rfl⟩
      exact ⟨y, ⟨hy1, hne⟩, rfl⟩
  · intro hlive
    obtain ⟨a1, h1, l1, r1, p1, e1, _⟩ :=
      (find_spec t hinv.bst x).1 ((find_ne_nil_iff t hinv.bst x).1 hlive)
    rw [e1]; rfl
  · intro hm
    obtain ⟨hwf, hkeys⟩ := reach_wf hr
    obtain ⟨a1, h1, l1, r1, p1, e1, e2⟩ := (find_spec s.root hwf.inv.bst x).1 ((hkeys x).2 hm)
    have h3 := nodeAt_isSub hwf.addr.1 e2
    simp [Set.find, e1, addrOf, operator_deref, h3, keyOf]
  · intro hm
    obtain ⟨hwf, hkeys⟩ := reach_wf hr
    have h1 := (find_spec s.root hwf.inv.bst x).2 (fun h => hm ((hkeys x).1 h))
    simp [Set.find, Set.end, h1, addrOf, operator_eq]

theorem find_membership_witness :
    Inv sampleTree ∧ count sampleTree < SIZE_MOD ∧ Reach sampleSet sampleModel ∧
      (∃ t1 c1, insert 4 sampleTree 7 3 = some (t1, c1) ∧
        (find t1 8 ≠ nil ↔ 8 = 7 ∨ find sampleTree 8 ≠ nil)) ∧
      (8 ∈ sampleModel → (Set.find sampleSet 8).cur ≠ none ∧
        operator_deref sampleSet.root (Set.find sampleSet 8) = some 8) :=
  ⟨by decide, by decide, sampleSet_reach,
    (find_membership sampleTree (by decide) (by decide) 4 7 8 3 sampleSet sampleModel
      sampleSet_reach).2.1,
    (find_membership sampleTree (by decide) (by decide) 4 7 8 3 sampleSet sampleModel
      sampleSet_reach).2.2.2.2.1⟩

theorem nextOf_append_of_mem (l1 l2 : List Nat) (x : Nat) (h : x ∈ l1) :
    nextOf (l1 ++ l2) x = (nextOf l1 x).orElse (fun _ => l2.head?) := by
  induction l1 with
  | nil => simp at h
  | cons y ys ih =>
    by_cases hy : y = x
    · subst hy
      cases ys <;> simp [nextOf]
    · have hx : x ∈ ys := by
        rcases List.mem_cons.1 h with h1 | h1
        · exact absurd h1.symm hy
        · exact h1
      simp [nextOf, hy, ih hx]

theorem nextOf_append_of_not_mem (l1 l2 : List Nat) (x : Nat) (h : x ∉ l1) :
    nextOf (l1 ++ l2) x = nextOf l2 x := by
  induction l1 with
  | nil => rfl
  | cons y ys ih =>
    simp only [List.mem_cons, not_or] at h
    simp [nextOf, Ne.symm h.1, ih h.2]

theorem nextOf_of_not_mem (l : List Nat) (x : Nat) (h : x ∉ l) : nextOf l x = none := by
  induction l with
  | nil => rfl
  | cons y ys ih =>
    simp only [List.mem_cons, not_or] at h
    simp [nextOf, Ne.symm h.1, ih h.2]

theorem nextOf_mem {l : List Nat} {x y : Nat} (h : nextOf l x = some y) : x ∈ l ∧ y ∈ l := by
  induction l with
  | nil => simp [nextOf] at h
  | cons z zs ih =>
    by_cases hz : z = x
    · subst hz
      simp only [nextOf, if_true] at h
      exact ⟨List.mem_cons_self _ _, List.mem_cons_of_mem _ (List.mem_of_mem_head? h)⟩
    · simp only [nextOf, hz, if_false] at h
      exact ⟨List.mem_cons_of_mem _ (ih h).1, List.mem_cons_of_mem _ (ih h).2⟩

theorem nextOf_reverse {l : List Nat} (hnd : l.Nodup) {x y : Nat} (h : nextOf l x = some y) :
    nextOf l.reverse y = some x := by
  induction l with
  | nil => simp [nextOf] at h
  | cons z zs ih =>
    obtain ⟨hz, hzs⟩ := List.nodup_cons.1 hnd
    rw [List.reverse_cons]
    by_cases hzx : z = x
    · subst hzx
      simp only [nextOf, if_true] at h
      cases zs with
      | nil => simp at h
      | cons w ws =>
        simp only [List.head?_cons, Option.some.injEq] at h
        subst h
        obtain ⟨hw, hws⟩ := List.nodup_cons.1 hzs
        rw [List.reverse_cons, List.append_assoc,
          nextOf_append_of_not_mem _ _ _ (by simpa using hw)]
        simp [nextOf]
    · simp only [nextOf, hzx, if_false] at h
      have hy : y ∈ zs.reverse := by simpa using (nextOf_mem h).2
      rw [nextOf_append_of_mem _ _ _ hy, ih hzs h]
      rfl

theorem nextOf_eq_none {l : List Nat} {x : Nat} (hx : x ∈ l) (h : nextOf l x = none) :
    l.getLast? = some x := by
  induction l with
  | nil => simp at hx
  | cons z zs ih =>
    by_cases hz : z = x
    · subst hz
      simp only [nextOf, if_true] at h
      have : zs = [] := by
        cases zs with
        | nil => rfl
        | cons w ws => simp at h
      subst this
      rfl
    · simp only [nextOf, hz, if_false] at h
      have hx2 : x ∈ zs := by
        rcases List.mem_cons.1 hx with h1 | h1
        · exact absurd h1.symm hz
        · exact h1
      have := ih hx2 h
      cases zs with
      | nil => simp at hx2
      | cons w ws => simpa [List.getLast?_cons_cons] using this

theorem isSub_parentOK {t rt : Node α} (hp : ParentOK rt) (hs : IsSub t rt) : ParentOK t := by
  induction rt with
  | nil => exact absurd hs (by simp [IsSub])
  | node a k h l r p ihl ihr =>
    rcases hs with h1 | h1 | h1
    · rw [h1]; exact hp
    · exact ihl hp.2.2.1 h1
    · exact ihr hp.2.2.2 h1

theorem isSub_sublist {t rt : Node α} (hs : IsSub t rt) : (addrs t).Sublist (addrs rt) := by
  induction rt with
  | nil => exact absurd hs (by simp [IsSub])
  | node a k h l r p ihl ihr =>
    rcases hs with h1 | h1 | h1
    · rw [h1]
    · rw [addrs_node]
      exact (ihl h1).trans (List.sublist_append_left _ _)
    · rw [addrs_node]
      exact (ihr h1).trans ((List.sublist_cons_self _ _).trans (List.sublist_append_right _ _))

theorem isSub_left {a : Nat} {k : α} {h : Nat} {l r : Node α} {p : Option Nat} {rt : Node α}
    (hs : IsSub (node a k h l r p) rt) (hl : l ≠ nil) : IsSub l rt := by
  cases l with
  | nil => exact absurd rfl hl
  | node la lk lh ll lr lp =>
    exact isSub_trans (m := node a k h (node la lk lh ll lr lp) r p)
      (show IsSub _ _ from Or.inr (Or.inl (Or.inl rfl))) hs

theorem isSub_right {a : Nat} {k : α} {h : Nat} {l r : Node α} {p : Option Nat} {rt : Node α}
    (hs : IsSub (node a k h l r p) rt) (hr : r ≠ nil) : IsSub r rt := by
  cases r with
  | nil => exact absurd rfl hr
  | node ra rk rh rl rr rp =>
    exact isSub_trans (m := node a k h l (node ra rk rh rl rr rp) p)
      (show IsSub _ _ from Or.inr (Or.inr (Or.inl rfl))) hs

theorem addrOf_mem_addrs {t : Node α} {x : Nat} (h : addrOf t = some x) : x ∈ addrs t := by
  cases t with
  | nil => simp [addrOf] at h
  | node a k ht l r p =>
    simp only [addrOf, Option.some.injEq] at h
    subst h
    simp

theorem descend_left_spec (t : Node α) (hne : t ≠ nil) :
    ∃ m, descend_left t = some m ∧ find_min t = some m ∧ IsSub m t ∧
      addrOf m = (addrs t).head? ∧ keyOf m = (keys t).head? ∧ leftOf m = some nil := by
  induction t with
  | nil => exact absurd rfl hne
  | node a k h l r p ihl ihr =>
    cases l with
    | nil => exact ⟨_, rfl, rfl, Or.inl rfl, by simp [addrOf], by simp [keyOf], rfl⟩
    | node la lk lh ll lr lp =>
      obtain ⟨m, h1, h2, h3, h4, h5, h6⟩ := ihl (by simp)
      refine ⟨m, by simpa [descend_left] using h1, by simpa [find_min] using h2,
        Or.inr (Or.inl h3), ?_, ?_, h6⟩
      · rw [h4]; simp
      · rw [h5]; simp

theorem getLast_append_cons {β : Type} (ys : List β) (a : β) (xs : List β) (h : xs ≠ []) :
    (ys ++ a :: xs).getLast? = xs.getLast? := by
  cases xs with
  | nil => exact absurd rfl h
  | cons x xs =>
    rw [List.getLast?_append, List.getLast?_cons_cons]
    cases hx : (x :: xs).getLast? with
    | none => simp at hx
    | some y => rfl

theorem descend_right_spec (t : Node α) (hne : t ≠ nil) :
    ∃ m, descend_right t = some m ∧ find_max t = m ∧ IsSub m t ∧
      addrOf m = (addrs t).getLast? ∧ keyOf m = (keys t).getLast? ∧ rightOf m = some nil := by
  induction t with
  | nil => exact absurd rfl hne
  | node a k h l r p ihl ihr =>
    cases r with
    | nil => exact ⟨_, rfl, rfl, Or.inl rfl, by simp [addrOf], by simp [keyOf], rfl⟩
    | node ra rk rh rl rr rp =>
      obtain ⟨m, h1, h2, h3, h4, h5, h6⟩ := ihr (by simp)
      refine ⟨m, by simpa [descend_right] using h1, by simpa [find_max] using h2,
        Or.inr (Or.inr h3), ?_, ?_, h6⟩
      · rw [h4, addrs_node (r := node ra rk rh rl rr rp), getLast_append_cons _ _ _ (by simp)]
      · rw [h5, keys_node (r := node ra rk rh rl rr rp), getLast_append_cons _ _ _ (by simp)]

theorem ascend_inc_mono (rt : Node α) (f : Nat) (c : Option Nat) (res : Option Nat)
    (h : ascend_inc rt f c = some res) (k : Nat) : ascend_inc rt (f + k) c = some res := by
  induction f generalizing c with
  | zero => simp [ascend_inc] at h
  | succ n ih =>
    cases c with
    | none =>
      simp only [ascend_inc] at h
      rw [Nat.add_right_comm]
      simpa [ascend_inc] using h
    | some x =>
      rw [Nat.add_right_comm]
      simp only [ascend_inc] at h ⊢
      cases hn : nodeAt rt x with
      | none => simp [hn] at h
      | some nd =>
        simp only [hn, Option.bind_eq_bind, Option.some_bind] at h ⊢
        cases hp : prevOf nd with
        | none => simp [hp] at h
        | some q =>
          simp only [hp, Option.some_bind] at h ⊢
          cases q with
          | none => exact ih _ h
          | some pa =>
            simp only at h ⊢
            cases hpn : nodeAt rt pa with
            | none => simp [hpn] at h
            | some pn =>
              simp only [hpn, Option.some_bind] at h ⊢
              cases hl : leftOf pn with
              | none => simp [hl] at h
              | some ln =>
                simp only [hl, Option.some_bind] at h ⊢
                by_cases hc : addrOf ln = some x
                · simpa [hc] using h
                · simp only [hc, if_false] at h ⊢
                  exact ih _ h
theorem ascend_dec_mono (rt : Node α) (f : Nat) (c : Option Nat) (res : Option Nat)
    (h : ascend_dec rt f c = some res) (k : Nat) : ascend_dec rt (f + k) c = some res := by
  induction f generalizing c with
  | zero => simp [ascend_dec] at h
  | succ n ih =>
    cases c with
    | none =>
      simp only [ascend_dec] at h
      rw [Nat.add_right_comm]
      simpa [ascend_dec] using h
    | some x =>
      rw [Nat.add_right_comm]
      simp only [ascend_dec] at h ⊢
      cases hn : nodeAt rt x with
      | none => simp [hn] at h
      | some nd =>
        simp only [hn, Option.bind_eq_bind, Option.some_bind] at h ⊢
        cases hp : prevOf nd with
        | none => simp [hp] at h
        | some q =>
          simp only [hp, Option.some_bind] at h ⊢
          cases q with
          | none => exact ih _ h
          | some pa =>
            simp only at h ⊢
            cases hpn : nodeAt rt pa with
            | none => simp [hpn] at h
            | some pn =>
              simp only [hpn, Option.some_bind] at h ⊢
              cases hl : rightOf pn with
              | none => simp [hl] at h
              | some ln =>
                simp only [hl, Option.some_bind] at h ⊢
                by_cases hc : addrOf ln = some x
                · simpa [hc] using h
                · simp only [hc, if_false] at h ⊢
                  exact ih _ h

theorem ascend_inc_left {rt : Node α} (hnd : (addrs rt).Nodup)
    {a : Nat} {k : α} {h : Nat} {r : Node α} {p : Option Nat}
    {la : Nat} {lk : α} {lh : Nat} {ll lr : Node α}
    (hs : IsSub (node a k h (node la lk lh ll lr (some a)) r p) rt) (f : Nat) :
    ascend_inc rt (f + 1) (some la) = some (some a) := by
  have h1 := nodeAt_isSub hnd hs
  have h2 := nodeAt_isSub hnd (isSub_left hs (by simp))
  simp [ascend_inc, h1, h2, prevOf, leftOf, addrOf]

theorem ascend_inc_right {rt : Node α} (hnd : (addrs rt).Nodup)
    {a : Nat} {k : α} {h : Nat} {l : Node α} {p : Option Nat}
    {ra : Nat} {rk : α} {rh : Nat} {rl rr : Node α}
    (hs : IsSub (node a k h l (node ra rk rh rl rr (some a)) p) rt) (f : Nat) :
    ascend_inc rt (f + 1) (some ra) = ascend_inc rt f (some a) := by
  have h1 := nodeAt_isSub hnd hs
  have h2 := nodeAt_isSub hnd (isSub_right hs (by simp))
  have h3 : (addrs (node a k h l (node ra rk rh rl rr (some a)) p)).Nodup :=
    hnd.sublist (isSub_sublist hs)
  have h4 : addrOf l ≠ some ra := by
    intro h5
    have h6 := addrOf_mem_addrs h5
    rw [addrs_node] at h3
    exact (List.nodup_append.1 h3).2.2 h6 (by simp)
  simp [ascend_inc, h1, h2, prevOf, leftOf, h4]

theorem inc_spec {rt : Node α} (hnd : (addrs rt).Nodup) (last : Option Nat) (t : Node α) :
    ∀ (a : Nat), addrOf t = some a → IsSub t rt → ParentOK t →
    ∀ (n : Nat) (res : Option Nat), ascend_inc rt n (some a) = some res →
    ∀ x ∈ addrs t, ∀ fuel, n + count t ≤ fuel →
      operator_inc rt fuel ⟨last, some x⟩ =
        some ⟨last, (nextOf (addrs t) x).orElse (fun _ => res)⟩ := by
  induction t with
  | nil => intro a ha; simp [addrOf] at ha
  | node ta k h l r p ihl ihr =>
    intro a ha hs hp n res hup x hx fuel hfuel
    simp only [addrOf, Option.some.injEq] at ha
    subst ha
    have hndt : (addrs (node ta k h l r p)).Nodup := hnd.sublist (isSub_sublist hs)
    rw [addrs_node] at hndt hx
    obtain ⟨hndl, hndar, hdis⟩ := List.nodup_append.1 hndt
    obtain ⟨hta, hndr⟩ := List.nodup_cons.1 hndar
    obtain ⟨hpl, hpr, hpol, hpor⟩ := hp
    simp only [count] at hfuel
    rcases List.mem_append.1 hx with hx1 | hx1
    · -- `x` is in the left subtree
      cases l with
      | nil => simp at hx1
      | node la lk lh ll lr lp =>
        simp only [prevIs] at hpl
        subst hpl
        have hup1 : ascend_inc rt (0 + 1) (some la) = some (some ta) := ascend_inc_left hnd hs 0
        have := ihl la rfl (isSub_left hs (by simp)) hpol 1 (some ta) hup1 x hx1 fuel
          (by simp only [count] at hfuel ⊢; omega)
        rw [this, addrs_node (l := node la lk lh ll lr (some ta)),
          nextOf_append_of_mem _ _ _ hx1]
        cases nextOf (addrs (node la lk lh ll lr (some ta))) x <;> rfl
    · rcases List.mem_cons.1 hx1 with hx2 | hx2
      · -- `x` is the root of `t`
        subst hx2
        have h1 := nodeAt_isSub hnd hs
        have hxl : x ∉ addrs l := fun h2 => hdis h2 (List.mem_cons_self _ _)
        rw [addrs_node, nextOf_append_of_not_mem _ _ _ hxl]
        cases r with
        | nil =>
          have h3 := ascend_inc_mono rt n (some x) res hup (fuel - n)
          rw [show n + (fuel - n) = fuel by omega] at h3
          simp [operator_inc, h1, rightOf, h3, nextOf]
        | node ra rk rh rl rr rp =>
          obtain ⟨m, hm1, _, _, hm4, _, _⟩ := descend_left_spec (node ra rk rh rl rr rp) (by simp)
          simp only [operator_inc, h1, rightOf, Option.bind_eq_bind, Option.some_bind, hm1, hm4]
          rw [addrs_node (l := rl)]
          cases hh : (addrs rl ++ ra :: addrs rr).head? with
          | none => simp at hh
          | some y => simp [nextOf, addrs_node, hh]
      · -- `x` is in the right subtree
        cases r with
        | nil => simp at hx2
        | node ra rk rh rl rr rp =>
          simp only [prevIs] at hpr
          subst hpr
          have hup1 : ascend_inc rt (n + 1) (some ra) = some res := by
            rw [ascend_inc_right hnd hs n]; exact hup
          have := ihr ra rfl (isSub_right hs (by simp)) hpor (n + 1) res hup1 x hx2 fuel
            (by simp only [count] at hfuel ⊢; omega)
          have hxl : x ∉ addrs l := fun h2 => hdis h2 (List.mem_cons_of_mem _ hx2)
          have hxa : ta ≠ x := fun h2 => hta (h2 ▸ hx2)
          rw [this, addrs_node (l := l), nextOf_append_of_not_mem _ _ _ hxl]
          simp [nextOf, hxa]

theorem ascend_dec_right {rt : Node α} (hnd : (addrs rt).Nodup)
    {a : Nat} {k : α} {h : Nat} {l : Node α} {p : Option Nat}
    {ra : Nat} {rk : α} {rh : Nat} {rl rr : Node α}
    (hs : IsSub (node a k h l (node ra rk rh rl rr (some a)) p) rt) (f : Nat) :
    ascend_dec rt (f + 1) (some ra) = some (some a) := by
  have h1 := nodeAt_isSub hnd hs
  have h2 := nodeAt_isSub hnd (isSub_right hs (by simp))
  simp [ascend_dec, h1, h2, prevOf, rightOf, addrOf]

theorem ascend_dec_left {rt : Node α} (hnd : (addrs rt).Nodup)
    {a : Nat} {k : α} {h : Nat} {r : Node α} {p : Option Nat}
    {la : Nat} {lk : α} {lh : Nat} {ll lr : Node α}
    (hs : IsSub (node a k h (node la lk lh ll lr (some a)) r p) rt) (f : Nat) :
    ascend_dec rt (f + 1) (some la) = ascend_dec rt f (some a) := by
  have h1 := nodeAt_isSub hnd hs
  have h2 := nodeAt_isSub hnd (isSub_left hs (by simp))
  have h3 : (addrs (node a k h (node la lk lh ll lr (some a)) r p)).Nodup :=
    hnd.sublist (isSub_sublist hs)
  have h4 : addrOf r ≠ some la := by
    intro h5
    have h6 := addrOf_mem_addrs h5
    rw [addrs_node] at h3
    exact (List.nodup_append.1 h3).2.2 (by simp) (List.mem_cons_of_mem _ h6)
  simp [ascend_dec, h1, h2, prevOf, rightOf, h4]

theorem dec_spec {rt : Node α} (hnd : (addrs rt).Nodup) (last : Option Nat) (t : Node α) :
    ∀ (a : Nat), addrOf t = some a → IsSub t rt → ParentOK t →
    ∀ (n : Nat) (res : Option Nat), ascend_dec rt n (some a) = some res →
    ∀ x ∈ addrs t, ∀ fuel, n + count t ≤ fuel →
      operator_dec rt fuel ⟨last, some x⟩ =
        some ⟨last, (nextOf (addrs t).reverse x).orElse (fun _ => res)⟩ := by
  induction t with
  | nil => intro a ha; simp [addrOf] at ha
  | node ta k h l r p ihl ihr =>
    intro a ha hs hp n res hup x hx fuel hfuel
    simp only [addrOf, Option.some.injEq] at ha
    subst ha
    have hndt : (addrs (node ta k h l r p)).Nodup := hnd.sublist (isSub_sublist hs)
    rw [addrs_node] at hndt hx
    obtain ⟨hndl, hndar, hdis⟩ := List.nodup_append.1 hndt
    obtain ⟨hta, hndr⟩ := List.nodup_cons.1 hndar
    obtain ⟨hpl, hpr, hpol, hpor⟩ := hp
    simp only [count] at hfuel
    have hrev : (addrs (node ta k h l r p)).reverse =
        (addrs r).reverse ++ ta :: (addrs l).reverse := by
      rw [addrs_node]; simp
    rw [hrev]
    rcases List.mem_append.1 hx with hx1 | hx1
    · -- `x` is in the left subtree
      cases l with
      | nil => simp at hx1
      | node la lk lh ll lr lp =>
        simp only [prevIs] at hpl
        subst hpl
        have hup1 : ascend_dec rt (n + 1) (some la) = some res := by
          rw [ascend_dec_left hnd hs n]; exact hup
        have := ihl la rfl (isSub_left hs (by simp)) hpol (n + 1) res hup1 x hx1 fuel
          (by simp only [count] at hfuel ⊢; omega)
        have hxr : x ∉ (addrs r).reverse := fun h2 =>
          hdis hx1 (List.mem_cons_of_mem _ (List.mem_reverse.1 h2))
        have hxa : ta ≠ x := fun h2 => hdis hx1 (h2 ▸ List.mem_cons_self _ _)
        rw [this, nextOf_append_of_not_mem _ _ _ hxr]
        simp [nextOf, hxa]
    · rcases List.mem_cons.1 hx1 with hx2 | hx2
      · -- `x` is the root of `t`
        subst hx2
        have h1 := nodeAt_isSub hnd hs
        have hxr : x ∉ (addrs r).reverse := fun h2 => hta (List.mem_reverse.1 h2)
        rw [nextOf_append_of_not_mem _ _ _ hxr]
        cases l with
        | nil =>
          have h3 := ascend_dec_mono rt n (some x) res hup (fuel - n)
          rw [show n + (fuel - n) = fuel by omega] at h3
          simp [operator_dec, h1, leftOf, h3, nextOf]
        | node la lk lh ll lr lp =>
          obtain ⟨m, hm1, _, _, hm4, _, _⟩ := descend_right_spec (node la lk lh ll lr lp) (by simp)
          simp only [operator_dec, h1, leftOf, Option.bind_eq_bind, Option.some_bind, hm1, hm4]
          cases hh : (addrs (node la lk lh ll lr lp)).getLast? with
          | none => simp at hh
          | some y =>
            have : (addrs (node la lk lh ll lr lp)).reverse.head? = some y := by
              rw [List.head?_reverse]; exact hh
            simp only [nextOf, if_true, this]
            rfl
      · -- `x` is in the right subtree
        cases r with
        | nil => simp at hx2
        | node ra rk rh rl rr rp =>
          simp only [prevIs] at hpr
          subst hpr
          have hup1 : ascend_dec rt (0 + 1) (some ra) = some (some ta) := ascend_dec_right hnd hs 0
          have := ihr ra rfl (isSub_right hs (by simp)) hpor 1 (some ta) hup1 x hx2 fuel
            (by simp only [count] at hfuel ⊢; omega)
          have hxr : x ∈ (addrs (node ra rk rh rl rr (some ta))).reverse :=
            List.mem_reverse.2 hx2
          rw [this, nextOf_append_of_mem _ _ _ hxr]
          cases nextOf (addrs (node ra rk rh rl rr (some ta))).reverse x <;> rfl

theorem inc_root {rt : Node α} (hnd : (addrs rt).Nodup) (hp : ParentOK rt)
    (hroot : prevIs rt none) (last : Option Nat) (x : Nat) (hx : x ∈ addrs rt) (fuel : Nat)
    (hfuel : count rt + 2 ≤ fuel) :
    operator_inc rt fuel ⟨last, some x⟩ = some ⟨last, nextOf (addrs rt) x⟩ := by
  cases rt with
  | nil => simp at hx
  | node a k h l r p =>
    simp only [prevIs] at hroot
    subst hroot
    have hs : IsSub (node a k h l r none) (node a k h l r none) := Or.inl rfl
    have hup : ascend_inc (node a k h l r none) 2 (some a) = some none := by
      simp [ascend_inc, nodeAt, prevOf]
    rw [inc_spec hnd last (node a k h l r none) a rfl hs hp 2 none hup x hx fuel (by omega)]
    cases nextOf (addrs (node a k h l r none)) x <;> rfl

theorem dec_root {rt : Node α} (hnd : (addrs rt).Nodup) (hp : ParentOK rt)
    (hroot : prevIs rt none) (last : Option Nat) (x : Nat) (hx : x ∈ addrs rt) (fuel : Nat)
    (hfuel : count rt + 2 ≤ fuel) :
    operator_dec rt fuel ⟨last, some x⟩ = some ⟨last, nextOf (addrs rt).reverse x⟩ := by
  cases rt with
  | nil => simp at hx
  | node a k h l r p =>
    simp only [prevIs] at hroot
    subst hroot
    have hs : IsSub (node a k h l r none) (node a k h l r none) := Or.inl rfl
    have hup : ascend_dec (node a k h l r none) 2 (some a) = some none := by
      simp [ascend_dec, nodeAt, prevOf]
    rw [dec_spec hnd last (node a k h l r none) a rfl hs hp 2 none hup x hx fuel (by omega)]
    cases nextOf (addrs (node a k h l r none)).reverse x <;> rfl

theorem mem_inorder_isSub {t : Node α} {x : Nat} {k : α} (h : (x, k) ∈ inorder t) :
    ∃ ht l r p, IsSub (node x k ht l r p) t := by
  induction t with
  | nil => simp [inorder] at h
  | node a tk th l r p ihl ihr =>
    simp only [inorder, List.mem_append, List.mem_cons, Prod.mk.injEq] at h
    rcases h with h1 | ⟨rfl, rfl⟩ | h1
    · obtain ⟨ht, l1, r1, p1, h2⟩ := ihl h1
      exact ⟨ht, l1, r1, p1, Or.inr (Or.inl h2)⟩
    · exact ⟨th, l, r, p, Or.inl rfl⟩
    · obtain ⟨ht, l1, r1, p1, h2⟩ := ihr h1
      exact ⟨ht, l1, r1, p1, Or.inr (Or.inr h2)⟩

theorem deref_of_mem {rt : Node α} (hnd : (addrs rt).Nodup) {x : Nat} {k : α}
    (h : (x, k) ∈ inorder rt) (last : Option Nat) :
    operator_deref rt ⟨last, some x⟩ = some k := by
  obtain ⟨ht, l, r, p, hs⟩ := mem_inorder_isSub h
  simp [operator_deref, nodeAt_isSub hnd hs, keyOf]

theorem collect_spec (s : Set α) (hnd : (addrs s.root).Nodup) (hp : ParentOK s.root)
    (hroot : prevIs s.root none) (fuel : Nat) (hfuel : count s.root + 2 ≤ fuel)
    (last : Option Nat) (suf : List (Nat × α)) :
    ∀ (pre : List (Nat × α)), inorder s.root = pre ++ suf →
    ∀ n, suf.length + 1 ≤ n →
      collect s fuel n ⟨last, suf.head?.map Prod.fst⟩ = some (suf.map Prod.snd) := by
  induction suf with
  | nil =>
    intro pre _ n hn
    obtain ⟨n1, rfl⟩ : ∃ n1, n = n1 + 1 := ⟨n - 1, by simp at hn; omega⟩
    simp [collect, operator_eq, Set.end]
  | cons y ys ih =>
    intro pre hpre n hn
    obtain ⟨n1, rfl⟩ : ∃ n1, n = n1 + 1 := ⟨n - 1, by simp at hn; omega⟩
    obtain ⟨x, k⟩ := y
    have hmem : (x, k) ∈ inorder s.root := by rw [hpre]; simp
    have hxa : x ∈ addrs s.root := List.mem_map_of_mem Prod.fst hmem
    have haddrs : addrs s.root = pre.map Prod.fst ++ x :: ys.map Prod.fst := by
      rw [addrs, hpre]; simp
    have hxpre : x ∉ pre.map Prod.fst := by
      rw [haddrs] at hnd
      exact fun h2 => (List.nodup_append.1 hnd).2.2 h2 (List.mem_cons_self _ _)
    have hnext : nextOf (addrs s.root) x = ys.head?.map Prod.fst := by
      rw [haddrs, nextOf_append_of_not_mem _ _ _ hxpre]
      cases ys <;> simp [nextOf]
    have hrec := ih (pre ++ [(x, k)]) (by rw [hpre]; simp) n1 (by simp at hn ⊢; omega)
    simp only [List.head?_cons, Option.map_some', collect, operator_eq, Set.end]
    rw [deref_of_mem hnd hmem, inc_root hnd hp hroot last x hxa fuel hfuel, hnext]
    simp [hrec]

theorem traverse_spec (s : Set α) (hwf : s.WF) (fuel : Nat) (hfuel : count s.root + 2 ≤ fuel) :
    traverse s fuel = some (keys s.root) := by
  have hlen : (inorder s.root).length + 1 ≤ fuel := by
    rw [← count_eq_length]; omega
  have hcol := collect_spec s hwf.addr.1 hwf.parent hwf.rootPrev fuel hfuel
    (addrOf (find_max s.root)) (inorder s.root) [] rfl fuel hlen
  cases hr : s.root with
  | nil => 
    rw [hr] at hcol
    simpa [traverse, Set.begin, hr, inorder, keys] using hcol
  | node a k h l r p =>
    obtain ⟨m, _, hm2, _, hm4, _, _⟩ := descend_left_spec (node a k h l r p) (by simp)
    rw [hr] at hcol
    simp only [traverse, Set.begin, hr, hm2, hm4, Option.bind_eq_bind, Option.some_bind]
    rw [keys]
    rw [← hcol]
    congr 2
    simp [addrs, List.head?_map]

theorem keys_eq_sort {t : Node α} {m : Finset α} (hb : BST t)
    (hm : ∀ x, x ∈ keys t ↔ x ∈ m) : keys t = m.sort (· ≤ ·) := by
  have hnd := keys_nodup_of_bst t hb
  have hs : (keys t).Sorted (· ≤ ·) := by
    rw [bst_iff_pairwise] at hb
    exact hb.imp (fun h => le_of_lt h)
  have hf : (keys t).toFinset = m := by
    ext x; rw [List.mem_toFinset]; exact hm x
  rw [← hf]
  exact ((List.toFinset_sort (· ≤ ·) hnd).2 hs).symm

theorem nextOf_inorder {rt : Node α} (hnd : (addrs rt).Nodup) {pre rest : List (Nat × α)}
    {x : Nat} {k : α} (hpre : inorder rt = pre ++ (x, k) :: rest) :
    x ∈ addrs rt ∧ nextOf (addrs rt) x = rest.head?.map Prod.fst := by
  have haddrs : addrs rt = pre.map Prod.fst ++ x :: rest.map Prod.fst := by
    rw [addrs, hpre]; simp
  have hxpre : x ∉ pre.map Prod.fst := by
    rw [haddrs] at hnd
    exact fun h2 => (List.nodup_append.1 hnd).2.2 h2 (List.mem_cons_self _ _)
  refine ⟨by rw [haddrs]; simp, ?_⟩
  rw [haddrs, nextOf_append_of_not_mem _ _ _ hxpre]
  cases rest <;> simp [nextOf]

/-- C2: sorted traversal.  On every set `s` reached from the empty set by
`insert`, `erase` (and `clear`) calls, with `m` the set of the elements
inserted and not erased since, the values read from `begin()` by `operator++`
until the iterator equals `end()` are the sorted list of `m`, which is strictly
increasing; every `operator++` moves from a node to the node that follows it in
the in-order sequence and from the last node to end-of-sequence.  The loops
run with any `fuel` of at least `size() + 2`. -/
theorem traversal_sorted (s : Set α) (m : Finset α) (hr : Reach s m) (fuel : Nat)
    (hfuel : s.size + 2 ≤ fuel) :
    traverse s fuel = some (m.sort (· ≤ ·)) ∧
    (m.sort (· ≤ ·)).Sorted (· < ·) ∧
    (∀ pre x k rest last, inorder s.root = pre ++ (x, k) :: rest →
      operator_inc s.root fuel ⟨last, some x⟩ = some ⟨last, rest.head?.map Prod.fst⟩) := by
  obtain ⟨hwf, hkeys⟩ := reach_wf hr
  have hf : count s.root + 2 ≤ fuel := by
    rw [← hwf.size]; exact hfuel
  refine ⟨?_, Finset.sort_sorted_lt m, ?_⟩
  · rw [traverse_spec s hwf fuel hf, keys_eq_sort hwf.inv.bst hkeys]
  · intro pre x k rest last hpre
    obtain ⟨hx, hn⟩ := nextOf_inorder hwf.addr.1 hpre
    rw [inc_root hwf.addr.1 hwf.parent hwf.rootPrev last x hx fuel hf, hn]

theorem traversal_sorted_witness :
    Reach sampleSet sampleModel ∧ sampleSet.size + 2 ≤ 5 ∧
      traverse sampleSet 5 = some (sampleModel.sort (· ≤ ·)) ∧
      traverse sampleSet 5 = some [3, 5, 8] :=
  ⟨sampleSet_reach, by decide,
    (traversal_sorted sampleSet sampleModel sampleSet_reach 5 (by decide)).1, by decide⟩

/-- C3: `insert` preserves the tree invariants.  For a tree `t` in which every
node satisfies BST order, AVL balance and height consistency (with fewer than
`2 ^ 64` nodes) and every element `e`, `insert` returns a tree that satisfies
the three invariants at every node. -/
theorem insert_preserves_invariants (t : Node α) (hbst : BST t) (hbal : Balanced t)
    (hhts : HeightOK t) (hc : count t < SIZE_MOD) (a : Nat) (e : α) (c : Nat) :
    ∃ t1 c1, insert a t e c = some (t1, c1) ∧ BST t1 ∧ Balanced t1 ∧ HeightOK t1 := by
  have hh := height_le_of_count_lt t hbal hhts hc
  obtain ⟨t1, c1, hins, hinv1, _⟩ := insert_spec a e c t ⟨hbst, hbal, hhts⟩ (by omega)
  exact ⟨t1, c1, hins, hinv1.bst, hinv1.bal, hinv1.hts⟩

theorem insert_preserves_invariants_witness :
    BST sampleTree ∧ Balanced sampleTree ∧ HeightOK sampleTree ∧ count sampleTree < SIZE_MOD ∧
      ∃ t1 c1, insert 4 sampleTree 9 3 = some (t1, c1) ∧ BST t1 ∧ Balanced t1 ∧ HeightOK t1 :=
  ⟨by decide, by decide, by decide, by decide,
    insert_preserves_invariants sampleTree (by decide) (by decide) (by decide) (by decide) 4 9 3⟩

/-- C4: `erase` preserves the tree invariants.  For a tree `t` in which every
node satisfies BST order, AVL balance and height consistency (with fewer than
`2 ^ 64` nodes) and every element `e`, stored or not, `erase` returns a tree
that satisfies the three invariants at every node; the case of a node with two
children, which goes through `find_min` and `erase_min`, is included. -/
theorem erase_preserves_invariants (t : Node α) (hbst : BST t) (hbal : Balanced t)
    (hhts : HeightOK t) (hc : count t < SIZE_MOD) (e : α) (c : Nat) :
    ∃ t1 c1, erase t e c = some (t1, c1) ∧ BST t1 ∧ Balanced t1 ∧ HeightOK t1 := by
  have hh := height_le_of_count_lt t hbal hhts hc
  obtain ⟨t1, c1, hers, hinv1, _⟩ := erase_spec e c t ⟨hbst, hbal, hhts⟩ (by omega)
  exact ⟨t1, c1, hers, hinv1.bst, hinv1.bal, hinv1.hts⟩

theorem erase_preserves_invariants_witness :
    BST sampleTree ∧ Balanced sampleTree ∧ HeightOK sampleTree ∧ count sampleTree < SIZE_MOD ∧
      ∃ t1 c1, erase sampleTree 5 3 = some (t1, c1) ∧ BST t1 ∧ Balanced t1 ∧ HeightOK t1 :=
  ⟨by decide, by decide, by decide, by decide,
    erase_preserves_invariants sampleTree (by decide) (by decide) (by decide) (by decide) 5 3⟩

theorem lower_bound_cases (t : Node α) (hb : BST t) (e : α) :
    (lower_bound t e = nil ∧ ∀ k ∈ keys t, k < e) ∨
      ∃ a k h l r p, lower_bound t e = node a k h l r p ∧ IsSub (node a k h l r p) t ∧
        ¬ k < e ∧ ∀ x ∈ keys t, ¬ x < e → k ≤ x := by
  induction t with
  | nil => left; simp [lower_bound]
  | node a k h l r p ihl ihr =>
    obtain ⟨hkl, hkr, hbl, hbr⟩ := hb
    by_cases hke : k < e
    · have hl : ∀ x ∈ keys l, x < e := fun x hx => lt_trans (hkl x hx) hke
      rcases ihr hbr with ⟨h1, h2⟩ | ⟨a1, k1, h1, l1, r1, p1, e1, e2, e3, e4⟩
      · left
        refine ⟨by simp [lower_bound, hke, h1], ?_⟩
        intro x hx
        simp only [keys_node, List.mem_append, List.mem_cons] at hx
        rcases hx with hx | rfl | hx
        · exact hl x hx
        · exact hke
        · exact h2 x hx
      · right
        refine ⟨a1, k1, h1, l1, r1, p1, by simp [lower_bound, hke, e1], Or.inr (Or.inr e2), e3, ?_⟩
        intro x hx hxe
        simp only [keys_node, List.mem_append, List.mem_cons] at hx
        rcases hx with hx | rfl | hx
        · exact absurd (hl x hx) hxe
        · exact absurd hke hxe
        · exact e4 x hx hxe
    · right
      rcases ihl hbl with ⟨h1, h2⟩ | ⟨a1, k1, h1, l1, r1, p1, e1, e2, e3, e4⟩
      · refine ⟨a, k, h, l, r, p, by simp [lower_bound, hke, h1], Or.inl rfl, hke, ?_⟩
        intro x hx hxe
        simp only [keys_node, List.mem_append, List.mem_cons] at hx
        rcases hx with hx | rfl | hx
        · exact absurd (h2 x hx) hxe
        · exact le_refl _
        · exact le_of_lt (hkr x hx)
      · refine ⟨a1, k1, h1, l1, r1, p1, by simp [lower_bound, hke, e1], Or.inr (Or.inl e2), e3, ?_⟩
        intro x hx hxe
        have hk1 : k1 < k := hkl k1 (isSub_key e2)
        simp only [keys_node, List.mem_append, List.mem_cons] at hx
        rcases hx with hx | rfl | hx
        · exact e4 x hx hxe
        · exact le_of_lt hk1
        · exact le_of_lt (lt_trans hk1 (hkr x hx))

theorem set1357_reach :
    Reach set1357 (Insert.insert 7 (Insert.insert 5 (Insert.insert 3 (Insert.insert 1 ∅)))) :=
  Reach.insert 4 7
    (Reach.insert 3 5
      (Reach.insert 2 3
        (Reach.insert 1 1 Reach.ctor (by decide) (by decide) (by decide) rfl)
        (by decide) (by decide) (by decide) rfl)
      (by decide) (by decide) (by decide) rfl)
    (by decide) (by decide) (by decide) rfl

/-- C5: `lower_bound` returns the least qualifying key.  For a tree `t` with BST
order and every `e`, the cursor of `lower_bound(e)` is end-of-sequence (null)
exactly when every stored key is less than `e`, and otherwise it is at a node
of the tree whose key `k` satisfies `¬ k < e` and is the least such stored key.
On the set `{1, 3, 5, 7}`, `lower_bound(4)` is at `5` and `lower_bound(8)` is
`end()`. -/
theorem lower_bound_least (t : Node α) (hb : BST t) (e : α) (c : Nat) :
    ((Set.lower_bound ⟨t, c⟩ e).cur = none ↔ ∀ k ∈ keys t, k < e) ∧
    (∀ a, (Set.lower_bound ⟨t, c⟩ e).cur = some a →
      ∃ k h l r p, lower_bound t e = node a k h l r p ∧ IsSub (node a k h l r p) t ∧
        ¬ k < e ∧ ∀ x ∈ keys t, ¬ x < e → k ≤ x) ∧
    (operator_deref set1357.root (Set.lower_bound set1357 4) = some 5 ∧
      operator_eq (Set.lower_bound set1357 8) (Set.end set1357) = true) := by
  refine ⟨?_, ?_, by decide, by decide⟩
  · rcases lower_bound_cases t hb e with ⟨h1, h2⟩ | ⟨a1, k1, h1, l1, r1, p1, e1, e2, e3, e4⟩
    · simp only [Set.lower_bound, h1, addrOf, true_iff]
      exact h2
    · simp only [Set.lower_bound, e1, addrOf]
      constructor
      · intro h; exact absurd h (by simp)
      · intro h; exact absurd (h k1 (isSub_key e2)) e3
  · intro a ha
    rcases lower_bound_cases t hb e with ⟨h1, h2⟩ | ⟨a1, k1, h1, l1, r1, p1, e1, e2, e3, e4⟩
    · simp [Set.lower_bound, h1, addrOf] at ha
    · simp only [Set.lower_bound, e1, addrOf, Option.some.injEq] at ha
      subst ha
      exact ⟨k1, h1, l1, r1, p1, e1, e2, e3, e4⟩

theorem lower_bound_least_witness :
    BST set1357.root ∧ (Set.lower_bound ⟨set1357.root, 4⟩ 4).cur = some 3 ∧
      ∃ k h l r p, lower_bound set1357.root 4 = node 3 k h l r p ∧
        IsSub (node 3 k h l r p) set1357.root ∧ ¬ k < 4 ∧
        ∀ x ∈ keys set1357.root, ¬ x < 4 → k ≤ x :=
  ⟨by decide, by decide, (lower_bound_least set1357.root (by decide) 4 4).2.1 3 (by decide)⟩

@[simp] theorem dropPrev_setPrev (t : Node α) (q : Option Nat) :
    dropPrev (setPrev t q) = dropPrev t := by
  cases t <;> rfl

theorem height_eq_of_dropPrev {t u : Node α} (h : dropPrev t = dropPrev u) :
    height t = height u := by
  cases t <;> cases u <;> simp [dropPrev] at h <;> simp [height, h]

theorem mem_keys_left {a : Nat} {k : α} {h : Nat} {l r : Node α} {p : Option Nat} {e : α}
    (hlt : e < k) (hkr : ∀ x ∈ keys r, k < x) :
    e ∈ keys (node a k h l r p) ↔ e ∈ keys l := by
  simp only [keys_node, List.mem_append, List.mem_cons]
  constructor
  · rintro (h1 | rfl | h1)
    · exact h1
    · exact absurd hlt (lt_irrefl _)
    · exact absurd (lt_trans hlt (hkr e h1)) (lt_irrefl _)
  · exact Or.inl

theorem mem_keys_right {a : Nat} {k : α} {h : Nat} {l r : Node α} {p : Option Nat} {e : α}
    (hgt : k < e) (hkl : ∀ x ∈ keys l, x < k) :
    e ∈ keys (node a k h l r p) ↔ e ∈ keys r := by
  simp only [keys_node, List.mem_append, List.mem_cons]
  constructor
  · rintro (h1 | rfl | h1)
    · exact absurd (lt_trans hgt (hkl e h1)) (lt_irrefl _)
    · exact absurd hgt (lt_irrefl _)
    · exact h1
  · exact fun h1 => Or.inr (Or.inr h1)

theorem insert_mem_dropPrev (a : Nat) (e : α) (c : Nat) (t : Node α) (hinv : Inv t)
    (hh : height t ≤ 255) (hm : e ∈ keys t) :
    ∃ t1, insert a t e c = some (t1, c) ∧ dropPrev t1 = dropPrev t := by
  induction t with
  | nil => simp at hm
  | node ca k h l r p ihl ihr =>
    rw [inv_node_iff] at hinv
    obtain ⟨⟨hkl, hkr⟩, ⟨hb1, hb2⟩, hh0, hil, hir⟩ := hinv
    simp only [height_node] at hh
    have hl0 := height_nonneg l
    have hr0 := height_nonneg r
    rcases lt_trichotomy e k with hlt | heq | hgt
    · obtain ⟨l1, h1, h2⟩ := ihl hil (by omega) ((mem_keys_left hlt hkr).1 hm)
      have h3 := height_eq_of_dropPrev h2
      have hbal := balance_mid ca k h (setPrev l1 (some ca)) r p
        (by rw [height_setPrev, h3]; exact hb2) (by rw [height_setPrev, h3]; exact hb1)
      rw [height_setPrev, h3, toUChar_eq _ _ hh0 (by omega)] at hbal
      refine ⟨node ca k h (setPrev l1 (some ca)) r p,
        by simp [insert, hlt, h1, hang_left, hbal], ?_⟩
      simp only [dropPrev, dropPrev_setPrev, h2]
    · subst heq
      have hbal := balance_mid ca e h l r p hb2 hb1
      rw [toUChar_eq _ _ hh0 (by omega)] at hbal
      exact ⟨node ca e h l r p, by simp [insert, hbal], rfl⟩
    · obtain ⟨r1, h1, h2⟩ := ihr hir (by omega) ((mem_keys_right hgt hkl).1 hm)
      have h3 := height_eq_of_dropPrev h2
      have hbal := balance_mid ca k h l (setPrev r1 (some ca)) p
        (by rw [height_setPrev, h3]; exact hb2) (by rw [height_setPrev, h3]; exact hb1)
      rw [height_setPrev, h3, toUChar_eq _ _ hh0 (by omega)] at hbal
      refine ⟨node ca k h l (setPrev r1 (some ca)) p,
        by simp [insert, not_lt_of_gt hgt, hgt, h1, hang_right, hbal], ?_⟩
      simp only [dropPrev, dropPrev_setPrev, h2]

theorem erase_not_mem_dropPrev (e : α) (c : Nat) (t : Node α) (hinv : Inv t)
    (hh : height t ≤ 255) (hm : e ∉ keys t) :
    ∃ t1, erase t e c = some (t1, c) ∧ dropPrev t1 = dropPrev t := by
  induction t with
  | nil => exact ⟨nil, rfl, rfl⟩
  | node ca k h l r p ihl ihr =>
    rw [inv_node_iff] at hinv
    obtain ⟨⟨hkl, hkr⟩, ⟨hb1, hb2⟩, hh0, hil, hir⟩ := hinv
    simp only [height_node] at hh
    have hl0 := height_nonneg l
    have hr0 := height_nonneg r
    rcases lt_trichotomy e k with hlt | heq | hgt
    · obtain ⟨l1, h1, h2⟩ := ihl hil (by omega) (fun h => hm ((mem_keys_left hlt hkr).2 h))
      have h3 := height_eq_of_dropPrev h2
      have hbal := balance_mid ca k h (setPrev l1 (some ca)) r p
        (by rw [height_setPrev, h3]; exact hb2) (by rw [height_setPrev, h3]; exact hb1)
      rw [height_setPrev, h3, toUChar_eq _ _ hh0 (by omega)] at hbal
      refine ⟨node ca k h (setPrev l1 (some ca)) r p,
        by simp [erase, hlt, h1, hang_left, hbal], ?_⟩
      simp only [dropPrev, dropPrev_setPrev, h2]
    · subst heq
      exact absurd (by simp) hm
    · obtain ⟨r1, h1, h2⟩ := ihr hir (by omega) (fun h => hm ((mem_keys_right hgt hkl).2 h))
      have h3 := height_eq_of_dropPrev h2
      have hbal := balance_mid ca k h l (setPrev r1 (some ca)) p
        (by rw [height_setPrev, h3]; exact hb2) (by rw [height_setPrev, h3]; exact hb1)
      rw [height_setPrev, h3, toUChar_eq _ _ hh0 (by omega)] at hbal
      refine ⟨node ca k h l (setPrev r1 (some ca)) p,
        by simp [erase, not_lt_of_gt hgt, hgt, h1, hang_right, hbal], ?_⟩
      simp only [dropPrev, dropPrev_setPrev, h2]

theorem set_insert_mem (a : Nat) (s : Set α) (e : α) (hwf : s.WF) (hm : e ∈ keys s.root) :
    Set.insert a s e = some s := by
  have hh := height_le_of_wf s hwf
  obtain ⟨t1, c1, hins, hinv, hne, hht, hmem, hnew, hpar⟩ :=
    insert_spec a e s.cnt s.root hwf.inv (by omega)
  obtain ⟨h1, h2, h3⟩ := hmem hm
  rw [h3 hwf.parent, h2] at hins
  cases hr : s.root with
  | nil => rw [hr] at hm; simp at hm
  | node ra rk rh rl rr rp =>
    have hp := hwf.rootPrev
    rw [hr] at hp hins
    simp only [prevIs] at hp
    subst hp
    have hs : s = ⟨node ra rk rh rl rr none, s.cnt⟩ := by rw [← hr]
    rw [hs]
    simp [Set.insert, hins, addrOf, setPrev]

/-- C6: a duplicate `insert` and an absent `erase` are no-ops.  For a tree `t`
with the invariants (and fewer than `2 ^ 64` nodes): if `e` is stored,
`insert t e` returns a tree with the same shape, keys and stored heights as `t`
and leaves the counter unchanged, and if `e` is not stored, so does
`erase t e`; where the back pointers of `t` are consistent the returned tree is
`t` itself.  Consequently, on a well-formed set, `insert` after `insert` of the
same element and `erase` after `erase` of the same element change nothing. -/
theorem duplicate_insert_absent_erase_noop (t : Node α) (hinv : Inv t)
    (hc : count t < SIZE_MOD) (a : Nat) (e : α) (c : Nat)
    (s : Set α) (hwf : s.WF) (a1 a2 : Nat) (h0 : 0 < a1) (h1 : a1 < SIZE_MOD)
    (hfr : a1 ∉ addrs s.root) :
    (e ∈ keys t → ∃ t1, insert a t e c = some (t1, c) ∧ dropPrev t1 = dropPrev t ∧
      (ParentOK t → t1 = t)) ∧
    (e ∉ keys t → ∃ t1, erase t e c = some (t1, c) ∧ dropPrev t1 = dropPrev t ∧
      (ParentOK t → t1 = t)) ∧
    (∃ s1, Set.insert a1 s e = some s1 ∧ Set.insert a2 s1 e = some s1) ∧
    (∃ s1, Set.erase s e = some s1 ∧ Set.erase s1 e = some s1) := by
  have hh := height_le_of_count_lt t hinv.bal hinv.hts hc
  refine ⟨fun hm => ?_, fun hm => ?_, ?_, ?_⟩
  · obtain ⟨t1, h2, h3⟩ := insert_mem_dropPrev a e c t hinv (by omega) hm
    obtain ⟨t2, c2, hins, _, _, _, hmem, _, _⟩ := insert_spec a e c t hinv (by omega)
    rw [h2] at hins
    injection hins with hins
    injection hins with e1 e2
    subst e1
    exact ⟨t1, h2, h3, (hmem hm).2.2⟩
  · obtain ⟨t1, h2, h3⟩ := erase_not_mem_dropPrev e c t hinv (by omega) hm
    obtain ⟨t2, c2, hers, _, _, _, _, hnew, _⟩ := erase_spec e c t hinv (by omega)
    rw [h2] at hers
    injection hers with hers
    injection hers with e1 e2
    subst e1
    exact ⟨t1, h2, h3, (hnew hm).2⟩
  · obtain ⟨s1, h2, hwf1, hsame, hnew⟩ := set_insert_spec a1 s e hwf h0 h1 hfr
    refine ⟨s1, h2, set_insert_mem a2 s1 e hwf1 ?_⟩
    by_cases hm : e ∈ keys s.root
    · rw [hsame hm]; exact hm
    · rw [keys, mem_keys_of_perm (hnew hm).1 e]
      simp
  · obtain ⟨s1, h2, hwf1, hfl, _, _⟩ := set_erase_spec s e hwf
    obtain ⟨s2, h3, _, _, hsame, _⟩ := set_erase_spec s1 e hwf1
    have hm : e ∉ keys s1.root := by
      rw [keys, hfl]
      simp
    rw [hsame hm] at h3
    exact ⟨s1, h2, h3⟩

theorem duplicate_insert_absent_erase_noop_witness :
    Inv sampleTree ∧ count sampleTree < SIZE_MOD ∧ sampleSet.WF ∧ 4 ∉ addrs sampleSet.root ∧
      5 ∈ keys sampleTree ∧
      (∃ t1, insert 4 sampleTree 5 3 = some (t1, 3) ∧
        dropPrev t1 = dropPrev sampleTree ∧ (ParentOK sampleTree → t1 = sampleTree)) ∧
      (∃ s1, Set.insert 4 sampleSet 5 = some s1 ∧ Set.insert 5 s1 5 = some s1) :=
  ⟨by decide, by decide, by decide, by decide, by decide,
    (duplicate_insert_absent_erase_noop sampleTree (by decide) (by decide) 4 5 3 sampleSet
      (by decide) 4 5 (by decide) (by decide) (by decide)).1 (by decide),
    (duplicate_insert_absent_erase_noop sampleTree (by decide) (by decide) 4 5 3 sampleSet
      (by decide) 4 5 (by decide) (by decide) (by decide)).2.2.1⟩

/-- C7: size consistency.  On every set `s` reached from the empty set by
`insert`, `erase` and `clear` calls, `size()` is the number of nodes reachable
from `root` (and the number of elements inserted and not erased since), and
`empty()` holds exactly when there is no node.  An `insert` of a key that is
not stored adds exactly one to `size()`, an `erase` of a stored key takes
exactly one away (the counter does not wrap around), every other `insert` or
`erase` leaves it unchanged, and `clear` sets it to the node count `0`. -/
theorem size_consistency (s : Set α) (m : Finset α) (hr : Reach s m) (a : Nat) (e : α)
    (h0 : 0 < a) (h1 : a < SIZE_MOD) (hfr : a ∉ addrs s.root) :
    s.size = count s.root ∧ s.size = m.card ∧
    (s.empty = true ↔ count s.root = 0) ∧
    (∃ s1, Set.insert a s e = some s1 ∧ s1.size = count s1.root ∧
      (e ∉ keys s.root → s1.size = s.size + 1) ∧ (e ∈ keys s.root → s1.size = s.size)) ∧
    (∃ s1, Set.erase s e = some s1 ∧ s1.size = count s1.root ∧
      (e ∈ keys s.root → s1.size + 1 = s.size) ∧ (e ∉ keys s.root → s1.size = s.size)) ∧
    (Set.clear s).size = count (Set.clear s).root := by
  obtain ⟨hwf, hkeys⟩ := reach_wf hr
  refine ⟨hwf.size, ?_, ?_, ?_, ?_, rfl⟩
  · have hm : m = (keys s.root).toFinset := by
      ext x; rw [List.mem_toFinset]; exact (hkeys x).symm
    rw [hm, List.toFinset_card_of_nodup (keys_nodup_of_bst _ hwf.inv.bst)]
    show s.cnt = _
    rw [hwf.size, count_eq_length, keys, List.length_map]
  · show (s.cnt == 0) = true ↔ _
    rw [hwf.size]
    simp
  · obtain ⟨s1, h2, hwf1, hsame, hnew⟩ := set_insert_spec a s e hwf h0 h1 hfr
    exact ⟨s1, h2, hwf1.size, fun hm => (hnew hm).2, fun hm => by rw [hsame hm]⟩
  · obtain ⟨s1, h2, hwf1, _, hsame, hdec⟩ := set_erase_spec s e hwf
    exact ⟨s1, h2, hwf1.size, hdec, fun hm => by rw [hsame hm]⟩

theorem size_consistency_witness :
    Reach sampleSet sampleModel ∧ 4 ∉ addrs sampleSet.root ∧
      sampleSet.size = count sampleSet.root ∧
      (∃ s1, Set.erase sampleSet 5 = some s1 ∧ s1.size = count s1.root ∧
        (5 ∈ keys sampleSet.root → s1.size + 1 = sampleSet.size) ∧
        (5 ∉ keys sampleSet.root → s1.size = sampleSet.size)) :=
  ⟨sampleSet_reach, by decide,
    (size_consistency sampleSet sampleModel sampleSet_reach 4 5 (by decide) (by decide)
      (by decide)).1,
    (size_consistency sampleSet sampleModel sampleSet_reach 4 5 (by decide) (by decide)
      (by decide)).2.2.2.2.1⟩

theorem head_le_of_pairwise {l : List α} (h : l.Pairwise (· < ·)) {k : α}
    (hk : l.head? = some k) : k ∈ l ∧ ∀ x ∈ l, k ≤ x := by
  cases l with
  | nil => simp at hk
  | cons y ys =>
    simp only [List.head?_cons, Option.some.injEq] at hk
    subst hk
    refine ⟨List.mem_cons_self _ _, fun x hx => ?_⟩
    rcases List.mem_cons.1 hx with rfl | hx
    · exact le_refl _
    · exact le_of_lt ((List.pairwise_cons.1 h).1 x hx)

theorem le_getLast_of_pairwise {l : List α} (h : l.Pairwise (· < ·)) {k : α}
    (hk : l.getLast? = some k) : k ∈ l ∧ ∀ x ∈ l, x ≤ k := by
  have h1 : l.reverse.Pairwise (· > ·) := by
    rw [List.pairwise_reverse]; exact h
  have h2 : l.reverse.head? = some k := by rw [List.head?_reverse]; exact hk
  cases hr : l.reverse with
  | nil => rw [hr] at h2; simp at h2
  | cons y ys =>
    rw [hr] at h1 h2
    simp only [List.head?_cons, Option.some.injEq] at h2
    subst h2
    have hmem : ∀ x, x ∈ l ↔ x ∈ y :: ys := by
      intro x; rw [← hr, List.mem_reverse]
    refine ⟨(hmem y).2 (List.mem_cons_self _ _), fun x hx => ?_⟩
    rcases List.mem_cons.1 ((hmem x).1 hx) with rfl | hx
    · exact le_refl _
    · exact le_of_lt ((List.pairwise_cons.1 h1).1 x hx)

theorem deref_isSub {rt n : Node α} (hnd : (addrs rt).Nodup) (hs : IsSub n rt)
    (last : Option Nat) :
    ∃ a k, addrOf n = some a ∧ keyOf n = some k ∧
      operator_deref rt ⟨last, addrOf n⟩ = some k := by
  cases n with
  | nil => exact absurd rfl (isSub_ne_nil hs)
  | node a k h l r p =>
    exact ⟨a, k, rfl, rfl, by simp [operator_deref, addrOf, nodeAt_isSub hnd hs, keyOf]⟩

/-- C8: the iteration endpoints are the extreme elements.  On a well-formed
set, `begin()` equals `end()` if the set is empty and is otherwise at the node
with the least stored key; `operator--` applied to `end()` gives a cursor at
the node with the greatest stored key, and on the empty set it stays
end-of-sequence. -/
theorem iteration_endpoints (s : Set α) (hwf : s.WF) (fuel : Nat) :
    (s.root = nil →
      (∃ it, Set.begin s = some it ∧ operator_eq it (Set.end s) = true) ∧
      (∃ it, operator_dec s.root fuel (Set.end s) = some it ∧ it.cur = none)) ∧
    (s.root ≠ nil →
      (∃ it k, Set.begin s = some it ∧ it.cur ≠ none ∧ operator_deref s.root it = some k ∧
        k ∈ keys s.root ∧ ∀ x ∈ keys s.root, k ≤ x) ∧
      (∃ it k, operator_dec s.root fuel (Set.end s) = some it ∧ it.cur ≠ none ∧
        operator_deref s.root it = some k ∧ k ∈ keys s.root ∧ ∀ x ∈ keys s.root, x ≤ k)) := by
  have hpw := (bst_iff_pairwise s.root).1 hwf.inv.bst
  constructor
  · intro hnil
    simp [Set.begin, Set.end, hnil, operator_eq, operator_dec, find_max, addrOf]
  · intro hne
    constructor
    · obtain ⟨m, _, hm2, hm3, hm4, hm5, _⟩ := descend_left_spec s.root hne
      obtain ⟨a, k, ha, hk, hd⟩ := deref_isSub hwf.addr.1 hm3 (addrOf (find_max s.root))
      have hmin := head_le_of_pairwise hpw (hm5.symm.trans hk)
      refine ⟨⟨addrOf (find_max s.root), addrOf m⟩, k, ?_, by simp [ha], hd, hmin.1, hmin.2⟩
      cases hr : s.root with
      | nil => exact absurd hr hne
      | node ra rk rh rl rr rp =>
        rw [hr] at hm2
        simp [Set.begin, hr, hm2]
    · obtain ⟨m, _, hm2, hm3, hm4, hm5, _⟩ := descend_right_spec s.root hne
      obtain ⟨a, k, ha, hk, hd⟩ := deref_isSub hwf.addr.1 hm3 (addrOf (find_max s.root))
      have hmax := le_getLast_of_pairwise hpw (hm5.symm.trans hk)
      refine ⟨⟨addrOf (find_max s.root), addrOf m⟩, k, ?_, by simp [ha], hd, hmax.1, hmax.2⟩
      simp [operator_dec, Set.end, hm2]

theorem iteration_endpoints_witness :
    sampleSet.WF ∧ sampleSet.root ≠ nil ∧
      (∃ it k, Set.begin sampleSet = some it ∧ it.cur ≠ none ∧
        operator_deref sampleSet.root it = some k ∧
        k ∈ keys sampleSet.root ∧ ∀ x ∈ keys sampleSet.root, k ≤ x) ∧
      (∃ it k, operator_dec sampleSet.root 5 (Set.end sampleSet) = some it ∧ it.cur ≠ none ∧
        operator_deref sampleSet.root it = some k ∧
        k ∈ keys sampleSet.root ∧ ∀ x ∈ keys sampleSet.root, x ≤ k) :=
  ⟨by decide, by decide, (iteration_endpoints sampleSet (by decide) 5).2 (by decide)⟩

/-- C9: iterator round trip.  On a well-formed set (parent consistency
included), for an iterator `it` at a live node: if `it` is not at the maximum
then `--(++it) == it`, and if `it` is not at the minimum (it differs from
`begin()`) then `++(--it) == it`, where `==` compares the current node.  The
loops run with any `fuel` of at least `size() + 2`. -/
theorem iterator_round_trip (s : Set α) (hwf : s.WF) (it : iterator) (x : Nat)
    (hcur : it.cur = some x) (hx : x ∈ addrs s.root) (fuel : Nat)
    (hfuel : s.size + 2 ≤ fuel) :
    (it.cur ≠ addrOf (find_max s.root) →
      ∃ it1 it2, operator_inc s.root fuel it = some it1 ∧
        operator_dec s.root fuel it1 = some it2 ∧ operator_eq it2 it = true) ∧
    ((∀ b, Set.begin s = some b → operator_eq it b = false) →
      ∃ it1 it2, operator_dec s.root fuel it = some it1 ∧
        operator_inc s.root fuel it1 = some it2 ∧ operator_eq it2 it = true) := by
  have hf : count s.root + 2 ≤ fuel := by
    rw [← hwf.size]; exact hfuel
  have hnd := hwf.addr.1
  have hne : s.root ≠ nil := by
    intro h; rw [h] at hx; simp at hx
  obtain ⟨last, cur⟩ := it
  simp only at hcur
  subst hcur
  constructor
  · intro hmax
    obtain ⟨m, _, hm2, _, hm4, _, _⟩ := descend_right_spec s.root hne
    cases hn : nextOf (addrs s.root) x with
    | none =>
      exfalso
      apply hmax
      rw [hm2, hm4, nextOf_eq_none hx hn]
    | some y =>
      have hy := (nextOf_mem hn).2
      refine ⟨⟨last, some y⟩, ⟨last, some x⟩, ?_, ?_, by simp [operator_eq]⟩
      · rw [inc_root hnd hwf.parent hwf.rootPrev last x hx fuel hf, hn]
      · rw [dec_root hnd hwf.parent hwf.rootPrev last y hy fuel hf, nextOf_reverse hnd hn]
  · intro hmin
    obtain ⟨m, _, hm2, _, hm4, _, _⟩ := descend_left_spec s.root hne
    have hbegin : Set.begin s = some ⟨addrOf (find_max s.root), addrOf m⟩ := by
      cases hr : s.root with
      | nil => exact absurd hr hne
      | node ra rk rh rl rr rp =>
        rw [hr] at hm2
        simp [Set.begin, hr, hm2]
    have hb := hmin _ hbegin
    have hxr : x ∈ (addrs s.root).reverse := List.mem_reverse.2 hx
    cases hn : nextOf (addrs s.root).reverse x with
    | none =>
      exfalso
      have h1 := nextOf_eq_none hxr hn
      rw [List.getLast?_reverse] at h1
      simp [operator_eq, hm4, h1] at hb
    | some y =>
      have hy : y ∈ addrs s.root := List.mem_reverse.1 (nextOf_mem hn).2
      have hback := nextOf_reverse (List.nodup_reverse.2 hnd) hn
      rw [List.reverse_reverse] at hback
      refine ⟨⟨last, some y⟩, ⟨last, some x⟩, ?_, ?_, by simp [operator_eq]⟩
      · rw [dec_root hnd hwf.parent hwf.rootPrev last x hx fuel hf, hn]
      · rw [inc_root hnd hwf.parent hwf.rootPrev last y hy fuel hf, hback]

theorem iterator_round_trip_witness :
    sampleSet.WF ∧ 1 ∈ addrs sampleSet.root ∧ sampleSet.size + 2 ≤ 5 ∧
      (∃ it1 it2, operator_inc sampleSet.root 5 ⟨some 3, some 1⟩ = some it1 ∧
        operator_dec sampleSet.root 5 it1 = some it2 ∧
        operator_eq it2 ⟨some 3, some 1⟩ = true) ∧
      (∃ it1 it2, operator_dec sampleSet.root 5 ⟨some 3, some 1⟩ = some it1 ∧
        operator_inc sampleSet.root 5 it1 = some it2 ∧
        operator_eq it2 ⟨some 3, some 1⟩ = true) :=
  ⟨(by decide), by decide, by decide,
    (iterator_round_trip sampleSet (by decide) ⟨some 3, some 1⟩ 1 rfl
      (by decide) 5 (by decide)).1 (by decide),
    (iterator_round_trip sampleSet (by decide) ⟨some 3, some 1⟩ 1 rfl
      (by decide) 5 (by decide)).2 (fun b hb => by
        have h : some b = some (⟨some 3, some 2⟩ : iterator) := hb.symm.trans (by decide)
        cases h
        decide)⟩

theorem height_eq_depth (t : Node α) (h : HeightOK t) : height t = (depth t : Int) := by
  induction t with
  | nil => rfl
  | node a k ht l r p ihl ihr =>
    obtain ⟨h1, h2, h3⟩ := h
    simp only [height_node, depth]
    rw [h1, ihl h2, ihr h3]
    omega

/-- C10: the height bound.  On every set reached from the empty set by
`insert` and `erase` (and `clear`) calls that holds `n = size()` elements, the
stored root height is the height `h` of the tree and `n ≥ N(h)`, where
`N(0) = 0`, `N(1) = 1` and `N(h + 2) = N(h + 1) + N(h) + 1`; equivalently
`n + 1 ≥ Fib(h + 2)`. -/
theorem height_bound (s : Set α) (m : Finset α) (hr : Reach s m) :
    height s.root = (depth s.root : Int) ∧ s.size = m.card ∧
    minNodes (depth s.root) ≤ s.size ∧
    Nat.fib (depth s.root + 2) ≤ s.size + 1 ∧
    minNodes 0 = 0 ∧ minNodes 1 = 1 ∧
    (∀ h, minNodes (h + 2) = minNodes (h + 1) + minNodes h + 1) ∧
    (∀ h, minNodes h + 1 = Nat.fib (h + 2)) := by
  obtain ⟨hwf, hkeys⟩ := reach_wf hr
  have hd := height_eq_depth s.root hwf.inv.hts
  have h1 := minNodes_le_count s.root hwf.inv.bal hwf.inv.hts
  rw [hd, Int.toNat_ofNat, ← hwf.size] at h1
  have hcard : s.size = m.card := by
    have hm : m = (keys s.root).toFinset := by
      ext x; rw [List.mem_toFinset]; exact (hkeys x).symm
    rw [hm, List.toFinset_card_of_nodup (keys_nodup_of_bst _ hwf.inv.bst)]
    show s.cnt = _
    rw [hwf.size, count_eq_length, keys, List.length_map]
  refine ⟨hd, hcard, h1, ?_, rfl, rfl, fun _ => rfl, minNodes_add_one_eq_fib⟩
  rw [← minNodes_add_one_eq_fib]
  exact Nat.succ_le_succ h1

theorem height_bound_witness :
    Reach set1357 (Insert.insert 7 (Insert.insert 5 (Insert.insert 3 (Insert.insert 1 ∅)))) ∧
      height set1357.root = (depth set1357.root : Int) ∧
      minNodes (depth set1357.root) ≤ set1357.size ∧ depth set1357.root = 3 ∧
      minNodes 3 = 4 :=
  ⟨set1357_reach, (height_bound set1357 _ set1357_reach).1,
    (height_bound set1357 _ set1357_reach).2.2.1, by decide, by decide⟩

theorem addrs_after_insert {a : Nat} {s s1 : Set α} {e : α} (hwf : s.WF) (h0 : 0 < a)
    (h1 : a < SIZE_MOD) (hfr : a ∉ addrs s.root) (h : Set.insert a s e = some s1) :
    ∀ x ∈ addrs s1.root, x = a ∨ x ∈ addrs s.root := by
  obtain ⟨s2, h2, _, hsame, hnew⟩ := set_insert_spec a s e hwf h0 h1 hfr
  rw [h] at h2
  injection h2 with h2
  subst h2
  intro x hx
  by_cases hm : e ∈ keys s.root
  · rw [hsame hm] at hx; exact Or.inr hx
  · have hp : (addrs s1.root).Perm (a :: addrs s.root) := by
      simpa [addrs] using (hnew hm).1.map Prod.fst
    exact List.mem_cons.1 (hp.mem_iff.1 hx)

theorem insert_all_spec (es : List α) :
    ∀ (as : List Nat) (s : Set α) (m : Finset α), Reach s m → as.Nodup →
      (∀ x ∈ as, 0 < x ∧ x < SIZE_MOD ∧ x ∉ addrs s.root) → es.length ≤ as.length →
      ∃ s1, insert_all s as es = some s1 ∧ Reach s1 (m ∪ es.toFinset) := by
  induction es with
  | nil =>
    intro as s m hr _ _ _
    exact ⟨s, by cases as <;> rfl, by simpa using hr⟩
  | cons e es ih =>
    intro as s m hr hnd hfr hlen
    cases as with
    | nil => simp at hlen
    | cons a as =>
      obtain ⟨ha, hnd2⟩ := List.nodup_cons.1 hnd
      obtain ⟨h0, h1, h2⟩ := hfr a (List.mem_cons_self _ _)
      obtain ⟨s1, hins, _, _, _⟩ := set_insert_spec a s e (reach_wf hr).1 h0 h1 h2
      have hr1 : Reach s1 (Insert.insert e m) := Reach.insert a e hr h0 h1 h2 hins
      have hfr1 : ∀ x ∈ as, 0 < x ∧ x < SIZE_MOD ∧ x ∉ addrs s1.root := by
        intro x hx
        obtain ⟨g0, g1, g2⟩ := hfr x (List.mem_cons_of_mem _ hx)
        refine ⟨g0, g1, fun hmem => ?_⟩
        rcases addrs_after_insert (reach_wf hr).1 h0 h1 h2 hins x hmem with rfl | h3
        · exact ha hx
        · exact g2 h3
      obtain ⟨s2, h3, h4⟩ := ih as s1 _ hr1 hnd2 hfr1 (by simpa using hlen)
      refine ⟨s2, by simp [insert_all, hins, h3], ?_⟩
      have hm : m ∪ (e :: es).toFinset = Insert.insert e m ∪ es.toFinset := by
        ext x; simp only [List.toFinset_cons, Finset.mem_union, Finset.mem_insert]; tauto
      rw [hm]; exact h4

theorem set3241_reach :
    Reach set3241 (Insert.insert 1 (Insert.insert 4 (Insert.insert 2 (Insert.insert 3 ∅)))) :=
  Reach.insert 4 1
    (Reach.insert 3 4
      (Reach.insert 2 2
        (Reach.insert 1 3 Reach.ctor (by decide) (by decide) (by decide) rfl)
        (by decide) (by decide) (by decide) rfl)
      (by decide) (by decide) (by decide) rfl)
    (by decide) (by decide) (by decide) rfl

theorem reach_traverse {s : Set α} {m : Finset α} (hr : Reach s m) (fuel : Nat)
    (hfuel : s.size + 2 ≤ fuel) :
    traverse s fuel = some (m.sort (· ≤ ·)) ∧ s.size = m.card := by
  obtain ⟨hwf, hkeys⟩ := reach_wf hr
  have hf : count s.root + 2 ≤ fuel := by
    rw [← hwf.size]; exact hfuel
  have hcard : s.size = m.card := by
    have hm : m = (keys s.root).toFinset := by
      ext x; rw [List.mem_toFinset]; exact (hkeys x).symm
    rw [hm, List.toFinset_card_of_nodup (keys_nodup_of_bst _ hwf.inv.bst)]
    show s.cnt = _
    rw [hwf.size, count_eq_length, keys, List.length_map]
  exact ⟨by rw [traverse_spec s hwf fuel hf, keys_eq_sort hwf.inv.bst hkeys], hcard⟩

theorem bulk_spec (as : List Nat) (elems : List α) (hnd : as.Nodup)
    (hrange : ∀ x ∈ as, 0 < x ∧ x < SIZE_MOD) (hlen : elems.length ≤ as.length)
    (fuel : Nat) (hfuel : elems.length + 2 ≤ fuel) (s0 : Set α) (hs0 : s0 = ⟨nil, 0⟩) :
    ∃ s, insert_all s0 as elems = some s ∧ s.WF ∧
      traverse s fuel = some (elems.toFinset.sort (· ≤ ·)) ∧
      s.size = elems.toFinset.card := by
  subst hs0
  obtain ⟨s, h1, h2⟩ := insert_all_spec elems as Set.ctor ∅ Reach.ctor hnd
    (fun x hx => ⟨(hrange x hx).1, (hrange x hx).2, by simp [Set.ctor]⟩) hlen
  rw [Finset.empty_union] at h2
  have hsz : s.size = elems.toFinset.card := by
    obtain ⟨hwf, hkeys⟩ := reach_wf h2
    have hm : elems.toFinset = (keys s.root).toFinset := by
      ext x
      have hx := hkeys x
      simp only [List.mem_toFinset] at hx ⊢
      exact hx.symm
    rw [hm, List.toFinset_card_of_nodup (keys_nodup_of_bst _ hwf.inv.bst)]
    show s.cnt = _
    rw [hwf.size, count_eq_length, keys, List.length_map]
  have hle := List.toFinset_card_le elems
  obtain ⟨h3, _⟩ := reach_traverse h2 fuel (by omega)
  exact ⟨s, h1, (reach_wf h2).1, h3, hsz⟩

theorem copy_spec (other : Set α) (hwf : other.WF) (as : List Nat) (hnd : as.Nodup)
    (hrange : ∀ x ∈ as, 0 < x ∧ x < SIZE_MOD) (hlen : other.size ≤ as.length)
    (fuel : Nat) (hfuel : other.size + 2 ≤ fuel) (s0 : Set α) (hs0 : s0 = ⟨nil, 0⟩) :
    traverse other fuel = some (keys other.root) ∧
    ∃ s, insert_all s0 as (keys other.root) = some s ∧ s.WF ∧ s.size = other.size ∧
      traverse s fuel = traverse other fuel := by
  have hcnt : other.size = count other.root := hwf.size
  have hklen : (keys other.root).length = other.size := by
    rw [hcnt, count_eq_length, keys, List.length_map]
  have htr := traverse_spec other hwf fuel (by omega)
  obtain ⟨s, h1, hw, h2, h3⟩ := bulk_spec as (keys other.root) hnd hrange (by omega) fuel
    (by omega) s0 hs0
  have hnodup := keys_nodup_of_bst _ hwf.inv.bst
  refine ⟨htr, s, h1, hw, ?_, ?_⟩
  · rw [h3, List.toFinset_card_of_nodup hnodup, hklen]
  · rw [h2, htr, ← keys_eq_sort hwf.inv.bst (m := (keys other.root).toFinset)
      (fun x => by rw [List.mem_toFinset])]

/-- C11: construction by bulk insertion preserves sorted content.  A set
constructed from a sequence `elems` (iterator range or initializer list) is
well-formed, its traversal is the sorted list of the distinct elements of
`elems` and its size is their number.  A copy of a well-formed set `other`
(copy constructor, or copy assignment to another object `this`, which is
cleared first) is well-formed and has the size and the `begin()`-to-`end()`
traversal of `other`; self-assignment changes nothing.  The shape of a copy may
differ: the copy of the set built by inserting `3`, `2`, `4`, `1` has `2` at
the root instead of `3`.  The allocator supplies the distinct addresses `as`,
and the loops run with the given `fuel`. -/
theorem bulk_construction_sorted (as : List Nat) (elems : List α) (hnd : as.Nodup)
    (hrange : ∀ x ∈ as, 0 < x ∧ x < SIZE_MOD) (hlen : elems.length ≤ as.length)
    (fuel : Nat) (hfuel : elems.length + 2 ≤ fuel)
    (other this : Set α) (hwf : other.WF) (hlen2 : other.size ≤ as.length)
    (hfuel2 : other.size + 2 ≤ fuel) :
    (∃ s, Set.ctor_range as elems = some s ∧ s.WF ∧
      traverse s fuel = some (elems.toFinset.sort (· ≤ ·)) ∧ s.size = elems.toFinset.card) ∧
    (∃ s, Set.ctor_list as elems = some s ∧ s.WF ∧
      traverse s fuel = some (elems.toFinset.sort (· ≤ ·)) ∧ s.size = elems.toFinset.card) ∧
    (∃ s, Set.ctor_copy other fuel as = some s ∧ s.WF ∧ s.size = other.size ∧
      traverse s fuel = some (keys other.root) ∧ traverse other fuel = some (keys other.root)) ∧
    (∃ s, Set.operator_assign this other false fuel as = some s ∧ s.WF ∧ s.size = other.size ∧
      traverse s fuel = some (keys other.root) ∧ traverse other fuel = some (keys other.root)) ∧
    Set.operator_assign other other true fuel as = some other ∧
    (∃ c, Set.ctor_copy set3241 6 [5, 6, 7, 8] = some c ∧ keyOf c.root = some 2 ∧
      keyOf set3241.root = some 3 ∧ traverse c 6 = traverse set3241 6) := by
  refine ⟨bulk_spec as elems hnd hrange hlen fuel hfuel _ rfl,
    bulk_spec as elems hnd hrange hlen fuel hfuel _ rfl, ?_, ?_, rfl, ?_⟩
  · obtain ⟨htr, s, h1, hw, h2, h3⟩ := copy_spec other hwf as hnd hrange hlen2 fuel hfuel2 _ rfl
    refine ⟨s, ?_, hw, h2, h3.trans htr, htr⟩
    simp only [Set.ctor_copy, htr, Option.bind_eq_bind, Option.some_bind]
    exact h1
  · obtain ⟨htr, s, h1, hw, h2, h3⟩ := copy_spec other hwf as hnd hrange hlen2 fuel hfuel2 _ rfl
    refine ⟨s, ?_, hw, h2, h3.trans htr, htr⟩
    simp only [Set.operator_assign, htr, Option.bind_eq_bind, Option.some_bind, Set.clear]
    exact h1
  · exact ⟨_, rfl, by decide, by decide, by decide⟩

theorem bulk_construction_sorted_witness :
    [1, 2, 3, 4, 5].Nodup ∧ (∀ x ∈ [1, 2, 3, 4, 5], 0 < x ∧ x < SIZE_MOD) ∧ sampleSet.WF ∧
      (∃ s, Set.ctor_range [1, 2, 3, 4, 5] [7, 2, 7, 9] = some s ∧ s.WF ∧
        traverse s 6 = some ([7, 2, 7, 9].toFinset.sort (· ≤ ·)) ∧
        s.size = [7, 2, 7, 9].toFinset.card) ∧
      (∃ s, Set.ctor_copy sampleSet 6 [1, 2, 3, 4, 5] = some s ∧ s.WF ∧
        s.size = sampleSet.size ∧ traverse s 6 = some (keys sampleSet.root) ∧
        traverse sampleSet 6 = some (keys sampleSet.root)) :=
  ⟨by decide, by decide, by decide,
    (bulk_construction_sorted [1, 2, 3, 4, 5] [7, 2, 7, 9] (by decide) (by decide) (by decide) 6
      (by decide) sampleSet sampleSet (by decide) (by decide) (by decide)).1,
    (bulk_construction_sorted [1, 2, 3, 4, 5] [7, 2, 7, 9] (by decide) (by decide) (by decide) 6
      (by decide) sampleSet sampleSet (by decide) (by decide) (by decide)).2.2.1⟩

theorem parent_links_sub {rt : Node α} (hnd : (addrs rt).Nodup) (t : Node α) :
    IsSub t rt → ParentOK t → ∀ n, IsSub n t → n ≠ t →
      ∃ pa pn, prevOf n = some (some pa) ∧ nodeAt rt pa = some pn ∧
        (leftOf pn = some n ∨ rightOf pn = some n) := by
  induction t with
  | nil => intro hs; exact absurd rfl (isSub_ne_nil hs)
  | node ta k h l r p ihl ihr =>
    intro hs hp n hn hne
    obtain ⟨hpl, hpr, hpol, hpor⟩ := hp
    have hat := nodeAt_isSub hnd hs
    rcases hn with h1 | h1 | h1
    · exact absurd h1 hne
    · have hlne := isSub_ne_nil h1
      have hl : l ≠ nil := by
        intro h2; rw [h2] at h1; exact h1
      by_cases hnl : n = l
      · subst hnl
        cases n with
        | nil => exact absurd rfl hl
        | node na nk nh nl nr np =>
          simp only [prevIs] at hpl
          subst hpl
          exact ⟨ta, _, rfl, hat, Or.inl rfl⟩
      · exact ihl (isSub_left hs hl) hpol n h1 hnl
    · have hr : r ≠ nil := by
        intro h2; rw [h2] at h1; exact h1
      by_cases hnr : n = r
      · subst hnr
        cases n with
        | nil => exact absurd rfl hr
        | node na nk nh nl nr np =>
          simp only [prevIs] at hpr
          subst hpr
          exact ⟨ta, _, rfl, hat, Or.inr rfl⟩
      · exact ihr (isSub_right hs hr) hpor n h1 hnr

theorem parent_links_of_wf (s : Set α) (hwf : s.WF) : ParentLinks s.root := by
  intro n hn hne
  cases hr : s.root with
  | nil => rw [hr] at hn; exact absurd hn (by simp [IsSub])
  | node a k h l r p =>
    have hs : IsSub s.root s.root := by rw [hr]; exact Or.inl rfl
    rw [← hr]
    exact parent_links_sub hwf.addr.1 s.root hs hwf.parent n hn hne

/-- C12: parent consistency.  After a public `insert` or `erase` on a
well-formed set (consistent parent links included), every non-null child of
every node has the address of that node in `prev` and the `prev` of the root is
null; so every node other than the root has in `prev` the address of a node
whose `left` or `right` is that node.  This covers the nodes re-hung by a
rotation, by `erase_min` and by the successor replacement of `erase`. -/
theorem parent_consistency (s : Set α) (hwf : s.WF) (a : Nat) (e : α) (h0 : 0 < a)
    (h1 : a < SIZE_MOD) (hfr : a ∉ addrs s.root) :
    (∃ s1, Set.insert a s e = some s1 ∧ ParentOK s1.root ∧ prevIs s1.root none ∧
      ParentLinks s1.root) ∧
    (∃ s1, Set.erase s e = some s1 ∧ ParentOK s1.root ∧ prevIs s1.root none ∧
      ParentLinks s1.root) := by
  constructor
  · obtain ⟨s1, h2, hwf1, _, _⟩ := set_insert_spec a s e hwf h0 h1 hfr
    exact ⟨s1, h2, hwf1.parent, hwf1.rootPrev, parent_links_of_wf s1 hwf1⟩
  · obtain ⟨s1, h2, hwf1, _, _, _⟩ := set_erase_spec s e hwf
    exact ⟨s1, h2, hwf1.parent, hwf1.rootPrev, parent_links_of_wf s1 hwf1⟩

theorem parent_consistency_witness :
    sampleSet.WF ∧ 4 ∉ addrs sampleSet.root ∧
      (∃ s1, Set.insert 4 sampleSet 9 = some s1 ∧ ParentOK s1.root ∧ prevIs s1.root none ∧
        ParentLinks s1.root) ∧
      (∃ s1, Set.erase sampleSet 5 = some s1 ∧ ParentOK s1.root ∧ prevIs s1.root none ∧
        ParentLinks s1.root) :=
  ⟨by decide, by decide,
    (parent_consistency sampleSet (by decide) 4 9 (by decide) (by decide) (by decide)).1,
    (parent_consistency sampleSet (by decide) 4 5 (by decide) (by decide) (by decide)).2⟩

/-- C13: `erase` of a node with two children replaces it by its in-order
successor.  When `erase` reaches the node that holds `e` and that node has the
children `L` and `R`, in a tree with the invariants (and fewer than `2 ^ 64`
nodes): the node `m` found by `find_min R` holds the least key of `R`; the node
put in the erased node's place is `m` with left child `L` and right child
`erase_min R`, which is `R` without `m` (`erase_min` puts the right child of
the minimum in its place); `balance` is applied to that node and the counter
is decremented.  The tree `t1` that `balance` returns for that position is
rebalanced: it satisfies BST order, AVL balance and height consistency at
every node, its height is that of the erased node's subtree or one less, and
its in-order sequence is `L`, then `m`, then the rest of `R`.  Inserting `5`,
`3`, `8` and erasing `5` gives the traversal `3, 8`, size `2` and root key
`8`. -/
theorem erase_two_children (ca : Nat) (e : α) (h : Nat) (p : Option Nat)
    (la : Nat) (lk : α) (lh : Nat) (ll lr : Node α) (lp : Option Nat)
    (ra : Nat) (rk : α) (rh : Nat) (rl rr : Node α) (rp : Option Nat) (c : Nat)
    (hinv : Inv (node ca e h (node la lk lh ll lr lp) (node ra rk rh rl rr rp) p))
    (hc : count (node ca e h (node la lk lh ll lr lp) (node ra rk rh rl rr rp) p) < SIZE_MOD) :
    (∃ ma mk mh mr mp r1 t1,
      find_min (node ra rk rh rl rr rp) = some (node ma mk mh nil mr mp) ∧
      erase_min (node ra rk rh rl rr rp) = some r1 ∧
      (mk ∈ keys (node ra rk rh rl rr rp) ∧ ∀ x ∈ keys (node ra rk rh rl rr rp), mk ≤ x) ∧
      inorder (node ra rk rh rl rr rp) = (ma, mk) :: inorder r1 ∧
      balance (node ma mk mh (setPrev (node la lk lh ll lr lp) (some ma))
        (setPrev r1 (some ma)) mp) = some t1 ∧
      erase (node ca e h (node la lk lh ll lr lp) (node ra rk rh rl rr rp) p) e c =
        some (t1, (c + (SIZE_MOD - 1)) % SIZE_MOD) ∧
      inorder t1 = inorder (node la lk lh ll lr lp) ++ (ma, mk) :: inorder r1 ∧
      BST t1 ∧ Balanced t1 ∧ HeightOK t1 ∧
      (height t1 = (h : Int) ∨ height t1 + 1 = (h : Int)) ∧
      (height t1 = max (lh : Int) (height r1) + 1 ∨ height t1 = max (lh : Int) (height r1)) ∧
      (height r1 = (rh : Int) ∨ height r1 + 1 = (rh : Int))) ∧
    (∀ (a : Nat) (k : α) (ht : Nat) (r : Node α) (q : Option Nat),
      erase_min (node a k ht nil r q) = some r) ∧
    (∃ s, Set.erase sampleSet 5 = some s ∧ traverse s 4 = some [3, 8] ∧ s.size = 2 ∧
      keyOf s.root = some 8 ∧ Balanced s.root ∧ HeightOK s.root) := by
  refine ⟨?_, fun _ _ _ _ _ => rfl, ⟨_, rfl, by decide, by decide, by decide, by decide,
    by decide⟩⟩
  have hbst := hinv.bst
  have hh := height_le_of_count_lt _ hinv.bal hinv.hts hc
  rw [inv_node_iff] at hinv
  obtain ⟨⟨hkl, hkr⟩, ⟨hb1, hb2⟩, hh0, hil, hir⟩ := hinv
  simp only [height_node] at hh hb1 hb2 hh0
  obtain ⟨m, r1, hfm, hem, ⟨ma, mk, mh, mr, mp, hm, hior⟩, hbr1, hhr1, hht, hpar⟩ :=
    erase_min_spec (node ra rk rh rl rr rp) (by simp) hir.bal hir.hts
      (by simp only [height_node]; omega)
  subst hm
  simp only [height_node] at hht
  have hr10 := height_nonneg r1
  obtain ⟨t1, hbal, hbt, hht1, hio, hth, _⟩ :=
    balance_spec ma mk mh (setPrev (node la lk lh ll lr lp) (some ma)) (setPrev r1 (some ma)) mp
      ((balanced_setPrev _ _).2 hil.bal) ((balanced_setPrev _ _).2 hbr1)
      ((heightOK_setPrev _ _).2 hil.hts) ((heightOK_setPrev _ _).2 hhr1)
      (by rw [height_setPrev, height_setPrev, height_node]; omega)
      (by rw [height_setPrev, height_setPrev, height_node]; omega)
      (by rw [height_setPrev, height_node]; omega) (by rw [height_setPrev]; omega)
  rw [inorder_setPrev, inorder_setPrev] at hio
  rw [height_setPrev, height_setPrev, height_node] at hth
  have hkeys : keys (node ra rk rh rl rr rp) = mk :: keys r1 := by
    rw [keys, hior]; rfl
  have hmin := head_le_of_pairwise ((bst_iff_pairwise _).1 hir.bst) (k := mk)
    (by rw [hkeys]; rfl)
  have hfl : (inorder (node la lk lh ll lr lp)).filter (fun x => decide (x.2 ≠ e)) =
      inorder (node la lk lh ll lr lp) :=
    filter_ne_eq_self _ e (fun x hx => ne_of_lt (hkl x hx))
  have hfr : (inorder (node ra rk rh rl rr rp)).filter (fun x => decide (x.2 ≠ e)) =
      inorder (node ra rk rh rl rr rp) :=
    filter_ne_eq_self _ e (fun x hx => ne_of_gt (hkr x hx))
  have hfilt : inorder t1 =
      (inorder (node ca e h (node la lk lh ll lr lp) (node ra rk rh rl rr rp) p)).filter
        (fun x => decide (x.2 ≠ e)) := by
    have hstep : inorder (node ca e h (node la lk lh ll lr lp) (node ra rk rh rl rr rp) p) =
        inorder (node la lk lh ll lr lp) ++ (ca, e) :: inorder (node ra rk rh rl rr rp) := rfl
    rw [hio, ← hior, hstep, List.filter_append, List.filter_cons, hfl, hfr]
    simp
  refine ⟨ma, mk, mh, mr, mp, r1, t1, hfm, hem, hmin, hior, hbal, ?_, hio,
    bst_of_filter e hfilt hbst, hbt, hht1, ?_, ?_, hht⟩
  · simp [erase, hfm, hem, hang_right, hang_left, hbal]
  · omega
  · rcases hth with h1 | ⟨h1, _⟩
    · exact Or.inl h1
    · exact Or.inr h1

theorem erase_two_children_witness :
    Inv sampleTree ∧ count sampleTree < SIZE_MOD ∧
      ∃ t1, erase sampleTree 5 3 = some (t1, (3 + (SIZE_MOD - 1)) % SIZE_MOD) ∧
        BST t1 ∧ Balanced t1 ∧ HeightOK t1 :=
  ⟨by decide, by decide,
    let ⟨_, _, _, _, _, _, t1, hx⟩ :=
      (erase_two_children 1 5 2 none 2 3 1 nil nil (some 1) 3 8 1 nil nil (some 1) 3
        (by decide) (by decide)).1
    ⟨t1, hx.2.2.2.2.2.1, hx.2.2.2.2.2.2.2.1, hx.2.2.2.2.2.2.2.2.1,
      hx.2.2.2.2.2.2.2.2.2.1⟩⟩

/-- C14: the ascending-insert scenario.  Inserting `1, 2, 3, 4, 5, 6, 7` in this
order into an empty set gives the perfect tree `4(2(1,3),6(5,7))`: the
traversal is `1, 2, 3, 4, 5, 6, 7`, the root key is `4` and the height is `3`
(stored and actual). -/
theorem ascending_insert_scenario :
    insert_all (Set.ctor : Set Nat) [1, 2, 3, 4, 5, 6, 7] [1, 2, 3, 4, 5, 6, 7] =
      some ⟨perfect7, 7⟩ ∧
    traverse (⟨perfect7, 7⟩ : Set Nat) 9 = some [1, 2, 3, 4, 5, 6, 7] ∧
    keyOf perfect7 = some 4 ∧ height perfect7 = 3 ∧ depth perfect7 = 3 := by
  refine ⟨by decide, by decide, by decide, by decide, by decide⟩

/-- C15: `balance` restores balance at a node.  For a node whose subtrees `l`
and `r` satisfy AVL balance and height consistency at all their nodes, with
heights `hl`, `hr` that differ by at most `2` (and fewer than `2 ^ 64` nodes),
`balance` returns a tree that satisfies AVL balance and height consistency at
every node, has the in-order key sequence of the input and has height
`max hl hr + 1` or `max hl hr`; when `hl` and `hr` differ by at most `1` it
returns the same node with its height recomputed as `max hl hr + 1`. -/
theorem balance_restores_balance (a : Nat) (k : α) (h : Nat) (l r : Node α) (p : Option Nat)
    (hbl : Balanced l) (hbr : Balanced r) (hhl : HeightOK l) (hhr : HeightOK r)
    (hd1 : height r ≤ height l + 2) (hd2 : height l ≤ height r + 2)
    (hc : count (node a k h l r p) < SIZE_MOD) :
    ∃ t, balance (node a k h l r p) = some t ∧ Balanced t ∧ HeightOK t ∧
      keys t = keys (node a k h l r p) ∧
      (height t = max (height l) (height r) + 1 ∨ height t = max (height l) (height r)) ∧
      (height r ≤ height l + 1 → height l ≤ height r + 1 →
        ∃ h1 : Nat, (h1 : Int) = max (height l) (height r) + 1 ∧ t = node a k h1 l r p) := by
  simp only [count] at hc
  have hl := height_le_of_count_lt l hbl hhl (by omega)
  have hr := height_le_of_count_lt r hbr hhr (by omega)
  have hl0 := height_nonneg l
  have hr0 := height_nonneg r
  obtain ⟨t, hbal, hb, hho, hio, hth, _, hid, _⟩ :=
    balance_spec a k h l r p hbl hbr hhl hhr hd1 hd2 (by omega) (by omega)
  refine ⟨t, hbal, hb, hho, ?_, ?_, ?_⟩
  · rw [keys, hio, keys_node]; simp [keys]
  · rcases hth with h1 | ⟨h1, _⟩
    · exact Or.inl h1
    · exact Or.inr h1
  · intro c1 c2
    refine ⟨toUChar (max (height l) (height r) + 1), ?_, hid c1 c2⟩
    exact toUChar_of_lt _ (by omega) (by omega)

theorem balance_restores_balance_witness :
    Balanced leftHeavy ∧ HeightOK leftHeavy ∧ height (nil : Node Nat) ≤ height leftHeavy + 2 ∧
      height leftHeavy ≤ height (nil : Node Nat) + 2 ∧
      count (node 1 5 0 leftHeavy nil none) < SIZE_MOD ∧
      ∃ t, balance (node 1 5 0 leftHeavy nil none) = some t ∧ Balanced t ∧ HeightOK t ∧
        keys t = keys (node 1 5 0 leftHeavy nil none) :=
  ⟨by decide, by decide, by decide, by decide, by decide,
    (balance_restores_balance 1 5 0 leftHeavy nil none (by decide) (by decide) (by decide)
      (by decide) (by decide) (by decide) (by decide)).imp
      (fun _ ht => ⟨ht.1, ht.2.1, ht.2.2.1, ht.2.2.2.1⟩)⟩

theorem heightOK_height_pos {t : Node α} (h : HeightOK t) (h0 : height t ≤ 0) : t = nil := by
  cases t with
  | nil => rfl
  | node a k ht l r p =>
    obtain ⟨h1, _, _⟩ := h
    simp only [height_node] at h0
    have hl0 := height_nonneg l
    have hr0 := height_nonneg r
    omega

/-- C16: `erase` of a node with at most one child is a splice.  When `erase`
reaches the node that holds `e`, in a tree with the invariants, and that node
has at most one child, the result for that position is exactly that child
subtree, unchanged, or nil when there is no child, as the specification's
splice says; this holds when the only child is the left one (returned
directly) and when it is the right one (through `find_min`, `erase_min` and
`balance`).  The counter is decremented. -/
theorem erase_splice (ca : Nat) (e : α) (h : Nat) (l r : Node α) (p : Option Nat) (c : Nat)
    (hinv : Inv (node ca e h l r p)) (hone : l = nil ∨ r = nil) :
    erase (node ca e h l r p) e c = some (spec_splice l r, (c + (SIZE_MOD - 1)) % SIZE_MOD) ∧
    (r = nil → spec_splice l r = l) ∧ (l = nil → spec_splice l r = r) := by
  rw [inv_node_iff] at hinv
  obtain ⟨_, ⟨hb1, hb2⟩, hh0, hil, hir⟩ := hinv
  cases r with
  | nil =>
    refine ⟨by simp [erase, spec_splice], fun _ => rfl, fun hl => ?_⟩
    rw [hl]; rfl
  | node ra rk rh rl rr rp =>
    have hl : l = nil := by
      rcases hone with h1 | h1
      · exact h1
      · exact absurd h1 (by simp)
    subst hl
    refine ⟨?_, fun h1 => absurd h1 (by simp), fun _ => rfl⟩
    obtain ⟨hrh, hhrl, hhrr⟩ := hir.hts
    simp only [height_node, height_nil] at hb2 hrh
    have hrl0 := height_nonneg rl
    have hrr0 := height_nonneg rr
    have hrl : rl = nil := heightOK_height_pos hhrl (by omega)
    have hrr : rr = nil := heightOK_height_pos hhrr (by omega)
    subst hrl
    subst hrr
    have hrh1 : rh = 1 := by simp only [height_nil] at hrh; omega
    subst hrh1
    have hbal := balance_mid ra rk 1 (nil : Node α) nil rp (by simp) (by simp)
    simp only [height_nil] at hbal
    have h1 : toUChar (max (0 : Int) 0 + 1) = 1 := by decide
    rw [h1] at hbal
    simp [erase, find_min, erase_min, hang_right, hang_left, setPrev, hbal, spec_splice]

theorem erase_splice_witness :
    Inv (node 1 5 2 nil (node 3 8 1 nil nil (some 1)) none : Node Nat) ∧
      erase (node 1 5 2 nil (node 3 8 1 nil nil (some 1)) none : Node Nat) 5 2 =
        some (node 3 8 1 nil nil (some 1), 1) :=
  ⟨by decide,
    (erase_splice 1 5 2 nil (node 3 8 1 nil nil (some 1)) none 2 (by decide)
      (Or.inl rfl)).1⟩

/-- C17: rotation dispatch on the balance factor.  For every `int` value `f`,
the comparison `f == -ROTATE_FACTOR`, evaluated after conversion to the 64-bit
unsigned type, is true iff `f = -2`, and `f == ROTATE_FACTOR` is true iff
`f = 2`.  Hence, for a node whose children have stored heights in the range of
`unsigned char`, `balance` takes the left-rotation branch (after a right
rotation of the right child iff that child's factor is negative) exactly when
the factor is `2`, the right-rotation branch (after a left rotation of the
left child iff that child's factor is positive) exactly when the factor is
`-2`, and otherwise returns the node with its height recomputed, without a
rotation. -/
theorem rotation_dispatch (f : Int) (hf1 : -2147483648 ≤ f) (hf2 : f ≤ 2147483647)
    (a : Nat) (k : α) (h : Nat) (l r : Node α) (p : Option Nat)
    (hl : height l ≤ 255) (hr : height r ≤ 255) :
    (toSizeT f = negSizeT ROTATE_FACTOR ↔ f = -2) ∧
    (toSizeT f = ROTATE_FACTOR ↔ f = 2) ∧
    (height r - height l = 2 →
      balance (node a k h l r p) =
        (factor r).bind (fun fr =>
          if fr < 0 then
            (rotate_right r).bind (fun r1 =>
              (hang_right (node a k (toUChar (max (height l) (height r) + 1)) l r p) r1).bind
                rotate_left)
          else rotate_left (node a k (toUChar (max (height l) (height r) + 1)) l r p))) ∧
    (height r - height l = -2 →
      balance (node a k h l r p) =
        (factor l).bind (fun fl =>
          if fl > 0 then
            (rotate_left l).bind (fun l1 =>
              (hang_left (node a k (toUChar (max (height l) (height r) + 1)) l r p) l1).bind
                rotate_right)
          else rotate_right (node a k (toUChar (max (height l) (height r) + 1)) l r p))) ∧
    (height r - height l ≠ 2 → height r - height l ≠ -2 →
      balance (node a k h l r p) =
        some (node a k (toUChar (max (height l) (height r) + 1)) l r p)) := by
  have hl0 := height_nonneg l
  have hr0 := height_nonneg r
  have e0 : ¬ negSizeT ROTATE_FACTOR = ROTATE_FACTOR := by decide
  refine ⟨?_, ?_, ?_, ?_, ?_⟩
  · unfold toSizeT ROTATE_FACTOR negSizeT SIZE_MOD
    omega
  · unfold toSizeT ROTATE_FACTOR SIZE_MOD
    omega
  · intro hf
    have e1 : toSizeT (height r - height l) = ROTATE_FACTOR :=
      (toSizeT_eq_two _ (by omega) (by omega)).2 hf
    simp [balance, fix, factor, rightOf, e1]
  · intro hf
    have e1 : ¬ toSizeT (height r - height l) = ROTATE_FACTOR := by
      rw [toSizeT_eq_two _ (by omega) (by omega)]; omega
    have e2 : toSizeT (height r - height l) = negSizeT ROTATE_FACTOR :=
      (toSizeT_eq_neg_two _ (by omega) (by omega)).2 hf
    simp [balance, fix, factor, leftOf, e0, e1, e2]
  · intro hf hg
    have e1 : ¬ toSizeT (height r - height l) = ROTATE_FACTOR := by
      rw [toSizeT_eq_two _ (by omega) (by omega)]; exact hf
    have e2 : ¬ toSizeT (height r - height l) = negSizeT ROTATE_FACTOR := by
      rw [toSizeT_eq_neg_two _ (by omega) (by omega)]; exact hg
    simp [balance, fix, factor, e1, e2]

theorem rotation_dispatch_witness :
    (-2147483648 : Int) ≤ -2 ∧ (-2 : Int) ≤ 2147483647 ∧ height leftHeavy ≤ 255 ∧
      height (nil : Node Nat) ≤ 255 ∧
      (toSizeT (-2) = negSizeT ROTATE_FACTOR ↔ (-2 : Int) = -2) ∧
      (toSizeT (-2) = ROTATE_FACTOR ↔ (-2 : Int) = 2) :=
  ⟨by decide, by decide, by decide, by decide,
    (rotation_dispatch (-2) (by decide) (by decide) 1 5 0 leftHeavy nil none (by decide)
      (by decide)).1,
    (rotation_dispatch (-2) (by decide) (by decide) 1 5 0 leftHeavy nil none (by decide)
      (by decide)).2.1⟩

/-- C18, counterexample: when `rotate_right(X)` returns on `rotSample`, whose
parent is the node at address `9`, the `prev` of `L`, the new subtree root, is
still the address `1` of `X` and not the address `9` of the former parent of
`X`. -/
theorem rotate_right_prev_counterexample :
    rotate_right rotSample = some rotSampleResult ∧
      prevOf rotSample = some (some 9) ∧ prevOf rotSampleResult = some (some 1) ∧
      prevOf rotSampleResult ≠ prevOf rotSample := by
  decide

/-- C18, as amended: when `rotate_right(X)` with left child `L` returns, two
back pointers have been written: the former right child of `L` has parent `X`
and `X` has parent `L`; the `prev` of `L`, which takes the position of `X`, is
not written by the rotation and keeps its value `lp` (`rotate_left` is the
mirror image).  The callers give the returned node its parent: `hang_left` and
`hang_right` applied to it store the address of the caller's node; the tree
that `balance` returns has consistent back pointers at every node below its
root, the one re-hung after an inner rotation included; so have the trees that
the private `insert`, `erase` and `erase_min` return; and after the public
`insert` and `erase`, which set `root->prev` to null, every non-null child has
its parent in `prev` and the `prev` of the root is null.  On the set `{1, 2}`,
`insert(3)` rotates the root: the private `insert` returns the node of key `2`
with `prev` still at the node of key `1`, and the public `insert` returns it
with a null `prev`. -/
theorem rotation_parent_links (a : Nat) (k : α) (h : Nat) (p : Option Nat)
    (ca : Nat) (ck : α) (ch : Nat) (cl cr : Node α) (cp : Option Nat)
    (t : Node α) (hinv : Inv t) (hpt : ParentOK t) (hct : count t < SIZE_MOD)
    (s : Set α) (hwf : s.WF) (na : Nat) (h0 : 0 < na) (h1 : na < SIZE_MOD)
    (hfr : na ∉ addrs s.root) (e : α) (c : Nat) :
    (∀ (la : Nat) (lk : α) (lh : Nat) (ll lr : Node α) (lp : Option Nat) (r : Node α),
      ∃ hL hX, rotate_right (node a k h (node la lk lh ll lr lp) r p) =
          some (node la lk hL ll (node a k hX (setPrev lr (some a)) r (some la)) lp) ∧
        prevIs (setPrev lr (some a)) (some a) ∧
        hang_left (node ca ck ch cl cr cp)
            (node la lk hL ll (node a k hX (setPrev lr (some a)) r (some la)) lp) =
          some (node ca ck ch
            (node la lk hL ll (node a k hX (setPrev lr (some a)) r (some la)) (some ca)) cr cp) ∧
        hang_right (node ca ck ch cl cr cp)
            (node la lk hL ll (node a k hX (setPrev lr (some a)) r (some la)) lp) =
          some (node ca ck ch cl
            (node la lk hL ll (node a k hX (setPrev lr (some a)) r (some la)) (some ca)) cp)) ∧
    (∀ (ra : Nat) (rk : α) (rh : Nat) (rl rr : Node α) (rp : Option Nat) (l : Node α),
      ∃ hR hX, rotate_left (node a k h l (node ra rk rh rl rr rp) p) =
          some (node ra rk hR (node a k hX l (setPrev rl (some a)) (some ra)) rr rp) ∧
        prevIs (setPrev rl (some a)) (some a) ∧
        hang_left (node ca ck ch cl cr cp)
            (node ra rk hR (node a k hX l (setPrev rl (some a)) (some ra)) rr rp) =
          some (node ca ck ch
            (node ra rk hR (node a k hX l (setPrev rl (some a)) (some ra)) rr (some ca)) cr cp) ∧
        hang_right (node ca ck ch cl cr cp)
            (node ra rk hR (node a k hX l (setPrev rl (some a)) (some ra)) rr rp) =
          some (node ca ck ch cl
            (node ra rk hR (node a k hX l (setPrev rl (some a)) (some ra)) rr (some ca)) cp)) ∧
    (∀ l r : Node α, Balanced l → Balanced r → HeightOK l → HeightOK r →
      height r ≤ height l + 2 → height l ≤ height r + 2 →
      count (node a k h l r p) < SIZE_MOD →
      ParentOK l → ParentOK r → prevIs l (some a) → prevIs r (some a) →
      ∃ t1, balance (node a k h l r p) = some t1 ∧ ParentOK t1) ∧
    (∃ t1 c1, insert na t e c = some (t1, c1) ∧ ParentOK t1) ∧
    (∃ t1 c1, erase t e c = some (t1, c1) ∧ ParentOK t1) ∧
    (t ≠ nil → ∃ t1, erase_min t = some t1 ∧ ParentOK t1) ∧
    (∃ s1, Set.insert na s e = some s1 ∧ ParentOK s1.root ∧ prevIs s1.root none) ∧
    (∃ s1, Set.erase s e = some s1 ∧ ParentOK s1.root ∧ prevIs s1.root none) ∧
    (insert 3 set12.root 3 set12.cnt =
        some (node 2 2 2 (node 1 1 1 nil nil (some 2)) (node 3 3 1 nil nil (some 2)) (some 1),
          3) ∧
      Set.insert 3 set12 3 =
        some ⟨node 2 2 2 (node 1 1 1 nil nil (some 2)) (node 3 3 1 nil nil (some 2)) none,
          3⟩) := by
  have hh := height_le_of_count_lt t hinv.bal hinv.hts hct
  refine ⟨?_, ?_, ?_, ?_, ?_, ?_, ?_, ?_, by decide, by decide⟩
  · intro la lk lh ll lr lp r
    exact ⟨_, _, rotate_right_node a k h la lk lh ll lr lp r p, prevIs_setPrev _ _, rfl, rfl⟩
  · intro ra rk rh rl rr rp l
    exact ⟨_, _, rotate_left_node a k h ra rk rh rl rr rp l p, prevIs_setPrev _ _, rfl, rfl⟩
  · intro l r hbl hbr hhl hhr hd1 hd2 hc hpl hpr hql hqr
    simp only [count] at hc
    have hl := height_le_of_count_lt l hbl hhl (by omega)
    have hr := height_le_of_count_lt r hbr hhr (by omega)
    obtain ⟨t1, hbal, _, _, _, _, hpo, _⟩ :=
      balance_spec a k h l r p hbl hbr hhl hhr hd1 hd2 (by omega) (by omega)
    exact ⟨t1, hbal, hpo hpl hpr hql hqr⟩
  · obtain ⟨t1, c1, hins, _, _, _, _, _, hpar⟩ := insert_spec na e c t hinv (by omega)
    exact ⟨t1, c1, hins, hpar hpt⟩
  · obtain ⟨t1, c1, hers, _, _, _, _, _, hpar⟩ := erase_spec e c t hinv (by omega)
    exact ⟨t1, c1, hers, hpar hpt⟩
  · intro hne
    obtain ⟨m, t1, _, hem, _, _, _, _, hpar⟩ :=
      erase_min_spec t hne hinv.bal hinv.hts (by omega)
    exact ⟨t1, hem, hpar hpt⟩
  · obtain ⟨s1, h2, hwf1, _, _⟩ := set_insert_spec na s e hwf h0 h1 hfr
    exact ⟨s1, h2, hwf1.parent, hwf1.rootPrev⟩
  · obtain ⟨s1, h2, hwf1, _, _, _⟩ := set_erase_spec s e hwf
    exact ⟨s1, h2, hwf1.parent, hwf1.rootPrev⟩

theorem rotation_parent_links_witness :
    Inv set12.root ∧ ParentOK set12.root ∧ count set12.root < SIZE_MOD ∧ set12.WF ∧
      3 ∉ addrs set12.root ∧
      (∃ t1 c1, insert 3 set12.root 3 2 = some (t1, c1) ∧ ParentOK t1) ∧
      (∃ s1, Set.insert 3 set12 3 = some s1 ∧ ParentOK s1.root ∧ prevIs s1.root none) :=
  ⟨by decide, by decide, by decide, by decide, by decide,
    (rotation_parent_links 1 1 2 none 9 9 1 nil nil none set12.root (by decide) (by decide)
      (by decide) set12 (by decide) 3 (by decide) (by decide) (by decide) 3 2).2.2.2.1,
    (rotation_parent_links 1 1 2 none 9 9 1 nil nil none set12.root (by decide) (by decide)
      (by decide) set12 (by decide) 3 (by decide) (by decide) (by decide) 3 2).2.2.2.2.2.2.1⟩

/-- C19: the rotation postcondition.  For a node `X` with non-null left child
`L` (the stored heights of the three subtrees leaving room in the
`unsigned char` field), `rotate_right(X)` returns `L` as the new subtree root
with `X` as right child of `L`, the former right subtree of `L` as left child
of `X`, and the left subtree of `L` and the right subtree of `X` unchanged; the
stored height of `X` is `1 + max` of the heights of its new children and then
that of `L` is `1 + max` of the heights of its new children (the new height of
`X` among them); the in-order key sequence is that of the input.
`rotate_left` is the mirror image for a non-null right child. -/
theorem rotation_postcondition (a : Nat) (k : α) (h : Nat) (p : Option Nat)
    (ca : Nat) (ck : α) (ch : Nat) (x y z : Node α) (cp : Option Nat)
    (hx : height x ≤ 253) (hy : height y ≤ 253) (hz : height z ≤ 253) :
    (∃ hL hX : Nat, rotate_right (node a k h (node ca ck ch x y cp) z p) =
        some (node ca ck hL x (node a k hX (setPrev y (some a)) z (some ca)) cp) ∧
      dropPrev (setPrev y (some a)) = dropPrev y ∧
      (hX : Int) = max (height y) (height z) + 1 ∧
      (hL : Int) = max (height x) (hX : Int) + 1 ∧
      keys (node ca ck hL x (node a k hX (setPrev y (some a)) z (some ca)) cp) =
        keys (node a k h (node ca ck ch x y cp) z p)) ∧
    (∃ hR hX : Nat, rotate_left (node a k h x (node ca ck ch y z cp) p) =
        some (node ca ck hR (node a k hX x (setPrev y (some a)) (some ca)) z cp) ∧
      dropPrev (setPrev y (some a)) = dropPrev y ∧
      (hX : Int) = max (height x) (height y) + 1 ∧
      (hR : Int) = max (hX : Int) (height z) + 1 ∧
      keys (node ca ck hR (node a k hX x (setPrev y (some a)) (some ca)) z cp) =
        keys (node a k h x (node ca ck ch y z cp) p)) := by
  have hx0 := height_nonneg x
  have hy0 := height_nonneg y
  have hz0 := height_nonneg z
  constructor
  · refine ⟨_, _, rotate_right_node a k h ca ck ch x y cp z p, dropPrev_setPrev _ _, ?_, ?_, ?_⟩
    · exact toUChar_of_lt _ (by omega) (by omega)
    · rw [toUChar_of_lt (max (height y) (height z) + 1) (by omega) (by omega)]
      exact toUChar_of_lt _ (by omega) (by omega)
    · simp
  · refine ⟨_, _, rotate_left_node a k h ca ck ch y z cp x p, dropPrev_setPrev _ _, ?_, ?_, ?_⟩
    · exact toUChar_of_lt _ (by omega) (by omega)
    · rw [toUChar_of_lt (max (height x) (height y) + 1) (by omega) (by omega)]
      exact toUChar_of_lt _ (by omega) (by omega)
    · simp

theorem rotation_postcondition_witness :
    height (node 4 1 1 nil nil (some 2) : Node Nat) ≤ 253 ∧
      height (node 5 4 1 nil nil (some 2) : Node Nat) ≤ 253 ∧
      height (node 3 8 1 nil nil (some 1) : Node Nat) ≤ 253 ∧
      rotate_right rotSample = some rotSampleResult ∧
      ∃ hL hX : Nat, rotate_right rotSample =
          some (node 2 3 hL (node 4 1 1 nil nil (some 2))
            (node 1 5 hX (setPrev (node 5 4 1 nil nil (some 2)) (some 1))
              (node 3 8 1 nil nil (some 1)) (some 2)) (some 1)) ∧
        (hX : Int) = max (height (node 5 4 1 nil nil (some 2) : Node Nat))
          (height (node 3 8 1 nil nil (some 1) : Node Nat)) + 1 ∧
        (hL : Int) = max (height (node 4 1 1 nil nil (some 2) : Node Nat)) (hX : Int) + 1 :=
  ⟨by decide, by decide, by decide, by decide,
    (rotation_postcondition 1 5 3 (some 9) 2 3 2 (node 4 1 1 nil nil (some 2))
      (node 5 4 1 nil nil (some 2)) (node 3 8 1 nil nil (some 1)) (some 1)
      (by decide) (by decide) (by decide)).1.imp
      (fun _ h1 => h1.imp (fun _ h2 => ⟨h2.1, h2.2.2.1, h2.2.2.2.1⟩))⟩

theorem isSub_invariants {n t : Node α} (hs : IsSub n t) (hb : Balanced t) (hh : HeightOK t) :
    Balanced n ∧ HeightOK n ∧ count n ≤ count t := by
  induction t with
  | nil => exact absurd hs (by simp [IsSub])
  | node a k h l r p ihl ihr =>
    rcases hs with h1 | h1 | h1
    · rw [h1]; exact ⟨hb, hh, le_refl _⟩
    · obtain ⟨g1, g2, g3⟩ := ihl h1 hb.2.1 hh.2.1
      exact ⟨g1, g2, by simp only [count]; omega⟩
    · obtain ⟨g1, g2, g3⟩ := ihr h1 hb.2.2 hh.2.2
      exact ⟨g1, g2, by simp only [count]; omega⟩

theorem stored_heights_exact (t : Node α) (hb : Balanced t) (hh : HeightOK t)
    (hc : count t < SIZE_MOD) (a : Nat) (k : α) (h : Nat) (l r : Node α) (p : Option Nat)
    (hs : IsSub (node a k h l r p) t) :
    max (height l) (height r) + 1 ≤ 255 ∧ (h : Int) = max (height l) (height r) + 1 ∧
      fix (node a k h l r p) = some (node a k h l r p) := by
  obtain ⟨g1, g2, g3⟩ := isSub_invariants hs hb hh
  have g4 := height_le_of_count_lt _ g1 g2 (by omega)
  simp only [height_node] at g4
  obtain ⟨g5, _, _⟩ := g2
  refine ⟨by omega, g5, ?_⟩
  simp only [fix]
  rw [toUChar_eq _ _ g5 (by omega)]

/-- C20: the 8-bit height field never truncates.  In a tree `t` that satisfies
AVL balance and height consistency and has fewer than `2 ^ 64` nodes, the
stored height is the actual height of the tree and at every node the value
`1 + max(height(left), height(right))` that `fix` stores is at most `255`, so
`fix` stores it unreduced; the same holds when `fix` is applied to a new node
over two such trees, as `insert`, `erase` and the rotations do.  Hence on every
set reached by `insert` and `erase` calls every stored height is the actual
height of its subtree. -/
theorem height_field_never_truncates (t : Node α) (hb : Balanced t) (hh : HeightOK t)
    (hc : count t < SIZE_MOD) (s : Set α) (m : Finset α) (hr : Reach s m) :
    (height t = (depth t : Int) ∧ depth t ≤ 129) ∧
    (∀ a k h l r p, IsSub (node a k h l r p) t →
      max (height l) (height r) + 1 ≤ 255 ∧ (h : Int) = max (height l) (height r) + 1 ∧
        fix (node a k h l r p) = some (node a k h l r p)) ∧
    (∀ (a : Nat) (k : α) (h : Nat) (p : Option Nat) (u : Node α),
      Balanced u → HeightOK u → count u < SIZE_MOD →
      ∃ h1 : Nat, fix (node a k h t u p) = some (node a k h1 t u p) ∧
        (h1 : Int) = max (height t) (height u) + 1 ∧ h1 ≤ 255) ∧
    (height s.root = (depth s.root : Int) ∧
      ∀ a k h l r p, IsSub (node a k h l r p) s.root →
        max (height l) (height r) + 1 ≤ 255 ∧ (h : Int) = max (height l) (height r) + 1 ∧
          height (node a k h l r p) = (depth (node a k h l r p) : Int)) := by
  have h1 := height_le_of_count_lt t hb hh hc
  have h2 := height_eq_depth t hh
  have ht0 := height_nonneg t
  refine ⟨⟨h2, by omega⟩, fun a k h l r p hs => stored_heights_exact t hb hh hc a k h l r p hs,
    ?_, ?_⟩
  · intro a k h p u hbu hhu hcu
    have h3 := height_le_of_count_lt u hbu hhu hcu
    have hu0 := height_nonneg u
    have h4 := toUChar_of_lt (max (height t) (height u) + 1) (by omega) (by omega)
    exact ⟨_, rfl, h4, by omega⟩
  · obtain ⟨hwf, _⟩ := reach_wf hr
    have hcs := count_lt_of_addrOK _ hwf.addr
    refine ⟨height_eq_depth _ hwf.inv.hts, fun a k h l r p hs => ?_⟩
    obtain ⟨g1, g2, _⟩ := stored_heights_exact s.root hwf.inv.bal hwf.inv.hts hcs a k h l r p hs
    exact ⟨g1, g2, height_eq_depth _ (isSub_invariants hs hwf.inv.bal hwf.inv.hts).2.1⟩

theorem height_field_never_truncates_witness :
    Balanced sampleTree ∧ HeightOK sampleTree ∧ count sampleTree < SIZE_MOD ∧
      Reach sampleSet sampleModel ∧
      (height sampleTree = (depth sampleTree : Int) ∧ depth sampleTree ≤ 129) ∧
      (height sampleSet.root = (depth sampleSet.root : Int) ∧
        ∀ a k h l r p, IsSub (node a k h l r p) sampleSet.root →
          max (height l) (height r) + 1 ≤ 255 ∧ (h : Int) = max (height l) (height r) + 1 ∧
            height (node a k h l r p) = (depth (node a k h l r p) : Int)) :=
  ⟨by decide, by decide, by decide, sampleSet_reach,
    (height_field_never_truncates sampleTree (by decide) (by decide) (by decide) sampleSet
      sampleModel sampleSet_reach).1,
    (height_field_never_truncates sampleTree (by decide) (by decide) (by decide) sampleSet
      sampleModel sampleSet_reach).2.2.2⟩

end AVLTree
